import Mathlib

/-!
# Shapelet basis conversion and shapelet functions

A shallow embedding of `src/src/ConversionMatrix.cc` and `src/src/ShapeletFunction.cc`
in exact arithmetic.  `double` is a field `K` (the theorems about the numerical content are
stated for `ℝ`), `std::complex<double>` is a pair of `K`, `int` is `Int`, and the process-wide
`ConversionSingleton` is passed explicitly as a state.
-/

set_option autoImplicit false

namespace Shapelet

/-! ## Scalars -/

/-- The `<cmath>` primitives the code calls, as functions on the scalar type:
`std::sqrt`, `std::pow(double, double)` and the constant `afw::geom::PI`. -/
structure FloatOps (K : Type) where
  sqrt : K → K
  pow : K → K → K
  pi : K

/-- A `std::complex<double>`: real and imaginary part. -/
structure Cplx (K : Type) where
  re : K
  im : K

namespace Cplx

variable {K : Type} [Field K]

/-- The value `std::complex<double>(1.0, 0.0)`. -/
def one : Cplx K := ⟨1, 0⟩

/-- The operator `complex + complex`. -/
def add (a b : Cplx K) : Cplx K := ⟨a.re + b.re, a.im + b.im⟩

/-- The operator `complex * complex`. -/
def mul (a b : Cplx K) : Cplx K := ⟨a.re * b.re - a.im * b.im, a.re * b.im + a.im * b.re⟩

/-- The operator `complex * double`. -/
def mulReal (a : Cplx K) (k : K) : Cplx K := ⟨a.re * k, a.im * k⟩

/-- The operator `complex / double`. -/
def divReal (a : Cplx K) (k : K) : Cplx K := ⟨a.re / k, a.im / k⟩

/-- The reciprocal `1 / z`. -/
def inv (a : Cplx K) : Cplx K :=
  ⟨a.re / (a.re * a.re + a.im * a.im), -a.im / (a.re * a.re + a.im * a.im)⟩

/-- The power `z^k` for a natural exponent, by repeated multiplication. -/
def npow (a : Cplx K) : Nat → Cplx K
  | 0 => one
  | k + 1 => mul (npow a k) a

/-- The call `std::pow(z, m)` with an `int` exponent: `z^m`, and `1 / z^(-m)` when `m < 0`. -/
def powInt (a : Cplx K) (m : Int) : Cplx K :=
  if m < 0 then inv (npow a (-m).toNat) else npow a m.toNat

end Cplx

/-! ## Basis types and sizes -/

/-- The enumeration `BasisTypeEnum` of `constants.h`. -/
inductive BasisTypeEnum where
  | HERMITE
  | LAGUERRE
  deriving DecidableEq, Repr

open BasisTypeEnum

/-- Modelled from the spec: `computeSize` is declared in `constants.h`, which is not among the
sources; the spec gives `computeSize(order) = (order+1)(order+2)/2`.  The numerator is a product
of two consecutive integers, so it is even and non-negative for every `order`. -/
def computeSize (order : Int) : Int := (order + 1) * (order + 2) / 2

/-! ## Conversion blocks -/

/-- A square `Eigen::MatrixXd` as stored in the conversion cache: `rows()` and the entries. -/
structure Block (K : Type) where
  rows : Nat
  coeff : Matrix (Fin rows) (Fin rows) K

section Blocks

variable {K : Type} [Field K]

/-- The value `Eigen::MatrixXd::Identity(k, k)`. -/
def Block.identity (k : Nat) : Block K := ⟨k, 1⟩

/-- The inner double loop of `makeBlockH2L` for one entry `c(i, x)`: `r` runs over `0..p`,
`s` over `0..q`, and the term is added when `r + s == x`. -/
def accumulate (v2 : Cplx K) (p q x : Nat) (c0 : Cplx K) : Cplx K :=
  (List.range (p + 1)).foldl
    (fun acc r =>
      (List.range (q + 1)).foldl
        (fun acc s =>
          if r + s = x then
            let m_p : Int := (r : Int) - (s : Int)
            Cplx.add acc
              (Cplx.mulReal
                (Cplx.mulReal (Cplx.mul v2 (Cplx.powInt ⟨0, 1⟩ m_p)) (Nat.choose p r : K))
                (Nat.choose q s : K))
          else acc)
        acc)
    c0

/-- Entry `c(i, x)` of the complex matrix built by the first loop nest of `makeBlockH2L(n)`;
row `i` belongs to `m = -n + 2 i`. -/
def complexEntry (ops : FloatOps K) (n i x : Nat) : Cplx K :=
  let m : Int := -(n : Int) + 2 * (i : Int)
  let p : Nat := (((n : Int) + m) / 2).toNat
  let q : Nat := (((n : Int) - m) / 2).toNat
  let p_factorial : K := (Nat.factorial p : K)
  let q_factorial : K := (Nat.factorial q : K)
  let v1 : Cplx K :=
    Cplx.divReal
      (Cplx.mulReal (Cplx.powInt ⟨0, -1⟩ m) (ops.pow 2 (-(1 / 2) * (n : K))))
      (ops.sqrt (p_factorial * q_factorial))
  let y : Nat := n - x
  let x_factorial : K := (Nat.factorial x : K)
  let y_factorial : K := (Nat.factorial y : K)
  let v2 : Cplx K := Cplx.mulReal v1 (ops.sqrt (x_factorial * y_factorial))
  accumulate v2 p q x ⟨0, 0⟩

/-- The assignment `b(i, j) = v` on a matrix held as a function of its indices. -/
def writeCoeff (b : Nat → Nat → K) (i j : Nat) (v : K) : Nat → Nat → K :=
  fun i2 j2 => if i2 = i ∧ j2 = j then v else b i2 j2

/-- The loop `for (int p = n, q = 0; q <= p; --p, ++q)` of the packing step, for column `x`.
Inside the body `q ≤ p`, so the decrement of `p` stays in the naturals except after the
last iteration with `p = 0`, where the guard fails either way. -/
def packColumn (c : Nat → Nat → Cplx K) (x : Nat) (p q : Nat) (b : Nat → Nat → K) :
    Nat → Nat → K :=
  if q ≤ p then
    let b1 := writeCoeff b (2 * q) x (c q x).re
    let b2 := if q < p then writeCoeff b1 (2 * q + 1) x (-(c q x).im) else b1
    packColumn c x (p - 1) (q + 1) b2
  else b
termination_by p + 1 - q
decreasing_by omega

/-- The assignments executed by the loop `for (int p = n, q = 0; q <= p; --p, ++q)` of the
packing step for column `x`, in program order: the row index written and the value stored
(`b(2 * q, x) = c(q, x).real()`, then `b(2 * q + 1, x) = -c(q, x).imag()` when `q < p`). -/
def packColumnWrites (c : Nat → Nat → Cplx K) (x : Nat) (p q : Nat) : List (Nat × K) :=
  if q ≤ p then
    let w1 : List (Nat × K) := [(2 * q, (c q x).re)]
    let w2 : List (Nat × K) := if q < p then [(2 * q + 1, -(c q x).im)] else []
    w1 ++ w2 ++ packColumnWrites c x (p - 1) (q + 1)
  else []
termination_by p + 1 - q
decreasing_by omega

/-- The second loop nest of `makeBlockH2L(n)`: the real packing of `c` into `b`,
starting from `Eigen::MatrixXd::Zero`. -/
def packReal (c : Nat → Nat → Cplx K) (n : Nat) : Nat → Nat → K :=
  (List.range (n + 1)).foldl (fun b x => packColumn c x n 0 b) (fun _ _ => 0)

/-- The function `ConversionSingleton::makeBlockH2L(n)`. -/
@[reducible]
def makeBlockH2L (ops : FloatOps K) (n : Nat) : Block K :=
  ⟨n + 1, fun i j => packReal (complexEntry ops n) n i.val j.val⟩

/-- The call `h2l.inverse()` of Eigen in exact arithmetic: the adjugate divided by the
determinant, which is the matrix inverse whenever one exists. -/
@[reducible]
def Block.inverse (h2l : Block K) : Block K :=
  ⟨h2l.rows, (h2l.coeff.det)⁻¹ • h2l.coeff.adjugate⟩

/-- The function `ConversionSingleton::makeBlockL2H(n, h2l)`. -/
@[reducible]
def makeBlockL2H (_n : Int) (h2l : Block K) : Block K :=
  let l2h := h2l.inverse
  l2h

end Blocks

/-! ## The conversion cache -/

/-- How a call ends: normally, by throwing the length error of `pex::exceptions`, or with
undefined behaviour (an out-of-range `std::vector` or Eigen access). -/
inductive Outcome where
  | ok
  | lengthError
  | undefined
  deriving DecidableEq, Repr

/-- The data members of `ConversionSingleton`. -/
structure ConversionSingleton (K : Type) where
  _max_order : Int
  _h2l : List (Block K)
  _l2h : List (Block K)

section Cache

variable {K : Type} [Field K]

/-- The private constructor `ConversionSingleton() : _max_order(-1)`. -/
def ConversionSingleton.init : ConversionSingleton K := ⟨-1, [], []⟩

/-- The accessor `getBlockH2L(n)`, i.e. `_h2l[n]`; indexing outside the vector is undefined. -/
def ConversionSingleton.getBlockH2L (s : ConversionSingleton K) (n : Int) : Option (Block K) :=
  if 0 ≤ n then s._h2l[n.toNat]? else none

/-- The accessor `getBlockL2H(n)`, i.e. `_l2h[n]`; indexing outside the vector is undefined. -/
def ConversionSingleton.getBlockL2H (s : ConversionSingleton K) (n : Int) : Option (Block K) :=
  if 0 ≤ n then s._l2h[n.toNat]? else none

/-- The loop `for (int i = _max_order + 1; i <= order; ++i)` of `ensure`.  The counter is
never negative because `_max_order` starts at `-1` and only grows. -/
def ensureLoop (ops : FloatOps K) (order : Int) (i : Int) (s : ConversionSingleton K) :
    ConversionSingleton K :=
  if i ≤ order then
    let h := makeBlockH2L ops i.toNat
    ensureLoop ops order (i + 1)
      { _h2l := s._h2l ++ [h]
        _l2h := s._l2h ++ [makeBlockL2H i h]
        _max_order := s._max_order + 1 }
  else s
termination_by (order + 1 - i).toNat
decreasing_by omega

/-- The method `ConversionSingleton::ensure(order)`. -/
def ConversionSingleton.ensure (ops : FloatOps K) (s : ConversionSingleton K) (order : Int) :
    ConversionSingleton K :=
  if order > s._max_order then ensureLoop ops order (s._max_order + 1) s else s

end Cache

/-! ## ConversionMatrix -/

/-- The data members of `ConversionMatrix`. -/
structure ConversionMatrix where
  _order : Int
  _input : BasisTypeEnum
  _output : BasisTypeEnum

section Conversion

variable {K : Type} [Field K]

/-- The constructor `ConversionMatrix(input, output, order)`: the new object and the cache
after `ensure(_order)`. -/
def ConversionMatrix.new (ops : FloatOps K) (s : ConversionSingleton K)
    (input output : BasisTypeEnum) (order : Int) : ConversionMatrix × ConversionSingleton K :=
  (⟨order, input, output⟩, s.ensure ops order)

/-- The method `ConversionMatrix::getBlock(n)`; `none` is undefined behaviour (a negative
size for `Identity`, or an index outside the cache). -/
def ConversionMatrix.getBlock (m : ConversionMatrix) (s : ConversionSingleton K) (n : Int) :
    Option (Block K) :=
  if m._input = m._output then
    (if 0 ≤ n + 1 then some (Block.identity (n + 1).toNat) else none)
  else if m._input = HERMITE then s.getBlockH2L n
  else s.getBlockL2H n

/-- The assignment `r.block(offset, offset, k, k) = b`; undefined when the block does not fit
in `r` or when `b` is not `k` by `k`. -/
def setBlock (r : Block K) (offset k : Nat) (b : Block K) : Option (Block K) :=
  if offset + k ≤ r.rows ∧ b.rows = k then
    some ⟨r.rows, fun i j =>
      if h : (offset ≤ i.val ∧ i.val - offset < b.rows) ∧ (offset ≤ j.val ∧ j.val - offset < b.rows)
      then b.coeff ⟨i.val - offset, h.1.2⟩ ⟨j.val - offset, h.2.2⟩
      else r.coeff i j⟩
  else none

/-- The loop `for (int n = 0, offset = 0; n <= _order; offset += ++n)` of `buildDenseMatrix`,
with `get` one of `getBlockH2L`, `getBlockL2H`. -/
def denseLoop (get : Int → Option (Block K)) (order : Int) (n offset : Nat) (r : Block K) :
    Option (Block K) :=
  if (n : Int) ≤ order then
    match get n with
    | none => none
    | some b =>
      match setBlock r offset (n + 1) b with
      | none => none
      | some r2 => denseLoop get order (n + 1) (offset + (n + 1)) r2
  else some r
termination_by (order + 1 - n).toNat
decreasing_by omega

/-- The method `ConversionMatrix::buildDenseMatrix()`; `computeSize` is never negative. -/
def ConversionMatrix.buildDenseMatrix (m : ConversionMatrix) (s : ConversionSingleton K) :
    Option (Block K) :=
  let size : Nat := (computeSize m._order).toNat
  if m._input = m._output then some (Block.identity size)
  else
    let r : Block K := ⟨size, 0⟩
    if m._input = HERMITE then denseLoop s.getBlockH2L m._order 0 0 r
    else denseLoop s.getBlockL2H m._order 0 0 r

/-- The view `vector.segment(offset, k)` read as a vector of length `k`. -/
def segment (vector : List K) (offset k : Nat) : Fin k → K :=
  fun j => vector.getD (offset + j.val) 0

/-- The array after `vector.segment(offset, k)` has been overwritten with `seg`. -/
def setSegment (vector : List K) (offset k : Nat) (seg : Fin k → K) : List K :=
  vector.take offset ++ List.ofFn seg ++ vector.drop (offset + k)

/-- The loop `for (int offset = 0; offset < vector.size(); ++i)` shared by `multiplyOnLeft`
(`onLeft = true`, the statement `segment.transpose() *= i->transpose()`) and `multiplyOnRight`
(`onLeft = false`, the statement `segment.transpose() *= (*i)`).  The list argument is the
range from the iterator `i` to the end of the cache vector; dereferencing the end iterator
and a segment past the end of the array are undefined. -/
def multiplyLoop (onLeft : Bool) : List (Block K) → Nat → List K → Outcome × List K
  | [], offset, vector =>
    if offset < vector.length then (Outcome.undefined, vector) else (Outcome.ok, vector)
  | i :: rest, offset, vector =>
    if offset < vector.length then
      if offset + i.rows ≤ vector.length then
        let seg := segment vector offset i.rows
        let f := if onLeft then i.coeff.transpose else i.coeff
        multiplyLoop onLeft rest (offset + i.rows)
          (setSegment vector offset i.rows (Matrix.vecMul seg f))
      else (Outcome.undefined, vector)
    else (Outcome.ok, vector)

/-- The method `ConversionMatrix::multiplyOnLeft(array)`: how the call ends and the contents
of `array` afterwards. -/
def ConversionMatrix.multiplyOnLeft (m : ConversionMatrix) (s : ConversionSingleton K)
    (array : List K) : Outcome × List K :=
  if (array.length : Int) ≠ computeSize m._order then (Outcome.lengthError, array)
  else if m._input = m._output then (Outcome.ok, array)
  else
    let i := if m._input = HERMITE then s._h2l else s._l2h
    multiplyLoop true i 0 array

/-- The method `ConversionMatrix::multiplyOnRight(array)`: how the call ends and the contents
of `array` afterwards. -/
def ConversionMatrix.multiplyOnRight (m : ConversionMatrix) (s : ConversionSingleton K)
    (array : List K) : Outcome × List K :=
  if (array.length : Int) ≠ computeSize m._order then (Outcome.lengthError, array)
  else if m._input = m._output then (Outcome.ok, array)
  else
    let i := if m._input = HERMITE then s._h2l else s._l2h
    multiplyLoop false i 0 array

/-- The static `ConversionMatrix::convertCoefficientVector(array, input, output, order)`:
how the call ends, the cache afterwards and the contents of `array` afterwards. -/
def convertCoefficientVector (ops : FloatOps K) (s : ConversionSingleton K) (array : List K)
    (input output : BasisTypeEnum) (order : Int) :
    Outcome × ConversionSingleton K × List K :=
  if input = output then (Outcome.ok, s, array)
  else
    let ms := ConversionMatrix.new ops s input output order
    let r := ms.1.multiplyOnLeft ms.2 array
    (r.1, ms.2, r.2)

/-- The static `ConversionMatrix::convertOperationVector(array, input, output, order)`:
how the call ends, the cache afterwards and the contents of `array` afterwards. -/
def convertOperationVector (ops : FloatOps K) (s : ConversionSingleton K) (array : List K)
    (input output : BasisTypeEnum) (order : Int) :
    Outcome × ConversionSingleton K × List K :=
  if input = output then (Outcome.ok, s, array)
  else
    let ms := ConversionMatrix.new ops s output input order
    let r := ms.1.multiplyOnRight ms.2 array
    (r.1, ms.2, r.2)

end Conversion

/-! ## Collaborators outside the repository -/

/-- An `afw::geom::AffineTransform`: linear part and translation. -/
structure AffineTransform (K : Type) where
  linear : Matrix (Fin 2) (Fin 2) K
  translation : Fin 2 → K

/-- The calls into `afw::geom::ellipses` the code makes, on an ellipse type `E` that is not
part of the repository. -/
structure Geometry (K E : Type) where
  /-- The ellipse `Ellipse(EllipseCore(a, b, theta), center)`. -/
  make : K → K → K → (Fin 2 → K) → E
  /-- The ellipse `Ellipse(EllipseCore(e.getCore()), e.getCenter())`. -/
  recore : E → E
  /-- The method `getGridTransform()`. -/
  getGridTransform : E → AffineTransform K
  /-- The ellipse `Ellipse(Quadrupole(Quadrupole::Matrix(q2), false), Point2D(q1))`. -/
  ofQuadrupole : Matrix (Fin 2) (Fin 2) K → (Fin 2 → K) → E

/-- A `HermiteEvaluator`, of which the code reads `getOrder()`. -/
structure HermiteEvaluator where
  order : Int
  deriving DecidableEq

/-- The methods of `HermiteEvaluator` the code calls; the class is not among the sources. -/
structure HermiteMethods (K : Type) where
  /-- The method `sumIntegration(coefficients, xMoment, yMoment)`. -/
  sumIntegration : HermiteEvaluator → List K → Int → Int → K

/-- A dense `ndarray::Array<double const,2,2>` viewed through Eigen. -/
structure Array2 (K : Type) where
  rows : Nat
  cols : Nat
  coeff : Matrix (Fin rows) (Fin cols) K

/-! ## ShapeletFunction -/

/-- The data members of `ShapeletFunction`. -/
structure ShapeletFunction (K E : Type) where
  _order : Int
  _basisType : BasisTypeEnum
  _ellipse : E
  _coefficients : List K

/-- The `HermiteConvolution` of `HermiteConvolution.h`, whose implementation is not among the
sources: `getRowOrder()` and `evaluate(ellipse)` of the object built by
`HermiteConvolution(colOrder, psf)`; `evaluate` returns the matrix and the updated ellipse. -/
structure HermiteConvolution (K E : Type) where
  getRowOrder : Int → ShapeletFunction K E → Int
  evaluate : Int → ShapeletFunction K E → E → Array2 K × E

/-- The data members of `ShapeletFunctionEvaluator`. -/
structure ShapeletFunctionEvaluator (K : Type) where
  _normalization : K
  _transform : AffineTransform K
  _h : HermiteEvaluator
  _coefficients : List K

section Function

variable {K E : Type} [Field K]

/-- The function `validateSize(expected, actual)`. -/
def validateSize (expected actual : Int) : Outcome :=
  if expected ≠ actual then Outcome.lengthError else Outcome.ok

/-- The constant `ShapeletFunction::FLUX_FACTOR`. -/
def FLUX_FACTOR (ops : FloatOps K) : K := 2 * ops.sqrt ops.pi

/-- The array `ndarray::allocate(size)` after `deep() = 0.0`. -/
def zeros (size : Int) : List K := List.replicate size.toNat 0

/-- The default constructor `ShapeletFunction()`. -/
def ShapeletFunction.default (geom : Geometry K E) : ShapeletFunction K E :=
  ⟨0, HERMITE, geom.make 1 1 0 (fun _ => 0), [0]⟩

/-- The constructor `ShapeletFunction(order, basisType)`. -/
def ShapeletFunction.zero (geom : Geometry K E) (order : Int) (basisType : BasisTypeEnum) :
    ShapeletFunction K E :=
  ⟨order, basisType, geom.make 1 1 0 (fun _ => 0), zeros (computeSize order)⟩

/-- The constructor `ShapeletFunction(order, basisType, coefficients)`; an exception leaves no
object. -/
def ShapeletFunction.ofCoefficients (geom : Geometry K E) (order : Int)
    (basisType : BasisTypeEnum) (coefficients : List K) : Except Outcome (ShapeletFunction K E) :=
  let r : ShapeletFunction K E := ⟨order, basisType, geom.make 1 1 0 (fun _ => 0), coefficients⟩
  match validateSize (computeSize order) r._coefficients.length with
  | Outcome.ok => Except.ok r
  | e => Except.error e

/-- The constructor `ShapeletFunction(order, basisType, radius, center)`. -/
def ShapeletFunction.zeroCircle (geom : Geometry K E) (order : Int) (basisType : BasisTypeEnum)
    (radius : K) (center : Fin 2 → K) : ShapeletFunction K E :=
  ⟨order, basisType, geom.make radius radius 0 center, zeros (computeSize order)⟩

/-- The constructor `ShapeletFunction(order, basisType, radius, center, coefficients)`. -/
def ShapeletFunction.ofCircle (geom : Geometry K E) (order : Int) (basisType : BasisTypeEnum)
    (radius : K) (center : Fin 2 → K) (coefficients : List K) :
    Except Outcome (ShapeletFunction K E) :=
  let r : ShapeletFunction K E := ⟨order, basisType, geom.make radius radius 0 center, coefficients⟩
  match validateSize (computeSize order) r._coefficients.length with
  | Outcome.ok => Except.ok r
  | e => Except.error e

/-- The constructor `ShapeletFunction(order, basisType, ellipse)`. -/
def ShapeletFunction.zeroEllipse (geom : Geometry K E) (order : Int) (basisType : BasisTypeEnum)
    (ellipse : E) : ShapeletFunction K E :=
  ⟨order, basisType, geom.recore ellipse, zeros (computeSize order)⟩

/-- The constructor `ShapeletFunction(order, basisType, ellipse, coefficients)`. -/
def ShapeletFunction.ofEllipse (geom : Geometry K E) (order : Int) (basisType : BasisTypeEnum)
    (ellipse : E) (coefficients : List K) : Except Outcome (ShapeletFunction K E) :=
  let r : ShapeletFunction K E := ⟨order, basisType, geom.recore ellipse, coefficients⟩
  match validateSize (computeSize order) r._coefficients.length with
  | Outcome.ok => Except.ok r
  | e => Except.error e

/-- The copy constructor `ShapeletFunction(other)`. -/
def ShapeletFunction.copy (other : ShapeletFunction K E) : ShapeletFunction K E :=
  ⟨other._order, other._basisType, other._ellipse, other._coefficients⟩

/-- The statement `_coefficients.deep() = other.getCoefficients()`: an element-wise copy into
the existing storage, defined when the two arrays have the same size. -/
def deepAssign (dst src : List K) : Outcome × List K :=
  if dst.length = src.length then (Outcome.ok, src) else (Outcome.undefined, dst)

/-- The operator `ShapeletFunction::operator=(other)` for `&other != this`; self-assignment
changes nothing. -/
def ShapeletFunction.assign (self other : ShapeletFunction K E) :
    Outcome × ShapeletFunction K E :=
  if other._order ≠ self._order then
    (Outcome.ok, ⟨other._order, other._basisType, other._ellipse, other._coefficients⟩)
  else
    let r := deepAssign self._coefficients other._coefficients
    match r.1 with
    | Outcome.ok => (Outcome.ok, ⟨self._order, other._basisType, other._ellipse, r.2⟩)
    | e => (e, ⟨self._order, self._basisType, self._ellipse, r.2⟩)

/-- The method `ShapeletFunctionEvaluator::_initialize(function)`: how the call ends, the
evaluator afterwards and the conversion cache afterwards. -/
def ShapeletFunctionEvaluator._initialize (ops : FloatOps K) (s : ConversionSingleton K)
    (self : ShapeletFunctionEvaluator K) (function : ShapeletFunction K E) :
    Outcome × ShapeletFunctionEvaluator K × ConversionSingleton K :=
  match function._basisType with
  | HERMITE =>
    (Outcome.ok,
      { self with
        _coefficients := function._coefficients
        _normalization := self._transform.linear.det },
      s)
  | LAGUERRE =>
    let tmp := function._coefficients
    let r := convertCoefficientVector ops s tmp LAGUERRE HERMITE function._order
    match r.1 with
    | Outcome.ok =>
      (Outcome.ok,
        { self with
          _coefficients := r.2.2
          _normalization := self._transform.linear.det },
        r.2.1)
    | e => (e, self, r.2.1)

/-- The constructor `ShapeletFunctionEvaluator(function)`. -/
def ShapeletFunctionEvaluator.new (ops : FloatOps K) (geom : Geometry K E)
    (s : ConversionSingleton K) (function : ShapeletFunction K E) :
    Outcome × ShapeletFunctionEvaluator K × ConversionSingleton K :=
  let self : ShapeletFunctionEvaluator K :=
    { _normalization := 1
      _transform := geom.getGridTransform function._ellipse
      _h := ⟨function._order⟩
      _coefficients := [] }
  ShapeletFunctionEvaluator._initialize ops s self function

/-- The method `ShapeletFunctionEvaluator::update(function)`. -/
def ShapeletFunctionEvaluator.update (ops : FloatOps K) (geom : Geometry K E)
    (s : ConversionSingleton K) (self : ShapeletFunctionEvaluator K)
    (function : ShapeletFunction K E) :
    Outcome × ShapeletFunctionEvaluator K × ConversionSingleton K :=
  match validateSize self._h.order function._order with
  | Outcome.ok =>
    let self1 := { self with _transform := geom.getGridTransform function._ellipse }
    ShapeletFunctionEvaluator._initialize ops s self1 function
  | e => (e, self, s)

/-- Modelled from the spec: `integrate()` is defined in `ShapeletFunction.h`, which is not among
the sources; the spec describes the total integral (flux) as the zeroth raw moment, which
`_computeRawMoments` reads as `_h.sumIntegration(_coefficients, 0, 0)`. -/
def ShapeletFunctionEvaluator.integrate (hm : HermiteMethods K)
    (self : ShapeletFunctionEvaluator K) : K :=
  hm.sumIntegration self._h self._coefficients 0 0

/-- The method `ShapeletFunction::normalize()`, where `evaluate()` is
`ShapeletFunctionEvaluator(*this)`: how the call ends, the function afterwards and the
conversion cache afterwards. -/
def ShapeletFunction.normalize (ops : FloatOps K) (geom : Geometry K E) (hm : HermiteMethods K)
    (s : ConversionSingleton K) (self : ShapeletFunction K E) :
    Outcome × ShapeletFunction K E × ConversionSingleton K :=
  let ev := ShapeletFunctionEvaluator.new ops geom s self
  match ev.1 with
  | Outcome.ok =>
    let flux := ev.2.1.integrate hm
    (Outcome.ok, { self with _coefficients := self._coefficients.map (fun c => c / flux) }, ev.2.2)
  | e => (e, self, ev.2.2)

/-- Modelled from the spec: `changeBasisType` is defined in `ShapeletFunction.h`, which is not
among the sources; it converts the coefficients to the new basis with the conversion engine and
relabels the function. -/
def ShapeletFunction.changeBasisType (ops : FloatOps K) (s : ConversionSingleton K)
    (self : ShapeletFunction K E) (basisType : BasisTypeEnum) :
    Outcome × ShapeletFunction K E × ConversionSingleton K :=
  let r := convertCoefficientVector ops s self._coefficients self._basisType basisType self._order
  match r.1 with
  | Outcome.ok => (Outcome.ok, { self with _coefficients := r.2.2, _basisType := basisType }, r.2.1)
  | e => (e, { self with _coefficients := r.2.2 }, r.2.1)

/-- Modelled from the spec: `setEllipse` is defined in `ShapeletFunction.h`, which is not among
the sources; the spec describes the ellipse mutator as a pass-through (envelope replacement). -/
def ShapeletFunction.setEllipse (self : ShapeletFunction K E) (ellipse : E) :
    ShapeletFunction K E :=
  { self with _ellipse := ellipse }

/-- The product `matrix * coefficients` of Eigen, defined when the sizes agree. -/
def Array2.mulVec (matrix : Array2 K) (v : List K) : Option (List K) :=
  if matrix.cols = v.length then
    some (List.ofFn (Matrix.mulVec matrix.coeff (fun j => v.getD j.val 0)))
  else none

/-- What `convolve` leaves behind: how the call ends, the returned function when there is
one, the receiver afterwards and the conversion cache afterwards. -/
structure ConvolveResult (K E : Type) where
  outcome : Outcome
  result : Option (ShapeletFunction K E)
  self : ShapeletFunction K E
  cache : ConversionSingleton K

/-- The method `ShapeletFunction::convolve(other)`. -/
def ShapeletFunction.convolve (ops : FloatOps K) (geom : Geometry K E)
    (hc : HermiteConvolution K E) (s : ConversionSingleton K) (self other : ShapeletFunction K E) :
    ConvolveResult K E :=
  let newEllipse := self._ellipse
  let ev := hc.evaluate self._order other newEllipse
  let matrix := ev.1
  let newEllipse := ev.2
  -- if (_basisType == LAGUERRE) convertCoefficientVector(_coefficients, LAGUERRE, HERMITE, ...)
  let c1 :=
    if self._basisType = LAGUERRE then
      convertCoefficientVector ops s self._coefficients LAGUERRE HERMITE self._order
    else (Outcome.ok, s, self._coefficients)
  let self1 := { self with _coefficients := c1.2.2 }
  match c1.1 with
  | Outcome.ok =>
    let result := ShapeletFunction.zero geom (hc.getRowOrder self._order other) HERMITE
    let result := result.setEllipse newEllipse
    -- result.getCoefficients().asEigen() = matrix * _coefficients.asEigen()
    match matrix.mulVec self1._coefficients with
    | none => ⟨Outcome.undefined, none, self1, c1.2.1⟩
    | some product =>
      let a := deepAssign result._coefficients product
      match a.1 with
      | Outcome.ok =>
        let result := { result with _coefficients := a.2 }
        if self._basisType = LAGUERRE then
          let c2 :=
            convertCoefficientVector ops c1.2.1 self1._coefficients HERMITE LAGUERRE self._order
          let self2 := { self1 with _coefficients := c2.2.2 }
          match c2.1 with
          | Outcome.ok =>
            let r := result.changeBasisType ops c2.2.1 LAGUERRE
            match r.1 with
            | Outcome.ok => ⟨Outcome.ok, some r.2.1, self2, r.2.2⟩
            | e => ⟨e, none, self2, r.2.2⟩
          | e => ⟨e, none, self2, c2.2.1⟩
        else ⟨Outcome.ok, some result, self1, c1.2.1⟩
      | e => ⟨e, none, self1, c1.2.1⟩
  | e => ⟨e, none, self1, c1.2.1⟩

/-- The method `LinearTransform::invert()` of `afw::geom` in exact arithmetic: the adjugate
divided by the determinant. -/
def invert (m : Matrix (Fin 2) (Fin 2) K) : Matrix (Fin 2) (Fin 2) K :=
  (m.det)⁻¹ • m.adjugate

/-- The raw moments `q0`, `q1`, `q2` handed to `_computeRawMoments` by reference. -/
structure RawMoments (K : Type) where
  q0 : K
  q1 : Fin 2 → K
  q2 : Matrix (Fin 2) (Fin 2) K

/-- The method `ShapeletFunctionEvaluator::_computeRawMoments(q0, q1, q2)`. -/
def ShapeletFunctionEvaluator._computeRawMoments (hm : HermiteMethods K)
    (self : ShapeletFunctionEvaluator K) (q : RawMoments K) : RawMoments K :=
  let a : Matrix (Fin 2) (Fin 2) K := invert self._transform.linear
  let b : Fin 2 → K := self._transform.translation
  let m0 : K := hm.sumIntegration self._h self._coefficients 0 0
  let q0 := q.q0 + m0
  let m1 : Fin 2 → K :=
    ![hm.sumIntegration self._h self._coefficients 1 0,
      hm.sumIntegration self._h self._coefficients 0 1]
  let q1 := q.q1 + a.mulVec (m1 - m0 • b)
  let m2 : Matrix (Fin 2) (Fin 2) K :=
    !![hm.sumIntegration self._h self._coefficients 2 0,
       hm.sumIntegration self._h self._coefficients 1 1;
       hm.sumIntegration self._h self._coefficients 1 1,
       hm.sumIntegration self._h self._coefficients 0 2]
  let q2 := q.q2 +
    a * (m2 + m0 • Matrix.vecMulVec b b - Matrix.vecMulVec m1 b - Matrix.vecMulVec b m1)
      * a.transpose
  ⟨q0, q1, q2⟩

/-- The method `ShapeletFunctionEvaluator::computeMoments()`. -/
def ShapeletFunctionEvaluator.computeMoments (geom : Geometry K E) (hm : HermiteMethods K)
    (self : ShapeletFunctionEvaluator K) : E :=
  let q := self._computeRawMoments hm ⟨0, 0, 0⟩
  let q1 : Fin 2 → K := fun i => q.q1 i / q.q0
  let q2 : Matrix (Fin 2) (Fin 2) K := fun i j => q.q2 i j / q.q0
  let q2 := q2 - Matrix.vecMulVec q1 q1
  geom.ofQuadrupole q2 q1

/-- The method of `HermiteEvaluator` that point evaluation calls; the class is not among the
sources:
`sumEvaluation(coefficients, x, y)`, the dot product of the coefficients with the 2D Hermite
basis at the point `(x, y)` of the unit frame. -/
structure HermiteEvaluation (K : Type) where
  sumEvaluation : HermiteEvaluator → List K → K → K → K

/-- The map `_transform(point)` of an `afw::geom::AffineTransform`: linear part applied to the
point, plus the translation. -/
def AffineTransform.apply (t : AffineTransform K) (point : Fin 2 → K) : Fin 2 → K :=
  t.linear.mulVec point + t.translation

/-- Modelled from the spec: the call operator `(*this)(x, y)` is defined in
`ShapeletFunction.h`, which is not among the sources; the spec describes point evaluation as:
map the point through the grid transform, evaluate the 2D Hermite basis at the mapped
coordinate, dot with the bound coefficients, scale by the normalization. -/
def ShapeletFunctionEvaluator.call (he : HermiteEvaluation K)
    (self : ShapeletFunctionEvaluator K) (x y : K) : K :=
  let u := self._transform.apply ![x, y]
  self._normalization * he.sumEvaluation self._h self._coefficients (u 0) (u 1)

/-- The inner loop `for (int x = xy0.getX(); xIter != yIter->end(); ++x, ++xIter)` of
`addToImage` on the cells of one row that are still to be visited. -/
def addToRow (he : HermiteEvaluation K) (self : ShapeletFunctionEvaluator K) (y : Int) :
    Int → List K → List K
  | _, [] => []
  | x, cell :: rest => (cell + self.call he (x : K) (y : K)) :: addToRow he self y (x + 1) rest

/-- The outer loop `for (int y = xy0.getY(); yIter != array.end(); ++y, ++yIter)` of
`addToImage` on the rows that are still to be visited. -/
def addToRows (he : HermiteEvaluation K) (self : ShapeletFunctionEvaluator K) (x0 : Int) :
    Int → List (List K) → List (List K)
  | _, [] => []
  | y, row :: rest => addToRow he self y x0 row :: addToRows he self x0 (y + 1) rest

/-- The method `ShapeletFunctionEvaluator::addToImage(array, xy0)`: the contents of `array`
afterwards, one list per row. -/
def ShapeletFunctionEvaluator.addToImage (he : HermiteEvaluation K)
    (self : ShapeletFunctionEvaluator K) (array : List (List K)) (xy0 : Int × Int) :
    List (List K) :=
  addToRows he self xy0.1 xy0.2 array

end Function

/-! ## Vocabulary of the proofs -/

section Vocabulary

variable {K E : Type} [Field K]

/-- A `std::complex<double>` over the reals read as a complex number. -/
def toC (z : Cplx ℝ) : ℂ := ⟨z.re, z.im⟩

/-- The value the packing step stores in row `k`, column `x`. -/
def packedEntry (c : Nat → Nat → Cplx K) (k x : Nat) : K :=
  if k % 2 = 0 then (c (k / 2) x).re else -(c (k / 2) x).im

/-- What the determinant argument needs of the primitives: the square roots of products of
factorials and the powers of two the code takes are nonzero. -/
def FloatOps.Regular (ops : FloatOps ℝ) : Prop :=
  (∀ a b : ℕ, ops.sqrt ((Nat.factorial a : ℝ) * (Nat.factorial b : ℝ)) ≠ 0) ∧
    ∀ t : ℝ, ops.pow 2 t ≠ 0

/-- One step of the multiplication loop on the segment it touches. -/
def blockApply (onLeft : Bool) (b : Block K) (seg : List K) : List K :=
  List.ofFn (Matrix.vecMul (segment seg 0 b.rows) (if onLeft then b.coeff.transpose else b.coeff))

/-- Two blocks that undo each other on every segment. -/
def Paired (a b : Block K) : Prop :=
  a.rows = b.rows ∧ 0 < a.rows ∧
    ∀ (onLeft : Bool) (seg : List K), seg.length = a.rows →
      blockApply onLeft b (blockApply onLeft a seg) = seg

/-- The blocks reach exactly to the end of an array of the given length. -/
def Covers : List (Block K) → Nat → Prop
  | _, 0 => True
  | [], _ + 1 => False
  | b :: rest, len + 1 => 0 < b.rows ∧ b.rows ≤ len + 1 ∧ Covers rest (len + 1 - b.rows)

/-- The cache invariant: `_h2l` and `_l2h` hold the blocks of orders `0 .. _max_order`. -/
def ConversionSingleton.Valid (ops : FloatOps K) (s : ConversionSingleton K) : Prop :=
  -1 ≤ s._max_order ∧
    s._h2l = (List.range (s._max_order + 1).toNat).map (makeBlockH2L ops) ∧
    s._l2h = (List.range (s._max_order + 1).toNat).map
      (fun i : Nat => makeBlockL2H (i : Int) (makeBlockH2L ops i))

/-- The number of entries before the block of order `j + d`, counted from the block of
order `j`. -/
def sizeFrom (j : Nat) : Nat → Nat
  | 0 => 0
  | d + 1 => (j + 1) + sizeFrom (j + 1) d

/-- A stand-in for the ellipse type of `afw::geom`, used to run the code on concrete inputs:
an ellipse given by its axes and center, or by its quadrupole matrix and center. -/
inductive EllipseFixture (K : Type) where
  | axes (a b theta : K) (center : Fin 2 → K)
  | quadrupole (q : Matrix (Fin 2) (Fin 2) K) (center : Fin 2 → K)

/-- A stand-in for the ellipse library on `EllipseFixture`: the grid transform of the
axis-aligned ellipse with axes `a`, `b` centered at `p` is `x ↦ ((x 0 - p 0) / a, (x 1 - p 1) / b)`;
the other grid transforms are not needed and are the identity. -/
def geomFixture (K : Type) [Field K] : Geometry K (EllipseFixture K) where
  make := fun a b theta center => EllipseFixture.axes a b theta center
  recore := fun e => e
  getGridTransform := fun e =>
    match e with
    | EllipseFixture.axes a b _ center =>
      ⟨!![1 / a, 0; 0, 1 / b], ![-(center 0 / a), -(center 1 / b)]⟩
    | EllipseFixture.quadrupole _ _ => ⟨1, 0⟩
  ofQuadrupole := fun q center => EllipseFixture.quadrupole q center

/-- A stand-in for `HermiteEvaluator::sumIntegration`, used to run the code on concrete
inputs: only the coefficient of order 0 contributes, with the given weight for even moments
and 0 for odd ones. -/
def hermiteFixture {K : Type} [Field K] (weight : K) : HermiteMethods K where
  sumIntegration := fun _ coefficients xMoment yMoment =>
    if xMoment % 2 = 0 ∧ yMoment % 2 = 0 then weight * coefficients.headD 0 else 0

/-- A stand-in for `<cmath>` on the rationals, used to run the code on concrete inputs whose
result does not depend on it. -/
def opsFixture : FloatOps ℚ := ⟨fun x => x, fun x _ => x, 3⟩

/-- A stand-in for `HermiteConvolution`, used to run the code on concrete inputs: the row
order is the sum of the two orders, the matrix has `computeSize(rowOrder)` rows and
`computeSize(colOrder)` columns with ones on its diagonal, and the ellipse is left as it is. -/
def convolutionFixture (K E : Type) [Field K] : HermiteConvolution K E where
  getRowOrder := fun colOrder psf => colOrder + psf._order
  evaluate := fun colOrder psf ellipse =>
    (⟨(computeSize (colOrder + psf._order)).toNat, (computeSize colOrder).toNat,
        fun i j => if i.val = j.val then 1 else 0⟩, ellipse)

/-- The class invariant of `ShapeletFunction`: the coefficient array has `computeSize(order)`
entries. -/
def ShapeletFunction.SizeInvariant (f : ShapeletFunction K E) : Prop :=
  (f._coefficients.length : Int) = computeSize f._order

/-- The coefficient `(i, j)` of a matrix, read as zero outside of it. -/
def Block.entry (b : Block K) (i j : Nat) : K :=
  if h : i < b.rows ∧ j < b.rows then b.coeff ⟨i, h.1⟩ ⟨j, h.2⟩ else 0

/-- The invariant of the conversion cache: both vectors have `_max_order + 1` entries, and
entry `i` of `_h2l` is an `(i+1)` by `(i+1)` matrix whose `inverse()` is entry `i` of `_l2h`
and is its inverse on both sides. -/
def ConversionSingleton.Invariant (s : ConversionSingleton K) : Prop :=
  (s._h2l.length : Int) = s._max_order + 1 ∧ (s._l2h.length : Int) = s._max_order + 1 ∧
    ∀ (i : Nat) (a b : Block K), s._h2l[i]? = some a → s._l2h[i]? = some b →
      a.rows = i + 1 ∧ b = a.inverse ∧ a.inverse.coeff * a.coeff = 1 ∧
        a.coeff * a.inverse.coeff = 1

/-- The value of a linear functional with coefficients `w` on the vector `v`: the sum of the
products of corresponding entries. -/
def dot (w v : List K) : K := (List.zipWith (fun a b => a * b) w v).sum

end Vocabulary

/-! ## Lemmas -/

section Lemmas

open Polynomial

variable {K E : Type} [Field K]

theorem pow_family_indep (u v : ℂ[X]) (a : ℂ) (hu : u ≠ 0) (hua : u.eval a = 0)
    (hva : v.eval a ≠ 0) (n : ℕ) : ∀ (μ : ℕ → ℂ),
    (∑ i ∈ Finset.range (n + 1), C (μ i) * u ^ i * v ^ (n - i) = 0) →
    ∀ i, i ≤ n → μ i = 0 := by
  induction n with
  | zero =>
    intro μ h i hi
    simp at h
    have : i = 0 := by omega
    subst this; exact h
  | succ n ih =>
    intro μ h
    have h0 : μ 0 = 0 := by
      have := congrArg (fun p => p.eval a) h
      simp only [eval_finset_sum, eval_mul, eval_C, eval_pow, hua,
        eval_zero] at this
      rw [Finset.sum_range_succ'] at this
      simp at this
      rcases this with h | h
      · exact h
      · exact absurd h hva
    rw [Finset.sum_range_succ'] at h
    simp only [h0, map_zero, zero_mul, add_zero, Nat.add_sub_add_right] at h
    have h2 : u * ∑ i ∈ Finset.range (n + 1), C (μ (i + 1)) * u ^ i * v ^ (n - i) = 0 := by
      rw [← h, Finset.mul_sum]
      apply Finset.sum_congr rfl
      intro i _
      ring
    have h3 := (mul_eq_zero.mp h2).resolve_left hu
    have := ih (fun i => μ (i + 1)) h3
    intro i hi
    cases i with
    | zero => exact h0
    | succ j => exact this j (by omega)

/-- The filtered double sum. -/
theorem coeff_uv (p q x : ℕ) :
    ((1 + C Complex.I * X : ℂ[X]) ^ p * (1 - C Complex.I * X) ^ q).coeff x =
    ∑ r ∈ Finset.range (p + 1), ∑ s ∈ Finset.range (q + 1),
      if r + s = x then Complex.I ^ ((r : ℤ) - (s : ℤ)) * (Nat.choose p r : ℂ) * (Nat.choose q s : ℂ)
      else 0 := by
  have hu : (1 + C Complex.I * X : ℂ[X]) ^ p =
      ∑ r ∈ Finset.range (p + 1), C (Complex.I ^ r * (Nat.choose p r : ℂ)) * X ^ r := by
    rw [add_comm, add_pow]
    apply Finset.sum_congr rfl
    intro r _
    simp only [one_pow, mul_one, mul_pow, ← C_pow, map_mul, map_natCast]
    ring
  have hv : (1 - C Complex.I * X : ℂ[X]) ^ q =
      ∑ s ∈ Finset.range (q + 1), C ((-Complex.I) ^ s * (Nat.choose q s : ℂ)) * X ^ s := by
    have e : (1 - C Complex.I * X : ℂ[X]) = C (-Complex.I) * X + 1 := by
      rw [map_neg]; ring
    rw [e, add_pow]
    apply Finset.sum_congr rfl
    intro r _
    simp only [one_pow, mul_one, mul_pow, ← C_pow, map_mul, map_natCast]
    ring
  rw [hu, hv, Finset.sum_mul_sum]
  simp only [finset_sum_coeff]
  apply Finset.sum_congr rfl
  intro r _
  apply Finset.sum_congr rfl
  intro s _
  have : C (Complex.I ^ r * (Nat.choose p r : ℂ)) * X ^ r * (C ((-Complex.I) ^ s * (Nat.choose q s : ℂ)) * X ^ s)
      = C (Complex.I ^ r * (-Complex.I) ^ s * (Nat.choose p r : ℂ) * (Nat.choose q s : ℂ)) * X ^ (r + s) := by
    simp only [map_mul, pow_add]; ring
  rw [this, coeff_C_mul, coeff_X_pow]
  have hI : Complex.I ^ ((r : ℤ) - (s : ℤ)) = Complex.I ^ r * (-Complex.I) ^ s := by
    rw [zpow_sub₀ Complex.I_ne_zero, zpow_natCast, zpow_natCast, div_eq_mul_inv, ← inv_pow,
      Complex.inv_I]
  by_cases h : r + s = x
  · simp [h, hI]
  · have h' : ¬ x = r + s := fun e => h e.symm
    simp [h, h']

theorem natDegree_uv_le (p q : ℕ) :
    ((1 + C Complex.I * X : ℂ[X]) ^ p * (1 - C Complex.I * X) ^ q).natDegree ≤ p + q := by
  have h1 : (1 + C Complex.I * X : ℂ[X]).natDegree ≤ 1 := by
    rw [add_comm]; exact natDegree_linear_le
  have h2 : (1 - C Complex.I * X : ℂ[X]).natDegree ≤ 1 := by
    have e : (1 - C Complex.I * X : ℂ[X]) = C (-Complex.I) * X + C 1 := by
      rw [map_neg, map_one]; ring
    rw [e]; exact natDegree_linear_le
  calc _ ≤ ((1 + C Complex.I * X : ℂ[X]) ^ p).natDegree + ((1 - C Complex.I * X : ℂ[X]) ^ q).natDegree :=
        natDegree_mul_le
    _ ≤ p * 1 + q * 1 := by
        apply add_le_add
        · exact (natDegree_pow_le).trans (Nat.mul_le_mul_left _ h1)
        · exact (natDegree_pow_le).trans (Nat.mul_le_mul_left _ h2)
    _ = p + q := by ring

theorem uvMatrix_det_ne_zero (n : ℕ) :
    (Matrix.of fun (i x : Fin (n + 1)) =>
      ((1 + C Complex.I * X : ℂ[X]) ^ (i : ℕ) * (1 - C Complex.I * X) ^ (n - (i : ℕ))).coeff
        (x : ℕ)).det ≠ 0 := by
  intro hdet
  obtain ⟨w, hw0, hw⟩ := Matrix.exists_vecMul_eq_zero_iff.mpr hdet
  apply hw0
  have hu : (1 + C Complex.I * X : ℂ[X]) ≠ 0 := by
    intro h
    have := congrArg (fun p => p.coeff 0) h
    simp at this
  have key := pow_family_indep (1 + C Complex.I * X) (1 - C Complex.I * X) Complex.I hu
    (by simp) (by simp) n (fun i => if h : i < n + 1 then w ⟨i, h⟩ else 0) ?_
  · funext i
    have := key i (by have := i.isLt; omega)
    simpa using this
  · ext x
    simp only [finset_sum_coeff, coeff_zero, mul_assoc, coeff_C_mul]
    by_cases hx : x < n + 1
    · have := congrFun hw ⟨x, hx⟩
      simp only [Matrix.vecMul, Matrix.dotProduct, Matrix.of_apply, Pi.zero_apply] at this
      have e := Fin.sum_univ_eq_sum_range
        (fun i => (if h : i < n + 1 then w ⟨i, h⟩ else 0) *
          ((1 + C Complex.I * X : ℂ[X]) ^ i * (1 - C Complex.I * X) ^ (n - i)).coeff x) (n + 1)
      refine e.symm.trans ?_
      simpa using this
    · apply Finset.sum_eq_zero
      intro i hi
      rw [Finset.mem_range] at hi
      rw [coeff_eq_zero_of_natDegree_lt, mul_zero]
      have := natDegree_uv_le i (n - i)
      omega

theorem toC_add (a b : Cplx ℝ) : toC (Cplx.add a b) = toC a + toC b := by
  apply Complex.ext <;> simp [toC, Cplx.add]

theorem toC_mul (a b : Cplx ℝ) : toC (Cplx.mul a b) = toC a * toC b := by
  apply Complex.ext <;> simp [toC, Cplx.mul]

theorem toC_mulReal (a : Cplx ℝ) (k : ℝ) : toC (Cplx.mulReal a k) = toC a * (k : ℂ) := by
  apply Complex.ext <;> simp [toC, Cplx.mulReal]

theorem toC_divReal (a : Cplx ℝ) (k : ℝ) : toC (Cplx.divReal a k) = toC a / (k : ℂ) := by
  apply Complex.ext <;> simp [toC, Cplx.divReal, Complex.div_re, Complex.div_im]
  · by_cases hk : k = 0
    · simp [hk]
    · field_simp; ring
  · by_cases hk : k = 0
    · simp [hk]
    · field_simp; ring

theorem toC_inv (a : Cplx ℝ) : toC (Cplx.inv a) = (toC a)⁻¹ := by
  apply Complex.ext <;> simp [toC, Cplx.inv, Complex.inv_re, Complex.inv_im, Complex.normSq_apply]

theorem toC_npow (a : Cplx ℝ) (k : ℕ) : toC (Cplx.npow a k) = toC a ^ k := by
  induction k with
  | zero => apply Complex.ext <;> simp [toC, Cplx.npow, Cplx.one]
  | succ k ih => rw [Cplx.npow, toC_mul, ih, pow_succ]

theorem toC_powInt (a : Cplx ℝ) (m : ℤ) : toC (Cplx.powInt a m) = toC a ^ m := by
  unfold Cplx.powInt
  split
  · rename_i h
    rw [toC_inv, toC_npow]
    obtain ⟨k, rfl⟩ := Int.exists_eq_neg_ofNat (le_of_lt h)
    simp
  · rename_i h
    rw [toC_npow]
    obtain ⟨k, rfl⟩ := Int.eq_ofNat_of_zero_le (not_lt.mp h)
    simp

theorem toC_I : toC ⟨0, 1⟩ = Complex.I := by
  apply Complex.ext <;> simp [toC]

theorem toC_negI : toC ⟨0, -1⟩ = -Complex.I := by
  apply Complex.ext <;> simp [toC]

theorem toC_zero : toC ⟨0, 0⟩ = 0 := by
  apply Complex.ext <;> simp [toC]

/-- A left fold that adds `f r` to the accumulator at step `r` computes a sum. -/
theorem toC_foldl_range (g : Cplx ℝ → ℕ → Cplx ℝ) (f : ℕ → ℂ)
    (hg : ∀ acc r, toC (g acc r) = toC acc + f r) (n : ℕ) (c0 : Cplx ℝ) :
    toC ((List.range n).foldl g c0) = toC c0 + ∑ r ∈ Finset.range n, f r := by
  induction n with
  | zero => simp
  | succ n ih =>
    rw [List.range_succ, List.foldl_append, List.foldl_cons, List.foldl_nil, hg, ih,
      Finset.sum_range_succ, add_assoc]

theorem toC_accumulate (v2 : Cplx ℝ) (p q x : ℕ) (c0 : Cplx ℝ) :
    toC (accumulate v2 p q x c0) = toC c0 + toC v2 *
      ∑ r ∈ Finset.range (p + 1), ∑ s ∈ Finset.range (q + 1),
        if r + s = x then
          Complex.I ^ ((r : ℤ) - (s : ℤ)) * (Nat.choose p r : ℂ) * (Nat.choose q s : ℂ)
        else 0 := by
  unfold accumulate
  rw [toC_foldl_range _ (fun r => toC v2 * ∑ s ∈ Finset.range (q + 1),
        if r + s = x then
          Complex.I ^ ((r : ℤ) - (s : ℤ)) * (Nat.choose p r : ℂ) * (Nat.choose q s : ℂ)
        else 0), Finset.mul_sum]
  intro acc r
  rw [toC_foldl_range _ (fun s => toC v2 *
        if r + s = x then
          Complex.I ^ ((r : ℤ) - (s : ℤ)) * (Nat.choose p r : ℂ) * (Nat.choose q s : ℂ)
        else 0), Finset.mul_sum]
  intro acc s
  by_cases h : r + s = x
  · simp only [h, if_true, toC_add, toC_mulReal, toC_mul, toC_powInt, toC_I]
    push_cast
    ring
  · simp [h]

theorem complexEntry_index (n i : ℕ) (hi : i ≤ n) :
    (((n : ℤ) + (-(n : ℤ) + 2 * (i : ℤ))) / 2).toNat = i ∧
    (((n : ℤ) - (-(n : ℤ) + 2 * (i : ℤ))) / 2).toNat = n - i := by
  constructor <;> omega

theorem toC_complexEntry (ops : FloatOps ℝ) (n i x : ℕ) (hi : i ≤ n) :
    toC (complexEntry ops n i x) =
      (-Complex.I) ^ (-(n : ℤ) + 2 * (i : ℤ)) * ((ops.pow 2 (-(1 / 2) * (n : ℝ)) : ℝ) : ℂ)
        / ((ops.sqrt ((Nat.factorial i : ℝ) * (Nat.factorial (n - i) : ℝ)) : ℝ) : ℂ)
        * ((ops.sqrt ((Nat.factorial x : ℝ) * (Nat.factorial (n - x) : ℝ)) : ℝ) : ℂ)
        * ((1 + C Complex.I * X : ℂ[X]) ^ i * (1 - C Complex.I * X) ^ (n - i)).coeff x := by
  unfold complexEntry
  simp only [(complexEntry_index n i hi).1, (complexEntry_index n i hi).2]
  rw [toC_accumulate, toC_zero, zero_add, toC_mulReal, toC_divReal, toC_mulReal, toC_powInt,
    toC_negI, coeff_uv]

theorem packColumn_apply (c : Nat → Nat → Cplx K) (x : Nat) (p q : Nat)
    (b : Nat → Nat → K) (k x2 : Nat) :
    packColumn c x p q b k x2 =
      if x2 = x ∧ 2 * q ≤ k ∧ k ≤ p + q then packedEntry c k x else b k x2 := by
  induction p, q, b using packColumn.induct c x with
  | case1 p q b hqp b1 b2 ih =>
    rw [packColumn, if_pos hqp]
    have hb2 : (if q < p then writeCoeff (writeCoeff b (2 * q) x (c q x).re) (2 * q + 1) x
        (-(c q x).im) else writeCoeff b (2 * q) x (c q x).re) = b2 := by
      simp only [b2, b1]; split <;> rfl
    simp only [hb2]
    rw [ih]
    by_cases h1 : x2 = x ∧ 2 * (q + 1) ≤ k ∧ k ≤ p - 1 + (q + 1)
    · rw [if_pos h1, if_pos ⟨h1.1, by omega, by omega⟩]
    · rw [if_neg h1]
      by_cases h3 : k = 2 * q ∧ x2 = x
      · rw [if_pos ⟨h3.2, by omega, by omega⟩]
        have e1 : k % 2 = 0 := by omega
        have e2 : k / 2 = q := by omega
        have e3 : ¬ (k = 2 * q + 1 ∧ x2 = x) := by omega
        obtain ⟨rfl, rfl⟩ := h3
        simp only [b2, b1, packedEntry, e1, e2, if_true]
        split <;> simp [writeCoeff]
      · by_cases h2 : q < p ∧ k = 2 * q + 1 ∧ x2 = x
        · rw [if_pos ⟨h2.2.2, by omega, by omega⟩]
          have e1 : k % 2 ≠ 0 := by omega
          have e2 : k / 2 = q := by omega
          obtain ⟨hlt, rfl, rfl⟩ := h2
          simp only [b2, b1, packedEntry, e1, e2, if_false, hlt, if_true, dite_true]
          simp [writeCoeff]
        · have h4 : ¬ (x2 = x ∧ 2 * q ≤ k ∧ k ≤ p + q) := by
            intro h4
            by_cases hk : k = 2 * q
            · exact h3 ⟨hk, h4.1⟩
            · by_cases hk2 : k = 2 * q + 1
              · exact h2 ⟨by omega, hk2, h4.1⟩
              · exact h1 ⟨h4.1, by omega, by omega⟩
          rw [if_neg h4]
          simp only [b2, b1]
          split
          · rename_i hlt
            have e3 : ¬ (k = 2 * q + 1 ∧ x2 = x) := fun e => h2 ⟨hlt, e⟩
            simp only [writeCoeff, if_neg h3, if_neg e3]
          · simp only [writeCoeff, if_neg h3]
  | case2 p q b hqp =>
    rw [packColumn, if_neg hqp, if_neg]
    intro h; omega

theorem packReal_foldl (c : Nat → Nat → Cplx K) (n m : Nat) (k x : Nat) :
    (List.range m).foldl (fun b x => packColumn c x n 0 b) (fun _ _ => 0) k x =
      if x < m ∧ k ≤ n then packedEntry c k x else 0 := by
  induction m with
  | zero => simp
  | succ m ih =>
    rw [List.range_succ, List.foldl_append, List.foldl_cons, List.foldl_nil, packColumn_apply, ih]
    by_cases h1 : x = m ∧ 2 * 0 ≤ k ∧ k ≤ n + 0
    · rw [if_pos h1, if_pos ⟨by omega, by omega⟩, h1.1]
    · rw [if_neg h1]
      by_cases h2 : x < m ∧ k ≤ n
      · rw [if_pos h2, if_pos ⟨by omega, h2.2⟩]
      · rw [if_neg h2, if_neg]
        intro h3; omega

theorem makeBlockH2L_coeff (ops : FloatOps K) (n : Nat) (k x : Fin (n + 1)) :
    (makeBlockH2L ops n).coeff k x = packedEntry (complexEntry ops n) k.val x.val := by
  show packReal (complexEntry ops n) n k.val x.val = _
  unfold packReal
  rw [packReal_foldl, if_pos ⟨x.isLt, Nat.lt_succ_iff.mp k.isLt⟩]

theorem coeff_uv_conj (p q x : ℕ) :
    (starRingEnd ℂ) (((1 + C Complex.I * X : ℂ[X]) ^ p * (1 - C Complex.I * X) ^ q).coeff x) =
      ((1 + C Complex.I * X : ℂ[X]) ^ q * (1 - C Complex.I * X) ^ p).coeff x := by
  rw [← Polynomial.coeff_map]
  congr 1
  simp only [Polynomial.map_mul, Polynomial.map_pow, Polynomial.map_add, Polynomial.map_sub,
    Polynomial.map_one, Polynomial.map_C, Polynomial.map_X, Complex.conj_I]
  rw [map_neg, mul_comm]
  congr 1
  · congr 1; ring
  · congr 1; ring

theorem toC_complexEntry_reflect (ops : FloatOps ℝ) (n i x : ℕ) (hi : i ≤ n) :
    toC (complexEntry ops n (n - i) x) = (starRingEnd ℂ) (toC (complexEntry ops n i x)) := by
  rw [toC_complexEntry ops n (n - i) x (Nat.sub_le n i), toC_complexEntry ops n i x hi]
  simp only [map_mul, map_div₀, map_zpow₀, map_neg, Complex.conj_I, Complex.conj_ofReal,
    coeff_uv_conj, neg_neg]
  have e1 : n - (n - i) = i := by omega
  have e2 : (-(n : ℤ) + 2 * ((n - i : ℕ) : ℤ)) = -(-(n : ℤ) + 2 * (i : ℤ)) := by omega
  have e3 : (-Complex.I) ^ (-(-(n : ℤ) + 2 * (i : ℤ))) = Complex.I ^ (-(n : ℤ) + 2 * (i : ℤ)) := by
    rw [zpow_neg, ← inv_zpow, inv_neg, Complex.inv_I, neg_neg]
  rw [e1, e2, e3, mul_comm ((Nat.factorial (n - i) : ℝ)) ((Nat.factorial i : ℝ))]

theorem exact_regular (pi : ℝ) :
    FloatOps.Regular ⟨Real.sqrt, fun a b => a ^ b, pi⟩ := by
  constructor
  · intro a b
    have : (0 : ℝ) < (Nat.factorial a : ℝ) * (Nat.factorial b : ℝ) := by positivity
    exact (Real.sqrt_pos.mpr this).ne'
  · intro t
    exact (Real.rpow_pos_of_pos (by norm_num) t).ne'

/-- The complex rows applied to a real vector: every row of `c` annihilates a real vector
that the packed real block annihilates. -/
theorem complex_rows_vanish (ops : FloatOps ℝ) (n : ℕ) (z : Fin (n + 1) → ℝ)
    (hz : ∀ k : Fin (n + 1), ∑ x : Fin (n + 1), packedEntry (complexEntry ops n) k.val x.val * z x = 0)
    (i : ℕ) (hi : i ≤ n) :
    ∑ x : Fin (n + 1), toC (complexEntry ops n i x.val) * (z x : ℂ) = 0 := by
  have lower : ∀ j, 2 * j ≤ n →
      ∑ x : Fin (n + 1), toC (complexEntry ops n j x.val) * (z x : ℂ) = 0 := by
    intro j hj
    apply Complex.ext
    · have := hz ⟨2 * j, by omega⟩
      simp only [packedEntry, Nat.mul_mod_right, if_true, Nat.mul_div_cancel_left j (by norm_num : 0 < 2)] at this
      simp only [Complex.re_sum, Complex.mul_re, Complex.ofReal_re, Complex.ofReal_im, mul_zero,
        sub_zero, Complex.zero_re]
      exact this
    · simp only [Complex.im_sum, Complex.mul_im, Complex.ofReal_re, Complex.ofReal_im, mul_zero,
        zero_add, Complex.zero_im]
      by_cases hlt : 2 * j + 1 ≤ n
      · have := hz ⟨2 * j + 1, by omega⟩
        have e1 : (2 * j + 1) % 2 ≠ 0 := by omega
        have e2 : (2 * j + 1) / 2 = j := by omega
        simp only [packedEntry, e1, e2, if_false, neg_mul, Finset.sum_neg_distrib, neg_eq_zero] at this
        simpa [toC] using this
      · have hn : n - j = j := by omega
        apply Finset.sum_eq_zero
        intro x _
        have h := toC_complexEntry_reflect ops n j x.val (by omega)
        rw [hn] at h
        have := Complex.conj_eq_iff_im.mp h.symm
        rw [this, zero_mul]
  by_cases h2 : 2 * i ≤ n
  · exact lower i h2
  · have hl := lower (n - i) (by omega)
    have := congrArg (starRingEnd ℂ) hl
    simp only [map_sum, map_mul, Complex.conj_ofReal, map_zero] at this
    rw [← this]
    apply Finset.sum_congr rfl
    intro x _
    rw [← toC_complexEntry_reflect ops n (n - i) x.val (Nat.sub_le n i)]
    have e : n - (n - i) = i := by omega
    rw [e]

theorem makeBlockH2L_det_ne_zero (ops : FloatOps ℝ) (hops : ops.Regular) (n : ℕ) :
    (makeBlockH2L ops n).coeff.det ≠ 0 := by
  intro hdet
  obtain ⟨z, hz0, hz⟩ := Matrix.exists_mulVec_eq_zero_iff.mpr hdet
  apply hz0
  have hz2 : ∀ k : Fin (n + 1),
      ∑ x : Fin (n + 1), packedEntry (complexEntry ops n) k.val x.val * z x = 0 := by
    intro k
    have := congrFun hz k
    simp only [Matrix.mulVec, Matrix.dotProduct, Pi.zero_apply] at this
    rw [← this]
    apply Finset.sum_congr rfl
    intro x _
    rw [← makeBlockH2L_coeff]
  have hrows := complex_rows_vanish ops n z hz2
  -- the coefficient matrix annihilates the rescaled vector
  have hW : (Matrix.of fun (i x : Fin (n + 1)) =>
      ((1 + C Complex.I * X : ℂ[X]) ^ (i : ℕ) * (1 - C Complex.I * X) ^ (n - (i : ℕ))).coeff
        (x : ℕ)).mulVec
      (fun x => ((ops.sqrt ((Nat.factorial x.val : ℝ) * (Nat.factorial (n - x.val) : ℝ)) : ℝ) : ℂ)
        * (z x : ℂ)) = 0 := by
    funext i
    have h := hrows i.val (Nat.lt_succ_iff.mp i.isLt)
    simp only [toC_complexEntry ops n i.val _ (Nat.lt_succ_iff.mp i.isLt)] at h
    have hA : (-Complex.I) ^ (-(n : ℤ) + 2 * (i.val : ℤ)) *
        ((ops.pow 2 (-(1 / 2) * (n : ℝ)) : ℝ) : ℂ) /
        ((ops.sqrt ((Nat.factorial i.val : ℝ) * (Nat.factorial (n - i.val) : ℝ)) : ℝ) : ℂ) ≠ 0 := by
      apply div_ne_zero
      · apply mul_ne_zero
        · exact zpow_ne_zero _ (neg_ne_zero.mpr Complex.I_ne_zero)
        · exact Complex.ofReal_ne_zero.mpr (hops.2 _)
      · exact Complex.ofReal_ne_zero.mpr (hops.1 _ _)
    simp only [Matrix.mulVec, Matrix.dotProduct, Matrix.of_apply, Pi.zero_apply]
    have h2 : (-Complex.I) ^ (-(n : ℤ) + 2 * (i.val : ℤ)) *
        ((ops.pow 2 (-(1 / 2) * (n : ℝ)) : ℝ) : ℂ) /
        ((ops.sqrt ((Nat.factorial i.val : ℝ) * (Nat.factorial (n - i.val) : ℝ)) : ℝ) : ℂ) *
        ∑ x : Fin (n + 1),
          ((1 + C Complex.I * X : ℂ[X]) ^ (i : ℕ) * (1 - C Complex.I * X) ^ (n - (i : ℕ))).coeff
            (x : ℕ) *
          (((ops.sqrt ((Nat.factorial x.val : ℝ) * (Nat.factorial (n - x.val) : ℝ)) : ℝ) : ℂ)
            * (z x : ℂ)) = 0 := by
      rw [← h, Finset.mul_sum]
      apply Finset.sum_congr rfl
      intro x _
      ring
    exact (mul_eq_zero.mp h2).resolve_left hA
  have hy : (fun x : Fin (n + 1) =>
      ((ops.sqrt ((Nat.factorial x.val : ℝ) * (Nat.factorial (n - x.val) : ℝ)) : ℝ) : ℂ)
        * (z x : ℂ)) = 0 := by
    by_contra hne
    exact uvMatrix_det_ne_zero n (Matrix.exists_mulVec_eq_zero_iff.mp ⟨_, hne, hW⟩)
  funext x
  have := congrFun hy x
  simp only [Pi.zero_apply, mul_eq_zero, Complex.ofReal_eq_zero] at this
  exact this.resolve_left (hops.1 _ _)

theorem blockApply_length (onLeft : Bool) (b : Block K) (seg : List K) :
    (blockApply onLeft b seg).length = b.rows := by
  simp [blockApply]

theorem segment_append (pre seg w : List K) (k : Nat) (hk : seg.length = k) :
    segment (pre ++ seg ++ w) pre.length k = segment seg 0 k := by
  funext j
  have hj : j.val < seg.length := by rw [hk]; exact j.isLt
  simp only [segment, List.getD_eq_getElem?_getD, zero_add, List.append_assoc]
  rw [List.getElem?_append_right (by omega)]
  simp only [Nat.add_sub_cancel_left]
  rw [List.getElem?_append_left hj]

omit [Field K] in
theorem setSegment_append (pre seg w : List K) (k : Nat) (hk : seg.length = k) (f : Fin k → K) :
    setSegment (pre ++ seg ++ w) pre.length k f = pre ++ List.ofFn f ++ w := by
  unfold setSegment
  have h1 : List.take pre.length (pre ++ seg ++ w) = pre := by
    rw [List.append_assoc, List.take_left']
    rfl
  have h2 : List.drop (pre.length + k) (pre ++ seg ++ w) = w := by
    have : pre.length + k = (pre ++ seg).length := by simp [hk]
    rw [this, List.drop_left']
    rfl
  rw [h1, h2]

theorem multiplyLoop_done (onLeft : Bool) (blocks : List (Block K)) (pre : List K) :
    multiplyLoop onLeft blocks pre.length pre = (Outcome.ok, pre) := by
  cases blocks <;> simp [multiplyLoop]

theorem multiplyLoop_step (onLeft : Bool) (b : Block K) (rest : List (Block K))
    (pre seg w : List K) (hrows : 0 < b.rows) (hseg : seg.length = b.rows) :
    multiplyLoop onLeft (b :: rest) pre.length (pre ++ seg ++ w) =
      multiplyLoop onLeft rest (pre ++ blockApply onLeft b seg).length
        (pre ++ blockApply onLeft b seg ++ w) := by
  rw [multiplyLoop]
  have h1 : pre.length < (pre ++ seg ++ w).length := by simp; omega
  have h2 : pre.length + b.rows ≤ (pre ++ seg ++ w).length := by simp; omega
  rw [if_pos h1, if_pos h2]
  simp only [segment_append pre seg w b.rows hseg, setSegment_append pre seg w b.rows hseg]
  have h3 : (pre ++ blockApply onLeft b seg).length = pre.length + b.rows := by
    simp [blockApply_length]
  rw [h3]
  rfl

theorem multiplyLoop_roundtrip (onLeft : Bool) (l1 l2 : List (Block K))
    (h : List.Forall₂ Paired l1 l2) :
    ∀ w : List K, Covers l1 w.length →
      ∃ w2 : List K, w2.length = w.length ∧ ∀ pre : List K,
        multiplyLoop onLeft l1 pre.length (pre ++ w) = (Outcome.ok, pre ++ w2) ∧
        multiplyLoop onLeft l2 pre.length (pre ++ w2) = (Outcome.ok, pre ++ w) := by
  induction h with
  | nil =>
    intro w hw
    cases w with
    | nil => exact ⟨[], rfl, fun pre => by simp [multiplyLoop_done]⟩
    | cons x xs => simp [Covers] at hw
  | @cons a b r1 r2 hab _ ih =>
    intro w hw
    cases hwl : w with
    | nil => exact ⟨[], rfl, fun pre => by simp [multiplyLoop_done]⟩
    | cons x xs =>
      rw [hwl] at hw
      simp only [List.length_cons, Covers] at hw
      obtain ⟨hpos, hle, hrest⟩ := hw
      rw [← List.length_cons x xs, ← hwl] at hle hrest
      have hseg : (w.take a.rows).length = a.rows := by simp [List.length_take]; omega
      have hdrop : (w.drop a.rows).length = w.length - a.rows := by simp
      obtain ⟨w3, hw3, hloop⟩ := ih (w.drop a.rows) (by rw [hdrop]; exact hrest)
      refine ⟨blockApply onLeft a (w.take a.rows) ++ w3, ?_, ?_⟩
      · rw [← hwl]; simp [blockApply_length, hw3]; omega
      · intro pre
        rw [← hwl]
        have hsplit : w = w.take a.rows ++ w.drop a.rows := (List.take_append_drop _ _).symm
        constructor
        · conv_lhs => rw [hsplit, ← List.append_assoc]
          rw [multiplyLoop_step onLeft a r1 pre _ _ hpos hseg]
          rw [(hloop (pre ++ blockApply onLeft a (w.take a.rows))).1, List.append_assoc]
        · rw [← List.append_assoc]
          rw [multiplyLoop_step onLeft b r2 pre _ _ (hab.1 ▸ hpos)
            ((blockApply_length _ _ _).trans hab.1)]
          rw [hab.2.2 onLeft _ hseg]
          rw [(hloop (pre ++ w.take a.rows)).2, List.append_assoc, List.take_append_drop]

theorem inverse_mul_self (a : Block K) (h : a.coeff.det ≠ 0) :
    a.inverse.coeff * a.coeff = 1 := by
  show ((a.coeff.det)⁻¹ • a.coeff.adjugate) * a.coeff = 1
  rw [Matrix.smul_mul, Matrix.adjugate_mul, smul_smul, inv_mul_cancel₀ h, one_smul]

theorem self_mul_inverse (a : Block K) (h : a.coeff.det ≠ 0) :
    a.coeff * a.inverse.coeff = 1 := by
  show a.coeff * ((a.coeff.det)⁻¹ • a.coeff.adjugate) = 1
  rw [Matrix.mul_smul, Matrix.mul_adjugate, smul_smul, inv_mul_cancel₀ h, one_smul]

theorem segment_ofFn (k : Nat) (g : Fin k → K) : segment (List.ofFn g) 0 k = g := by
  funext j
  simp [segment, List.getD_eq_getElem?_getD]

theorem ofFn_segment (seg : List K) (k : Nat) (h : seg.length = k) :
    List.ofFn (segment seg 0 k) = seg := by
  apply List.ext_getElem
  · simp [h]
  · intro i h1 h2
    simp [segment, List.getD_eq_getElem?_getD, List.getElem?_eq_getElem h2]

theorem paired_inverse (a : Block K) (hpos : 0 < a.rows) (h : a.coeff.det ≠ 0) :
    Paired a a.inverse ∧ Paired a.inverse a := by
  refine ⟨⟨rfl, hpos, ?_⟩, ⟨rfl, hpos, ?_⟩⟩
  · intro onLeft seg hseg
    show List.ofFn (Matrix.vecMul (segment (blockApply onLeft a seg) 0 a.rows)
      (if onLeft then a.inverse.coeff.transpose
        else a.inverse.coeff)) = seg
    unfold blockApply
    rw [segment_ofFn, Matrix.vecMul_vecMul]
    cases onLeft
    · simp only [Bool.false_eq_true, if_false]
      rw [self_mul_inverse a h, Matrix.vecMul_one, ofFn_segment seg _ hseg]
    · simp only [if_true]
      rw [← Matrix.transpose_mul, inverse_mul_self a h, Matrix.transpose_one, Matrix.vecMul_one,
        ofFn_segment seg _ hseg]
  · intro onLeft seg hseg
    have hseg2 : seg.length = a.rows := hseg
    show List.ofFn (Matrix.vecMul (segment (blockApply onLeft a.inverse seg) 0 a.rows)
      (if onLeft then a.coeff.transpose else a.coeff)) = seg
    unfold blockApply
    show List.ofFn (Matrix.vecMul (segment (List.ofFn (Matrix.vecMul (segment seg 0 a.rows)
      (if onLeft then a.inverse.coeff.transpose
        else a.inverse.coeff))) 0 a.rows)
      (if onLeft then a.coeff.transpose else a.coeff)) = seg
    rw [segment_ofFn, Matrix.vecMul_vecMul]
    cases onLeft
    · simp only [Bool.false_eq_true, if_false]
      rw [inverse_mul_self a h, Matrix.vecMul_one, ofFn_segment seg _ hseg2]
    · simp only [if_true]
      rw [← Matrix.transpose_mul, self_mul_inverse a h, Matrix.transpose_one, Matrix.vecMul_one,
        ofFn_segment seg _ hseg2]

theorem init_valid (ops : FloatOps K) : (ConversionSingleton.init : ConversionSingleton K).Valid ops := by
  refine ⟨by simp [ConversionSingleton.init], ?_, ?_⟩ <;> simp [ConversionSingleton.init]

theorem ensureLoop_valid (ops : FloatOps K) (order : Int) (i : Int) (s : ConversionSingleton K) :
    s.Valid ops → i = s._max_order + 1 → i ≤ order + 1 →
      (ensureLoop ops order i s).Valid ops ∧ (ensureLoop ops order i s)._max_order = order := by
  induction i, s using ensureLoop.induct ops order with
  | case1 i s hi h ih =>
    intro hv hi2 _
    rw [ensureLoop, if_pos hi]
    apply ih
    · obtain ⟨h1, h2, h3⟩ := hv
      have hnat : (s._max_order + 1 + 1).toNat = (s._max_order + 1).toNat + 1 := by omega
      have hi3 : i.toNat = (s._max_order + 1).toNat := by rw [hi2]
      refine ⟨by simp only; omega, ?_, ?_⟩
      · simp only [hnat, List.range_succ, List.map_append, List.map_cons, List.map_nil, ← h2, h, hi3]
      · simp only [hnat, List.range_succ, List.map_append, List.map_cons, List.map_nil, ← h3, h, hi3]
    · simp [hi2]
    · omega
  | case2 i s hi =>
    intro hv hi2 hle
    rw [ensureLoop, if_neg hi]
    exact ⟨hv, by omega⟩

theorem ensure_valid (ops : FloatOps K) (s : ConversionSingleton K) (order : Int)
    (hv : s.Valid ops) :
    (s.ensure ops order).Valid ops ∧ (s.ensure ops order)._max_order = max s._max_order order := by
  unfold ConversionSingleton.ensure
  split
  · rename_i h
    have := ensureLoop_valid ops order (s._max_order + 1) s hv rfl (by omega)
    exact ⟨this.1, by rw [this.2]; omega⟩
  · rename_i h
    exact ⟨hv, by omega⟩

theorem sizeFrom_two_mul (d : Nat) : ∀ j, 2 * sizeFrom j d = d * (2 * j + d + 1) := by
  induction d with
  | zero => intro j; simp [sizeFrom]
  | succ d ih =>
    intro j
    rw [sizeFrom, Nat.mul_add, ih (j + 1)]
    ring

theorem computeSize_eq (m : Nat) : computeSize (m : Int) = (sizeFrom 0 (m + 1) : Int) := by
  unfold computeSize
  have h := sizeFrom_two_mul (m + 1) 0
  have h2 : ((m : Int) + 1) * ((m : Int) + 2) = 2 * (sizeFrom 0 (m + 1) : Int) := by
    have : ((2 * sizeFrom 0 (m + 1) : Nat) : Int) = (((m + 1) * (2 * 0 + (m + 1) + 1) : Nat) : Int) := by
      rw [h]
    push_cast at this
    rw [this]; ring
  rw [h2, Int.mul_ediv_cancel_left _ (by norm_num)]

omit [Field K] in
theorem covers_mapped_range (f : Nat → Block K) (hf : ∀ i, (f i).rows = i + 1) (d : Nat) :
    ∀ j e, Covers ((List.range' j (d + e)).map f) (sizeFrom j d) := by
  induction d with
  | zero => intro j e; simp [sizeFrom, Covers]
  | succ d ih =>
    intro j e
    have h1 : d + 1 + e = (d + e) + 1 := by omega
    rw [h1, List.range'_succ, List.map_cons]
    have h2 : sizeFrom j (d + 1) = (j + sizeFrom (j + 1) d) + 1 := by rw [sizeFrom]; omega
    rw [h2]
    simp only [Covers, hf]
    refine ⟨by omega, by omega, ?_⟩
    have h3 : j + sizeFrom (j + 1) d + 1 - (j + 1) = sizeFrom (j + 1) d := by omega
    rw [h3]
    exact ih (j + 1) e

theorem paired_cache (ops : FloatOps ℝ) (hops : ops.Regular) (l : List Nat) :
    List.Forall₂ Paired (l.map (makeBlockH2L ops))
        (l.map (fun i : Nat => makeBlockL2H (i : Int) (makeBlockH2L ops i))) ∧
      List.Forall₂ Paired (l.map (fun i : Nat => makeBlockL2H (i : Int) (makeBlockH2L ops i)))
        (l.map (makeBlockH2L ops)) := by
  induction l with
  | nil => exact ⟨List.Forall₂.nil, List.Forall₂.nil⟩
  | cons i l ih =>
    have hp := paired_inverse (makeBlockH2L ops i) (Nat.succ_pos i)
      (makeBlockH2L_det_ne_zero ops hops i)
    exact ⟨List.Forall₂.cons hp.1 ih.1, List.Forall₂.cons hp.2 ih.2⟩

theorem ensure_idem (ops : FloatOps ℝ) (s : ConversionSingleton ℝ) (order : Int)
    (hs : s.Valid ops) : (s.ensure ops order).ensure ops order = s.ensure ops order := by
  have h := (ensure_valid ops s order hs).2
  generalize s.ensure ops order = s2 at h ⊢
  unfold ConversionSingleton.ensure
  rw [if_neg]
  omega

theorem cache_covers (ops : FloatOps ℝ) (s : ConversionSingleton ℝ) (m : Nat)
    (hs : s.Valid ops) (hm : (m : Int) ≤ s._max_order) (len : Nat)
    (hlen : (len : Int) = computeSize m) :
    Covers s._h2l len ∧ Covers s._l2h len := by
  obtain ⟨_, h2, h3⟩ := hs
  have hN : (s._max_order + 1).toNat = (m + 1) + ((s._max_order + 1).toNat - (m + 1)) := by omega
  have hl : len = sizeFrom 0 (m + 1) := by
    rw [computeSize_eq] at hlen
    exact_mod_cast hlen
  rw [h2, h3, hN, List.range_eq_range', hl]
  exact ⟨covers_mapped_range _ (fun _ => rfl) _ _ _, covers_mapped_range _ (fun _ => rfl) _ _ _⟩

theorem conversion_there_and_back (ops : FloatOps ℝ) (hops : ops.Regular) (s : ConversionSingleton ℝ)
    (hs : s.Valid ops) (m : Nat) (A B : BasisTypeEnum) (hAB : A ≠ B) (v : List ℝ)
    (hv : (v.length : Int) = computeSize m) :
    ∃ w : List ℝ, w.length = v.length ∧
      convertCoefficientVector ops s v A B m = (Outcome.ok, s.ensure ops m, w) ∧
      convertCoefficientVector ops (s.ensure ops m) w B A m = (Outcome.ok, s.ensure ops m, v) := by
  have hv2 := ensure_valid ops s m hs
  have hcov := cache_covers ops (s.ensure ops m) m hv2.1 (by rw [hv2.2]; omega) v.length hv
  have hpair := paired_cache ops hops (List.range ((s.ensure ops m)._max_order + 1).toNat)
  rw [← hv2.1.2.1, ← hv2.1.2.2] at hpair
  have hBA : B ≠ A := fun e => hAB e.symm
  have key : ∀ l1 l2 : List (Block ℝ), List.Forall₂ Paired l1 l2 → Covers l1 v.length →
      (if A = BasisTypeEnum.HERMITE then (s.ensure ops m)._h2l else (s.ensure ops m)._l2h) = l1 →
      (if B = BasisTypeEnum.HERMITE then (s.ensure ops m)._h2l else (s.ensure ops m)._l2h) = l2 →
      ∃ w : List ℝ, w.length = v.length ∧
        convertCoefficientVector ops s v A B m = (Outcome.ok, s.ensure ops m, w) ∧
        convertCoefficientVector ops (s.ensure ops m) w B A m =
          (Outcome.ok, s.ensure ops m, v) := by
    intro l1 l2 hp hc e1 e2
    obtain ⟨w, hw, hloop⟩ := multiplyLoop_roundtrip true l1 l2 hp v hc
    have hl := hloop []
    simp only [List.length_nil, List.nil_append] at hl
    refine ⟨w, hw, ?_, ?_⟩
    · simp only [convertCoefficientVector, if_neg hAB, ConversionMatrix.new,
        ConversionMatrix.multiplyOnLeft, hv, ne_eq, not_true_eq_false, if_false, e1, hl.1]
    · simp only [convertCoefficientVector, if_neg hBA, ConversionMatrix.new,
        ConversionMatrix.multiplyOnLeft, hw, hv, ne_eq, not_true_eq_false, if_false, e2, hl.2,
        ensure_idem ops s m hs]
  cases A <;> cases B
  · exact absurd rfl hAB
  · exact key _ _ hpair.1 hcov.1 (by simp) (by simp)
  · exact key _ _ hpair.2 hcov.2 (by simp) (by simp)
  · exact absurd rfl hAB

theorem multiplyLoop_no_lengthError (onLeft : Bool) (blocks : List (Block K)) :
    ∀ (offset : Nat) (vector : List K),
      (multiplyLoop onLeft blocks offset vector).1 ≠ Outcome.lengthError := by
  induction blocks with
  | nil =>
    intro offset vector
    unfold multiplyLoop
    split <;> simp
  | cons i rest ih =>
    intro offset vector
    unfold multiplyLoop
    split
    · split
      · exact ih _ _
      · simp
    · simp

theorem validateSize_cases (expected actual : Int) :
    (expected = actual ∧ validateSize expected actual = Outcome.ok) ∨
      (expected ≠ actual ∧ validateSize expected actual = Outcome.lengthError) := by
  unfold validateSize
  by_cases h : expected = actual
  · left; simp [h]
  · right; simp [h]

theorem convert_no_lengthError (ops : FloatOps K) (s : ConversionSingleton K) (v : List K)
    (A B : BasisTypeEnum) (order : Int) (hv : (v.length : Int) = computeSize order) :
    (convertCoefficientVector ops s v A B order).1 ≠ Outcome.lengthError := by
  unfold convertCoefficientVector
  by_cases h : A = B
  · simp [h]
  · rw [if_neg h]
    simp only [ConversionMatrix.new, ConversionMatrix.multiplyOnLeft, hv, ne_eq,
      not_true_eq_false, if_false, h]
    exact multiplyLoop_no_lengthError _ _ _ _

theorem initialize_spec (ops : FloatOps K) (s : ConversionSingleton K)
    (self : ShapeletFunctionEvaluator K) (f : ShapeletFunction K E)
    (hf : (f._coefficients.length : Int) = computeSize f._order) :
    (ShapeletFunctionEvaluator._initialize ops s self f).1 ≠ Outcome.lengthError ∧
      (ShapeletFunctionEvaluator._initialize ops s self f).2.1._h = self._h := by
  unfold ShapeletFunctionEvaluator._initialize
  cases hb : f._basisType with
  | HERMITE => simp
  | LAGUERRE =>
    simp only
    have h := convert_no_lengthError ops s f._coefficients LAGUERRE HERMITE f._order hf
    revert h
    cases (convertCoefficientVector ops s f._coefficients LAGUERRE HERMITE f._order).1 <;> simp

theorem invert_scalar (r : K) (hr : r ≠ 0) :
    invert (r⁻¹ • (1 : Matrix (Fin 2) (Fin 2) K)) = r • (1 : Matrix (Fin 2) (Fin 2) K) := by
  unfold invert
  ext i j
  fin_cases i <;> fin_cases j <;>
    simp [Matrix.det_fin_two, Matrix.adjugate_fin_two, Matrix.one_apply] <;> field_simp <;> ring

/-- The raw moments of a Gaussian in the frame of the image. -/
theorem gaussian_raw_moments (hm : HermiteMethods K) (h : HermiteEvaluator) (n : K)
    (coefficients : List K) (r m0 : K) (p : Fin 2 → K) (hr : r ≠ 0)
    (h00 : hm.sumIntegration h coefficients 0 0 = m0)
    (h10 : hm.sumIntegration h coefficients 1 0 = 0)
    (h01 : hm.sumIntegration h coefficients 0 1 = 0)
    (h20 : hm.sumIntegration h coefficients 2 0 = m0)
    (h02 : hm.sumIntegration h coefficients 0 2 = m0)
    (h11 : hm.sumIntegration h coefficients 1 1 = 0) :
    ShapeletFunctionEvaluator._computeRawMoments hm
        ⟨n, ⟨r⁻¹ • 1, -(r⁻¹ • p)⟩, h, coefficients⟩ ⟨0, 0, 0⟩ =
      ⟨m0, m0 • p, m0 • ((r * r) • (1 : Matrix (Fin 2) (Fin 2) K) + Matrix.vecMulVec p p)⟩ := by
  have e1 : (![0, 0] : Fin 2 → K) = 0 := by
    funext i; fin_cases i <;> rfl
  have e2 : (!![m0, 0; 0, m0] : Matrix (Fin 2) (Fin 2) K) = m0 • 1 := by
    ext i j; fin_cases i <;> fin_cases j <;> simp [Matrix.one_apply]
  simp only [ShapeletFunctionEvaluator._computeRawMoments, invert_scalar r hr, h00, h10, h01,
    h20, h02, h11, e1, e2, zero_add]
  congr 1
  · funext i
    simp only [Matrix.mulVec, Matrix.dotProduct, Fin.sum_univ_two, Matrix.smul_apply,
      Matrix.one_apply, Pi.sub_apply, Pi.zero_apply, Pi.smul_apply, Pi.neg_apply, smul_eq_mul]
    fin_cases i <;> simp <;> field_simp
  · ext i j
    simp only [Matrix.mul_apply, Fin.sum_univ_two, Matrix.smul_apply, Matrix.one_apply,
      Matrix.add_apply, Matrix.sub_apply, Matrix.vecMulVec_apply, Pi.zero_apply, Pi.smul_apply,
      Pi.neg_apply, smul_eq_mul, Matrix.transpose_apply]
    fin_cases i <;> fin_cases j <;> simp <;> field_simp <;> ring

theorem multiplyLoop_undefined (onLeft : Bool) (blocks : List (Block K)) (pre w : List K)
    (h : ∀ b rest, blocks = b :: rest → w.length < b.rows) (hw : w ≠ []) :
    multiplyLoop onLeft blocks pre.length (pre ++ w) = (Outcome.undefined, pre ++ w) := by
  have hlen : 0 < w.length := List.length_pos.mpr hw
  cases blocks with
  | nil =>
    rw [multiplyLoop, if_pos (by simp; omega)]
  | cons b rest =>
    have := h b rest rfl
    rw [multiplyLoop, if_pos (by simp; omega), if_neg (by simp; omega)]

theorem multiplyLoop_undo (onLeft : Bool) (l1 l2 : List (Block K))
    (h : List.Forall₂ Paired l1 l2) :
    ∀ w : List K, ∃ (w2 : List K) (o : Outcome), w2.length = w.length ∧ ∀ pre : List K,
      multiplyLoop onLeft l1 pre.length (pre ++ w) = (o, pre ++ w2) ∧
      (o = Outcome.ok →
        multiplyLoop onLeft l2 pre.length (pre ++ w2) = (Outcome.ok, pre ++ w)) := by
  induction h with
  | nil =>
    intro w
    by_cases hw : w = []
    · subst hw
      exact ⟨[], Outcome.ok, rfl, fun pre => by simp [multiplyLoop_done]⟩
    · refine ⟨w, Outcome.undefined, rfl, fun pre => ⟨?_, by simp⟩⟩
      exact multiplyLoop_undefined onLeft [] pre w (by simp) hw
  | @cons a b r1 r2 hab _ ih =>
    intro w
    by_cases hw : w = []
    · subst hw
      exact ⟨[], Outcome.ok, rfl, fun pre => by simp [multiplyLoop_done]⟩
    · by_cases hle : a.rows ≤ w.length
      · have hseg : (w.take a.rows).length = a.rows := by simp [List.length_take]; omega
        obtain ⟨w3, o, hw3, hloop⟩ := ih (w.drop a.rows)
        refine ⟨blockApply onLeft a (w.take a.rows) ++ w3, o, ?_, ?_⟩
        · simp [blockApply_length, hw3]; omega
        · intro pre
          have hsplit : w = w.take a.rows ++ w.drop a.rows := (List.take_append_drop _ _).symm
          constructor
          · conv_lhs => rw [hsplit, ← List.append_assoc]
            rw [multiplyLoop_step onLeft a r1 pre _ _ hab.2.1 hseg]
            rw [(hloop (pre ++ blockApply onLeft a (w.take a.rows))).1, List.append_assoc]
          · intro ho
            rw [← List.append_assoc]
            rw [multiplyLoop_step onLeft b r2 pre _ _ (hab.1 ▸ hab.2.1)
              ((blockApply_length _ _ _).trans hab.1)]
            rw [hab.2.2 onLeft _ hseg]
            rw [(hloop (pre ++ w.take a.rows)).2 ho, List.append_assoc, List.take_append_drop]
      · refine ⟨w, Outcome.undefined, rfl, fun pre => ⟨?_, by simp⟩⟩
        apply multiplyLoop_undefined onLeft _ pre w _ hw
        intro b2 rest2 e
        cases e
        omega

theorem convert_undo (ops : FloatOps ℝ) (hops : ops.Regular) (s : ConversionSingleton ℝ)
    (hs : s.Valid ops) (order : Int) (A B : BasisTypeEnum) (hAB : A ≠ B) (v : List ℝ)
    (hok : (convertCoefficientVector ops s v A B order).1 = Outcome.ok) :
    (convertCoefficientVector ops s v A B order).2.1 = s.ensure ops order ∧
    convertCoefficientVector ops (s.ensure ops order)
        (convertCoefficientVector ops s v A B order).2.2 B A order =
      (Outcome.ok, s.ensure ops order, v) := by
  have hv2 := ensure_valid ops s order hs
  have hpair := paired_cache ops hops (List.range ((s.ensure ops order)._max_order + 1).toNat)
  rw [← hv2.1.2.1, ← hv2.1.2.2] at hpair
  have hBA : B ≠ A := fun e => hAB e.symm
  have hv : (v.length : Int) = computeSize order := by
    by_contra hne
    simp [convertCoefficientVector, hAB, ConversionMatrix.new, ConversionMatrix.multiplyOnLeft,
      hne] at hok
  have key : ∀ l1 l2 : List (Block ℝ), List.Forall₂ Paired l1 l2 →
      (if A = BasisTypeEnum.HERMITE then (s.ensure ops order)._h2l
        else (s.ensure ops order)._l2h) = l1 →
      (if B = BasisTypeEnum.HERMITE then (s.ensure ops order)._h2l
        else (s.ensure ops order)._l2h) = l2 →
      (convertCoefficientVector ops s v A B order).2.1 = s.ensure ops order ∧
      convertCoefficientVector ops (s.ensure ops order)
          (convertCoefficientVector ops s v A B order).2.2 B A order =
        (Outcome.ok, s.ensure ops order, v) := by
    intro l1 l2 hp e1 e2
    obtain ⟨w, o, hw, hloop⟩ := multiplyLoop_undo true l1 l2 hp v
    have hl := hloop []
    simp only [List.length_nil, List.nil_append] at hl
    have hc : convertCoefficientVector ops s v A B order = (o, s.ensure ops order, w) := by
      simp only [convertCoefficientVector, if_neg hAB, ConversionMatrix.new,
        ConversionMatrix.multiplyOnLeft, hv, ne_eq, not_true_eq_false, if_false, e1, hl.1]
    rw [hc] at hok ⊢
    refine ⟨rfl, ?_⟩
    simp only [convertCoefficientVector, if_neg hBA, ConversionMatrix.new,
      ConversionMatrix.multiplyOnLeft, hw, hv, ne_eq, not_true_eq_false, if_false, e2,
      hl.2 hok, ensure_idem ops s order hs]
  cases A <;> cases B
  · exact absurd rfl hAB
  · exact key _ _ hpair.1 (by simp) (by simp)
  · exact key _ _ hpair.2 (by simp) (by simp)
  · exact absurd rfl hAB

theorem convolve_frame (ops : FloatOps K) (geom : Geometry K E)
    (hc : HermiteConvolution K E) (s : ConversionSingleton K) (self other : ShapeletFunction K E) :
    ((self.convolve ops geom hc s other).self._order = self._order ∧
      (self.convolve ops geom hc s other).self._basisType = self._basisType ∧
      (self.convolve ops geom hc s other).self._ellipse = self._ellipse) ∧
    (self._basisType = HERMITE →
      (self.convolve ops geom hc s other).self._coefficients = self._coefficients) := by
  obtain ⟨so, sb, se, sc⟩ := self
  cases sb with
  | HERMITE =>
    simp only [ShapeletFunction.convolve, ShapeletFunction.setEllipse, reduceCtorEq, if_false]
    split
    · simp
    · split <;> simp
  | LAGUERRE =>
    simp only [ShapeletFunction.convolve, ShapeletFunction.setEllipse, if_true, reduceCtorEq, false_implies, and_true]
    split
    · split
      · simp
      · split
        · split
          · split <;> simp
          · simp
        · simp
    · simp

theorem convolve_restores_ok (ops : FloatOps ℝ) (geom : Geometry ℝ E)
    (hc : HermiteConvolution ℝ E) (s : ConversionSingleton ℝ) (self other : ShapeletFunction ℝ E)
    (hops : ops.Regular) (hs : s.Valid ops)
    (hok : (self.convolve ops geom hc s other).outcome = Outcome.ok) :
    (self.convolve ops geom hc s other).self = self := by
  obtain ⟨so, sb, se, sc⟩ := self
  cases sb with
  | HERMITE =>
    simp only [ShapeletFunction.convolve, ShapeletFunction.setEllipse, reduceCtorEq, if_false]
    split
    · rfl
    · split <;> rfl
  | LAGUERRE =>
    simp only [ShapeletFunction.convolve, ShapeletFunction.setEllipse, if_true] at hok ⊢
    have hu := convert_undo ops hops s hs so LAGUERRE HERMITE (by decide) sc
    generalize convertCoefficientVector ops s sc LAGUERRE HERMITE so = c1 at hok hu ⊢
    obtain ⟨o1, s1, w1⟩ := c1
    cases o1 with
    | lengthError => simp at hok
    | undefined => simp at hok
    | ok =>
      obtain ⟨hs1, hu2⟩ := hu rfl
      simp only at hs1 hu2 hok ⊢
      subst hs1
      rw [hu2] at hok ⊢
      simp only at hok ⊢
      cases hmv : (hc.evaluate so other se).1.mulVec w1 with
      | none => simp [hmv] at hok
      | some product =>
        simp only [hmv] at hok ⊢
        generalize (deepAssign (ShapeletFunction.zero geom (hc.getRowOrder so other)
          HERMITE)._coefficients product) = da at hok ⊢
        obtain ⟨o2, w2⟩ := da
        cases o2 with
        | lengthError => simp at hok
        | undefined => simp at hok
        | ok =>
          simp only at hok ⊢
          split <;> rfl

theorem changeBasisType_basis (ops : FloatOps K) (s : ConversionSingleton K)
    (f : ShapeletFunction K E) (b : BasisTypeEnum)
    (hok : (f.changeBasisType ops s b).1 = Outcome.ok) :
    (f.changeBasisType ops s b).2.1._basisType = b := by
  unfold ShapeletFunction.changeBasisType at hok ⊢
  generalize convertCoefficientVector ops s f._coefficients f._basisType b f._order = c at hok ⊢
  obtain ⟨o, s1, w⟩ := c
  cases o <;> simp_all

theorem convolve_laguerre_ok (ops : FloatOps ℝ) (geom : Geometry ℝ E)
    (hc : HermiteConvolution ℝ E) (s : ConversionSingleton ℝ) (se : E) (sc : List ℝ)
    (other : ShapeletFunction ℝ E) (m m2 : Nat) (hops : ops.Regular) (hs : s.Valid ops)
    (hlen : (sc.length : Int) = computeSize m)
    (hrow : hc.getRowOrder m other = m2)
    (hrows : (hc.evaluate m other se).1.rows = (computeSize m2).toNat)
    (hcols : (hc.evaluate m other se).1.cols = sc.length) :
    (ShapeletFunction.convolve ops geom hc s ⟨m, LAGUERRE, se, sc⟩ other).outcome = Outcome.ok ∧
    ∃ g, (ShapeletFunction.convolve ops geom hc s ⟨m, LAGUERRE, se, sc⟩ other).result = some g ∧
      g._basisType = LAGUERRE := by
  obtain ⟨w, hw, h1, h2⟩ := conversion_there_and_back ops hops s hs m LAGUERRE HERMITE (by decide) sc hlen
  have hs2 := (ensure_valid ops s m hs).1
  have hmv : (hc.evaluate m other se).1.mulVec w = some (List.ofFn
      (Matrix.mulVec (hc.evaluate m other se).1.coeff (fun j => w.getD j.val 0))) := by
    simp [Array2.mulVec, hcols, hw]
  have hm2 : (0 : Int) ≤ computeSize m2 := by
    rw [computeSize_eq]; exact Int.natCast_nonneg _
  have hplen : ((List.ofFn (Matrix.mulVec (hc.evaluate m other se).1.coeff
      (fun j => w.getD j.val 0))).length : Int) = computeSize m2 := by
    rw [List.length_ofFn, hrows, Int.toNat_of_nonneg hm2]
  have hda : deepAssign (zeros (computeSize (m2 : Int)))
      (List.ofFn (Matrix.mulVec (hc.evaluate m other se).1.coeff (fun j => w.getD j.val 0))) =
      (Outcome.ok, List.ofFn (Matrix.mulVec (hc.evaluate m other se).1.coeff
        (fun j => w.getD j.val 0))) := by
    simp [deepAssign, zeros, hrows]
  obtain ⟨w3, _, h3, _⟩ := conversion_there_and_back ops hops (s.ensure ops m) hs2 m2 HERMITE LAGUERRE
    (by decide) _ hplen
  simp only [ShapeletFunction.convolve, ShapeletFunction.setEllipse, if_true, h1, h2, hmv, hrow, hda,
    ShapeletFunction.changeBasisType, ShapeletFunction.zero, h3]
  exact ⟨trivial, _, rfl, rfl⟩

theorem getD_map_div (v : List K) (k : K) (i : Nat) :
    (v.map (fun c => c / k)).getD i 0 = v.getD i 0 / k := by
  simp only [List.getD_eq_getElem?_getD, List.getElem?_map]
  cases v[i]? <;> simp

theorem segment_map_div (v : List K) (k : K) (offset rows : Nat) :
    segment (v.map (fun c => c / k)) offset rows = fun j => segment v offset rows j / k := by
  funext j
  simp only [segment, getD_map_div]

theorem vecMul_div {n : Nat} (g : Fin n → K) (k : K) (f : Matrix (Fin n) (Fin n) K) :
    Matrix.vecMul (fun j => g j / k) f = fun j => Matrix.vecMul g f j / k := by
  funext j
  simp only [Matrix.vecMul, Matrix.dotProduct, Finset.sum_div]
  apply Finset.sum_congr rfl
  intro i _
  ring

theorem setSegment_map_div (v : List K) (k : K) (offset rows : Nat) (g : Fin rows → K) :
    setSegment (v.map (fun c => c / k)) offset rows (fun j => g j / k) =
      (setSegment v offset rows g).map (fun c => c / k) := by
  simp only [setSegment, List.map_append, List.map_take, List.map_drop, List.map_ofFn]
  rfl

theorem multiplyLoop_scale (onLeft : Bool) (k : K) (blocks : List (Block K)) :
    ∀ (offset : Nat) (v : List K),
      multiplyLoop onLeft blocks offset (v.map (fun c => c / k)) =
        ((multiplyLoop onLeft blocks offset v).1,
          (multiplyLoop onLeft blocks offset v).2.map (fun c => c / k)) := by
  induction blocks with
  | nil =>
    intro offset v
    simp only [multiplyLoop, List.length_map]
    split <;> rfl
  | cons i rest ih =>
    intro offset v
    simp only [multiplyLoop, List.length_map]
    split
    · split
      · rw [segment_map_div, vecMul_div, setSegment_map_div, ih]
      · rfl
    · rfl

theorem convert_scale (ops : FloatOps K) (s : ConversionSingleton K) (v : List K) (k : K)
    (A B : BasisTypeEnum) (order : Int) :
    convertCoefficientVector ops s (v.map (fun c => c / k)) A B order =
      ((convertCoefficientVector ops s v A B order).1,
        (convertCoefficientVector ops s v A B order).2.1,
        (convertCoefficientVector ops s v A B order).2.2.map (fun c => c / k)) := by
  unfold convertCoefficientVector
  by_cases h : A = B
  · simp [h]
  · simp only [if_neg h, ConversionMatrix.new, ConversionMatrix.multiplyOnLeft, List.length_map]
    split
    · rfl
    · simp only [if_neg h, multiplyLoop_scale]

theorem ensureLoop_max_order (ops : FloatOps K) (order : Int) (i : Int)
    (s : ConversionSingleton K) :
    i = s._max_order + 1 → i ≤ order + 1 → (ensureLoop ops order i s)._max_order = order := by
  induction i, s using ensureLoop.induct ops order with
  | case1 i s hi h ih =>
    intro hi2 _
    rw [ensureLoop, if_pos hi]
    apply ih
    · simp [hi2]
    · omega
  | case2 i s hi =>
    intro hi2 hle
    rw [ensureLoop, if_neg hi]
    omega

theorem ensure_ensure (ops : FloatOps K) (s : ConversionSingleton K) (order : Int) :
    (s.ensure ops order).ensure ops order = s.ensure ops order := by
  have h : order ≤ (s.ensure ops order)._max_order := by
    unfold ConversionSingleton.ensure
    split
    · rw [ensureLoop_max_order ops order _ s rfl (by omega)]
    · omega
  generalize s.ensure ops order = s2 at h ⊢
  unfold ConversionSingleton.ensure
  rw [if_neg]
  omega

theorem convert_state (ops : FloatOps K) (s : ConversionSingleton K) (v : List K)
    (A B : BasisTypeEnum) (order : Int) (hAB : A ≠ B) :
    (convertCoefficientVector ops s v A B order).2.1 = s.ensure ops order ∧
    convertCoefficientVector ops (s.ensure ops order) v A B order =
      convertCoefficientVector ops s v A B order := by
  simp only [convertCoefficientVector, if_neg hAB, ConversionMatrix.new, ensure_ensure,
    ConversionMatrix.multiplyOnLeft, and_self]

theorem hermiteFixture_homogeneous (weight : K) (h : HermiteEvaluator) (v : List K) (k : K) :
    (hermiteFixture weight).sumIntegration h (v.map (fun c => c / k)) 0 0 =
      (hermiteFixture weight).sumIntegration h v 0 0 / k := by
  cases v with
  | nil => simp [hermiteFixture]
  | cons x xs => simp [hermiteFixture, mul_div_assoc]

theorem addToRow_spec (he : HermiteEvaluation K) (self : ShapeletFunctionEvaluator K) (y : Int)
    (row : List K) : ∀ (x : Int),
    (addToRow he self y x row).length = row.length ∧
    ∀ (i : Nat) (h : i < row.length),
      (addToRow he self y x row)[i]? =
        some (row[i] + self.call he ((x + (i : Int) : Int) : K) (y : K)) := by
  induction row with
  | nil => intro x; simp [addToRow]
  | cons cell rest ih =>
    intro x
    refine ⟨by simp [addToRow, (ih (x + 1)).1], ?_⟩
    intro i h
    cases i with
    | zero => simp [addToRow]
    | succ i =>
      have h2 : i < rest.length := by simpa using h
      simp only [addToRow, List.getElem?_cons_succ, List.getElem_cons_succ]
      rw [(ih (x + 1)).2 i h2]
      have e : x + 1 + (i : Int) = x + ((i + 1 : Nat) : Int) := by push_cast; ring
      rw [e]

theorem addToRows_spec (he : HermiteEvaluation K) (self : ShapeletFunctionEvaluator K) (x0 : Int)
    (array : List (List K)) : ∀ (y : Int),
    (addToRows he self x0 y array).length = array.length ∧
    ∀ (j : Nat) (h : j < array.length),
      (addToRows he self x0 y array)[j]? =
        some (addToRow he self (y + (j : Int)) x0 array[j]) := by
  induction array with
  | nil => intro y; simp [addToRows]
  | cons row rest ih =>
    intro y
    refine ⟨by simp [addToRows, (ih (y + 1)).1], ?_⟩
    intro j h
    cases j with
    | zero => simp [addToRows]
    | succ j =>
      have h2 : j < rest.length := by simpa using h
      simp only [addToRows, List.getElem?_cons_succ, List.getElem_cons_succ]
      rw [(ih (y + 1)).2 j h2]
      have e : y + 1 + (j : Int) = y + ((j + 1 : Nat) : Int) := by push_cast; ring
      rw [e]

theorem computeSize_nonneg (order : Int) : 0 ≤ computeSize order := by
  unfold computeSize
  apply Int.ediv_nonneg _ (by norm_num)
  rcases le_or_lt 0 (order + 1) with h | h
  · exact mul_nonneg h (by omega)
  · exact mul_nonneg_of_nonpos_of_nonpos (by omega) (by omega)

theorem zeros_length (size : Int) (h : 0 ≤ size) : (((zeros size : List K).length : Nat) : Int) = size := by
  simp [zeros, Int.toNat_of_nonneg h]

omit [Field K] in
theorem setSegment_length (v : List K) (offset k : Nat) (g : Fin k → K)
    (h : offset + k ≤ v.length) : (setSegment v offset k g).length = v.length := by
  simp only [setSegment, List.length_append, List.length_take, List.length_ofFn,
    List.length_drop]
  omega

theorem multiplyLoop_length (onLeft : Bool) (blocks : List (Block K)) :
    ∀ (offset : Nat) (v : List K), (multiplyLoop onLeft blocks offset v).2.length = v.length := by
  induction blocks with
  | nil =>
    intro offset v
    unfold multiplyLoop
    split <;> rfl
  | cons i rest ih =>
    intro offset v
    unfold multiplyLoop
    split
    · split
      · rename_i h
        rw [ih, setSegment_length _ _ _ _ h]
      · rfl
    · rfl

theorem convert_length (ops : FloatOps K) (s : ConversionSingleton K) (v : List K)
    (A B : BasisTypeEnum) (order : Int) :
    (convertCoefficientVector ops s v A B order).2.2.length = v.length := by
  unfold convertCoefficientVector
  split
  · rfl
  · simp only [ConversionMatrix.new, ConversionMatrix.multiplyOnLeft]
    split
    · rfl
    · split <;> exact multiplyLoop_length _ _ _ _

theorem changeBasisType_size (ops : FloatOps K) (s : ConversionSingleton K)
    (f : ShapeletFunction K E) (b : BasisTypeEnum) (hf : f.SizeInvariant) :
    (f.changeBasisType ops s b).2.1.SizeInvariant := by
  have hl := convert_length ops s f._coefficients f._basisType b f._order
  unfold ShapeletFunction.changeBasisType
  unfold ShapeletFunction.SizeInvariant at hf ⊢
  generalize convertCoefficientVector ops s f._coefficients f._basisType b f._order = c at hl ⊢
  obtain ⟨o, s1, w⟩ := c
  cases o <;> simp_all

theorem convolve_result_size (ops : FloatOps K) (geom : Geometry K E)
    (hc : HermiteConvolution K E) (s : ConversionSingleton K) (self other : ShapeletFunction K E)
    (g : ShapeletFunction K E) (hg : (self.convolve ops geom hc s other).result = some g) :
    g.SizeInvariant := by
  have hz : ∀ product : List K,
      (deepAssign (ShapeletFunction.zero geom (hc.getRowOrder self._order other)
        HERMITE)._coefficients product).1 = Outcome.ok →
      (⟨hc.getRowOrder self._order other, HERMITE, (hc.evaluate self._order other self._ellipse).2,
        (deepAssign (ShapeletFunction.zero geom (hc.getRowOrder self._order other)
          HERMITE)._coefficients product).2⟩ : ShapeletFunction K E).SizeInvariant := by
    intro product hok
    unfold deepAssign at hok ⊢
    split at hok
    · rename_i hlen
      simp only [ShapeletFunction.SizeInvariant, if_pos hlen]
      rw [← hlen]
      exact zeros_length _ (computeSize_nonneg _)
    · simp at hok
  obtain ⟨so, sb, se, sc⟩ := self
  cases sb with
  | HERMITE =>
    simp only [ShapeletFunction.convolve, ShapeletFunction.setEllipse, reduceCtorEq,
      if_false] at hg
    cases hmv : (hc.evaluate so other se).1.mulVec sc with
    | none => simp [hmv] at hg
    | some product =>
      simp only [hmv] at hg
      have hzp := hz product
      generalize (deepAssign (ShapeletFunction.zero geom (hc.getRowOrder so other)
        HERMITE)._coefficients product) = da at hg hzp
      obtain ⟨o2, w2⟩ := da
      cases o2 with
      | lengthError => simp at hg
      | undefined => simp at hg
      | ok =>
        simp only [Option.some.injEq] at hg
        rw [← hg]
        exact hzp rfl
  | LAGUERRE =>
    simp only [ShapeletFunction.convolve, ShapeletFunction.setEllipse, if_true] at hg
    generalize convertCoefficientVector ops s sc LAGUERRE HERMITE so = c1 at hg
    obtain ⟨o1, s1, w1⟩ := c1
    cases o1 with
    | lengthError => simp at hg
    | undefined => simp at hg
    | ok =>
      simp only at hg
      cases hmv : (hc.evaluate so other se).1.mulVec w1 with
      | none => simp [hmv] at hg
      | some product =>
        simp only [hmv] at hg
        have hzp := hz product
        generalize (deepAssign (ShapeletFunction.zero geom (hc.getRowOrder so other)
          HERMITE)._coefficients product) = da at hg hzp
        obtain ⟨o2, w2⟩ := da
        cases o2 with
        | lengthError => simp at hg
        | undefined => simp at hg
        | ok =>
          simp only at hg
          generalize convertCoefficientVector ops s1 w1 HERMITE LAGUERRE so = c2 at hg
          obtain ⟨o3, s3, w3⟩ := c2
          cases o3 with
          | lengthError => simp at hg
          | undefined => simp at hg
          | ok =>
            simp only at hg
            split at hg
            · simp only [Option.some.injEq] at hg
              rw [← hg]
              exact changeBasisType_size _ _ _ _ (hzp rfl)
            · simp at hg

theorem invert_mul (l : Matrix (Fin 2) (Fin 2) K) (h : l.det ≠ 0) :
    invert l * l = 1 ∧ l * invert l = 1 := by
  unfold invert
  constructor
  · rw [Matrix.smul_mul, Matrix.adjugate_mul, smul_smul, inv_mul_cancel₀ h, one_smul]
  · rw [Matrix.mul_smul, Matrix.mul_adjugate, smul_smul, inv_mul_cancel₀ h, one_smul]

theorem entry_eq (b : Block K) (i j : Fin b.rows) : b.entry i.val j.val = b.coeff i j := by
  simp [Block.entry]

theorem setBlock_entry (r b r2 : Block K) (offset k : Nat)
    (h : setBlock r offset k b = some r2) :
    r2.rows = r.rows ∧ offset + k ≤ r.rows ∧ b.rows = k ∧
      ∀ i j, r2.entry i j =
        if (offset ≤ i ∧ i < offset + k) ∧ (offset ≤ j ∧ j < offset + k)
        then b.entry (i - offset) (j - offset) else r.entry i j := by
  unfold setBlock at h
  split at h
  · rename_i hc
    obtain ⟨hfit, hrows⟩ := hc
    simp only [Option.some.injEq] at h
    subst h
    refine ⟨rfl, hfit, hrows, ?_⟩
    intro i j
    subst hrows
    by_cases hb : i < r.rows ∧ j < r.rows
    · by_cases hin : (offset ≤ i ∧ i < offset + b.rows) ∧ (offset ≤ j ∧ j < offset + b.rows)
      · have h1 : (offset ≤ i ∧ i - offset < b.rows) ∧ (offset ≤ j ∧ j - offset < b.rows) :=
          ⟨⟨hin.1.1, by omega⟩, ⟨hin.2.1, by omega⟩⟩
        have h2 : i - offset < b.rows ∧ j - offset < b.rows := ⟨h1.1.2, h1.2.2⟩
        simp only [Block.entry, dif_pos hb, dif_pos h1, if_pos hin, dif_pos h2]
      · have h1 : ¬ ((offset ≤ i ∧ i - offset < b.rows) ∧ (offset ≤ j ∧ j - offset < b.rows)) := by
          intro hh
          exact hin ⟨⟨hh.1.1, by omega⟩, ⟨hh.2.1, by omega⟩⟩
        simp only [Block.entry, dif_pos hb, dif_neg h1, if_neg hin]
    · have hin : ¬ ((offset ≤ i ∧ i < offset + b.rows) ∧ (offset ≤ j ∧ j < offset + b.rows)) := by
        intro hh
        exact hb ⟨by omega, by omega⟩
      simp only [Block.entry, dif_neg hb, if_neg hin]
  · exact absurd h (by simp)

omit [Field K] in
theorem sizeFrom_succ_left (n d : Nat) : sizeFrom n (d + 1) = (n + 1) + sizeFrom (n + 1) d := rfl

theorem sizeFrom_mono (n : Nat) : ∀ a b : Nat, a ≤ b → sizeFrom n a + (n + a) * (b - a) ≤ sizeFrom n b := by
  intro a b hab
  have h1 := sizeFrom_two_mul a n
  have h2 := sizeFrom_two_mul b n
  obtain ⟨c, rfl⟩ := Nat.exists_eq_add_of_le hab
  have h3 : a + c - a = c := by omega
  rw [h3]
  nlinarith [Nat.zero_le (a * c), Nat.zero_le (c * c), Nat.zero_le c]

theorem denseLoop_spec (get : Int → Option (Block K)) (order : Int) (n offset : Nat)
    (r : Block K) :
    (∀ k : Nat, n ≤ k → (k : Int) ≤ order → ∃ b, get k = some b ∧ b.rows = k + 1) →
    offset + sizeFrom n (order + 1 - n).toNat ≤ r.rows →
    ∃ D, denseLoop get order n offset r = some D ∧ D.rows = r.rows ∧
      (∀ (k : Nat) (b : Block K), n ≤ k → (k : Int) ≤ order → get k = some b →
        ∀ i j, i < k + 1 → j < k + 1 →
          D.entry (offset + sizeFrom n (k - n) + i) (offset + sizeFrom n (k - n) + j) =
            b.entry i j) ∧
      (∀ i j, (∀ k : Nat, n ≤ k → (k : Int) ≤ order →
          ¬ ((offset + sizeFrom n (k - n) ≤ i ∧ i < offset + sizeFrom n (k - n) + (k + 1)) ∧
            (offset + sizeFrom n (k - n) ≤ j ∧ j < offset + sizeFrom n (k - n) + (k + 1)))) →
        D.entry i j = r.entry i j) := by
  induction n, offset, r using denseLoop.induct get order with
  | case1 n offset r hn hnone =>
    intro hget _
    obtain ⟨b, hb, _⟩ := hget n (le_refl _) hn
    rw [hb] at hnone
    exact absurd hnone (by simp)
  | case2 n offset r hn b hb hset =>
    intro hget hfit
    exfalso
    obtain ⟨b2, hb2, hrows⟩ := hget n (le_refl _) hn
    rw [hb] at hb2
    simp only [Option.some.injEq] at hb2
    subst hb2
    have hd : (order + 1 - n).toNat = (order + 1 - (n + 1 : Nat)).toNat + 1 := by omega
    rw [hd, sizeFrom_succ_left] at hfit
    unfold setBlock at hset
    rw [if_pos ⟨by omega, hrows⟩] at hset
    exact absurd hset (by simp)
  | case3 n offset r hn b hb r2 hset ih =>
    intro hget hfit
    obtain ⟨hr2, _, hbrows, hentry⟩ := setBlock_entry r b r2 offset (n + 1) hset
    have hd : (order + 1 - n).toNat = (order + 1 - (n + 1 : Nat)).toNat + 1 := by omega
    rw [hd, sizeFrom_succ_left] at hfit
    obtain ⟨D, hD, hDrows, hblocks, hout⟩ := ih
      (fun k hk hko => hget k (by omega) hko) (by rw [hr2]; omega)
    have hoff : ∀ k : Nat, n + 1 ≤ k →
        offset + sizeFrom n (k - n) = offset + (n + 1) + sizeFrom (n + 1) (k - (n + 1)) := by
      intro k hk
      have : k - n = (k - (n + 1)) + 1 := by omega
      rw [this, sizeFrom_succ_left]
      omega
    refine ⟨D, ?_, by rw [hDrows, hr2], ?_, ?_⟩
    · rw [denseLoop, if_pos hn, hb]
      simp only [hset]
      exact hD
    · intro k b2 hk hko hb2 i j hi hj
      rcases Nat.eq_or_lt_of_le hk with heq | hlt
      · subst heq
        rw [hb] at hb2
        simp only [Option.some.injEq] at hb2
        subst hb2
        simp only [Nat.sub_self, sizeFrom, Nat.add_zero]
        rw [hout, hentry, if_pos ⟨⟨by omega, by omega⟩, ⟨by omega, by omega⟩⟩]
        · simp only [Nat.add_sub_cancel_left]
        · intro k2 hk2 _
          omega
      · rw [hoff k hlt]
        exact hblocks k b2 hlt hko hb2 i j hi hj
    · intro i j hnot
      rw [hout, hentry, if_neg]
      · have := hnot n (le_refl _) hn
        simpa [sizeFrom] using this
      · intro k hk hko
        have := hnot k (by omega) hko
        rw [hoff k hk] at this
        exact this
  | case4 n offset r hn =>
    intro _ _
    refine ⟨r, by rw [denseLoop, if_neg hn], rfl, ?_, fun _ _ _ => rfl⟩
    intro k b hk hko
    omega

omit [Field K] in
theorem sizeFrom_succ_right (d : Nat) : ∀ j, sizeFrom j (d + 1) = sizeFrom j d + (j + d + 1) := by
  induction d with
  | zero => intro j; simp [sizeFrom]
  | succ d ih =>
    intro j
    rw [sizeFrom_succ_left, ih (j + 1), sizeFrom_succ_left j d]
    omega

omit [Field K] in
theorem sizeFrom_zero (n : Nat) : sizeFrom 0 n = n * (n + 1) / 2 := by
  have h := sizeFrom_two_mul n 0
  simp only [Nat.mul_zero, Nat.zero_add] at h
  rw [← h, Nat.mul_div_cancel_left _ (by norm_num : 0 < 2)]

theorem valid_getBlock (ops : FloatOps K) (s : ConversionSingleton K) (hs : s.Valid ops)
    (n : Nat) (hn : (n : Int) ≤ s._max_order) :
    s.getBlockH2L n = some (makeBlockH2L ops n) ∧
      s.getBlockL2H n = some (makeBlockL2H n (makeBlockH2L ops n)) := by
  have hlt : n < (s._max_order + 1).toNat := by omega
  constructor
  · simp only [ConversionSingleton.getBlockH2L, Int.natCast_nonneg, if_true, Int.toNat_ofNat]
    rw [hs.2.1, List.getElem?_map, List.getElem?_range hlt]
    rfl
  · simp only [ConversionSingleton.getBlockL2H, Int.natCast_nonneg, if_true, Int.toNat_ofNat]
    rw [hs.2.2, List.getElem?_map, List.getElem?_range hlt]
    rfl

theorem new_cache_ready (ops : FloatOps K) (s : ConversionSingleton K) (hs : s.Valid ops)
    (A B : BasisTypeEnum) (order : Int) :
    (ConversionMatrix.new ops s A B order).2.Valid ops ∧
      (ConversionMatrix.new ops s A B order).1._order ≤
        (ConversionMatrix.new ops s A B order).2._max_order := by
  have h := ensure_valid ops s order hs
  refine ⟨h.1, ?_⟩
  show order ≤ (s.ensure ops order)._max_order
  rw [h.2]
  omega

theorem getBlock_ready (ops : FloatOps K) (m : ConversionMatrix) (s : ConversionSingleton K)
    (hs : s.Valid ops) (hmax : m._order ≤ s._max_order) (hne : m._input ≠ m._output)
    (k : Nat) (hk : (k : Int) ≤ m._order) :
    ∃ b, m.getBlock s k = some b ∧ b.rows = k + 1 ∧
      (if m._input = HERMITE then s.getBlockH2L else s.getBlockL2H) k = some b := by
  have h := valid_getBlock ops s hs k (by omega)
  unfold ConversionMatrix.getBlock
  rw [if_neg hne]
  split
  · exact ⟨_, h.1, rfl, h.1⟩
  · exact ⟨_, h.2, rfl, h.2⟩

theorem buildDenseMatrix_spec (ops : FloatOps K) (m : ConversionMatrix)
    (s : ConversionSingleton K) (o : Nat) (hs : s.Valid ops) (ho : m._order = o)
    (hmax : m._order ≤ s._max_order) (hne : m._input ≠ m._output) :
    ∃ D : Block K, m.buildDenseMatrix s = some D ∧ D.rows = sizeFrom 0 (o + 1) ∧
      (∀ (k : Nat) (b : Block K), k ≤ o → m.getBlock s k = some b →
        ∀ i j, i < k + 1 → j < k + 1 →
          D.entry (sizeFrom 0 k + i) (sizeFrom 0 k + j) = b.entry i j) ∧
      (∀ i j, (∀ k : Nat, k ≤ o →
          ¬ ((sizeFrom 0 k ≤ i ∧ i < sizeFrom 0 k + (k + 1)) ∧
            (sizeFrom 0 k ≤ j ∧ j < sizeFrom 0 k + (k + 1)))) →
        D.entry i j = 0) := by
  have hsize : (computeSize m._order).toNat = sizeFrom 0 (o + 1) := by
    rw [ho, computeSize_eq]
    exact Int.toNat_ofNat _
  have hget : ∀ k : Nat, 0 ≤ k → (k : Int) ≤ m._order →
      ∃ b, (if m._input = HERMITE then s.getBlockH2L else s.getBlockL2H) k = some b ∧
        b.rows = k + 1 := by
    intro k _ hk
    obtain ⟨b, _, h2, h3⟩ := getBlock_ready ops m s hs hmax hne k hk
    exact ⟨b, h3, h2⟩
  have hd : (m._order + 1 - ((0 : Nat) : Int)).toNat = o + 1 := by rw [ho]; omega
  obtain ⟨D, hD, hrows, hblocks, hout⟩ := denseLoop_spec
    (if m._input = HERMITE then s.getBlockH2L else s.getBlockL2H) m._order 0 0
    ⟨(computeSize m._order).toNat, 0⟩ hget (by rw [hd, hsize]; simp)
  refine ⟨D, ?_, by rw [hrows]; exact hsize, ?_, ?_⟩
  · unfold ConversionMatrix.buildDenseMatrix
    simp only [if_neg hne]
    rw [← hD]
    split <;> rfl
  · intro k b hk hb i j hi hj
    obtain ⟨b2, hb2, _, hb3⟩ := getBlock_ready ops m s hs hmax hne k (by rw [ho]; exact_mod_cast hk)
    rw [hb] at hb2
    simp only [Option.some.injEq] at hb2
    subst hb2
    have := hblocks k b (Nat.zero_le _) (by rw [ho]; exact_mod_cast hk) hb3 i j hi hj
    simpa using this
  · intro i j hnot
    rw [hout]
    · simp [Block.entry]
    · intro k _ hk
      have := hnot k (by rw [ho] at hk; exact_mod_cast hk)
      simpa using this

theorem init_invariant : (ConversionSingleton.init : ConversionSingleton K).Invariant := by
  refine ⟨by simp [ConversionSingleton.init], by simp [ConversionSingleton.init], ?_⟩
  intro i a b ha
  simp [ConversionSingleton.init] at ha

theorem push_invariant (ops : FloatOps ℝ) (hops : ops.Regular) (s : ConversionSingleton ℝ)
    (hinv : s.Invariant) :
    (⟨s._max_order + 1, s._h2l ++ [makeBlockH2L ops (s._max_order + 1).toNat],
      s._l2h ++ [makeBlockL2H (s._max_order + 1)
        (makeBlockH2L ops (s._max_order + 1).toNat)]⟩ : ConversionSingleton ℝ).Invariant := by
  obtain ⟨h1, h2, h3⟩ := hinv
  refine ⟨by simp only [List.length_append, List.length_singleton]; push_cast; omega,
    by simp only [List.length_append, List.length_singleton]; push_cast; omega, ?_⟩
  intro i a b ha hb
  simp only at ha hb
  rcases Nat.lt_or_ge i s._h2l.length with hlt | hge
  · rw [List.getElem?_append_left hlt] at ha
    rw [List.getElem?_append_left (by omega)] at hb
    exact h3 i a b ha hb
  · rw [List.getElem?_append_right hge] at ha
    rw [List.getElem?_append_right (by omega)] at hb
    have hi : i - s._h2l.length = 0 := by
      by_contra hne
      rw [List.getElem?_eq_none (by simp; omega)] at ha
      exact absurd ha (by simp)
    have hi2 : i - s._l2h.length = 0 := by omega
    rw [hi] at ha
    rw [hi2] at hb
    simp only [List.getElem?_cons_zero, Option.some.injEq] at ha hb
    have hdet := makeBlockH2L_det_ne_zero ops hops (s._max_order + 1).toNat
    subst ha
    subst hb
    refine ⟨?_, rfl, inverse_mul_self _ hdet, self_mul_inverse _ hdet⟩
    show (s._max_order + 1).toNat + 1 = i + 1
    omega

theorem ensureLoop_invariant (ops : FloatOps ℝ) (hops : ops.Regular) (order : Int) (i : Int)
    (s : ConversionSingleton ℝ) :
    s.Invariant → i = s._max_order + 1 → i ≤ order + 1 →
      (ensureLoop ops order i s).Invariant ∧ (ensureLoop ops order i s)._max_order = order ∧
      ∃ t1 t2, (ensureLoop ops order i s)._h2l = s._h2l ++ t1 ∧
        (ensureLoop ops order i s)._l2h = s._l2h ++ t2 := by
  induction i, s using ensureLoop.induct ops order with
  | case1 i s hi h ih =>
    intro hv hi2 _
    rw [ensureLoop, if_pos hi]
    have hp := push_invariant ops hops s hv
    subst hi2
    obtain ⟨r1, r2, t1, t2, r3, r4⟩ := ih hp rfl (by omega)
    refine ⟨r1, r2, [h] ++ t1, [makeBlockL2H (s._max_order + 1) h] ++ t2, ?_, ?_⟩
    · rw [r3, List.append_assoc]
    · rw [r4, List.append_assoc]
  | case2 i s hi =>
    intro hv hi2 hle
    rw [ensureLoop, if_neg hi]
    exact ⟨hv, by omega, [], [], by simp, by simp⟩

theorem getD_drop_zero (w : List K) (n i : Nat) : (w.drop n).getD i 0 = w.getD (n + i) 0 := by
  simp [List.getD_eq_getElem?_getD, List.getElem?_drop]

theorem getD_take_zero (w : List K) (n i : Nat) (h : i < n) :
    (w.take n).getD i 0 = w.getD i 0 := by
  simp [List.getD_eq_getElem?_getD, List.getElem?_take, h]

theorem blockApply_getD (onLeft : Bool) (b : Block K) (seg : List K) (i : Nat)
    (hi : i < b.rows) :
    (blockApply onLeft b seg).getD i 0 =
      ∑ c in Finset.range b.rows,
        (if onLeft then b.entry i c else b.entry c i) * seg.getD c 0 := by
  rw [← Fin.sum_univ_eq_sum_range
    (fun c => (if onLeft then b.entry i c else b.entry c i) * seg.getD c 0) b.rows]
  unfold blockApply
  rw [List.getD_eq_getElem?_getD, List.getElem?_ofFn, List.ofFnNthVal, dif_pos hi]
  simp only [Option.getD_some, Matrix.vecMul, Matrix.dotProduct, segment, zero_add]
  apply Finset.sum_congr rfl
  intro c _
  rw [mul_comm]
  congr 1
  cases onLeft
  · simp only [Bool.false_eq_true, if_false]
    exact (entry_eq b c ⟨i, hi⟩).symm
  · simp only [if_true, Matrix.transpose_apply]
    exact (entry_eq b ⟨i, hi⟩ c).symm

theorem multiplyLoop_entries (onLeft : Bool) (f : Nat → Block K)
    (hf : ∀ i, (f i).rows = i + 1) (d : Nat) :
    ∀ (j : Nat) (pre w : List K), w.length = sizeFrom j d →
      ∃ w2 : List K, w2.length = w.length ∧
        (∀ e, multiplyLoop onLeft ((List.range' j (d + e)).map f) pre.length (pre ++ w) =
          (Outcome.ok, pre ++ w2)) ∧
        ∀ t i, t < d → i < j + t + 1 →
          w2.getD (sizeFrom j t + i) 0 =
            ∑ c in Finset.range (j + t + 1),
              (if onLeft then (f (j + t)).entry i c else (f (j + t)).entry c i) *
                w.getD (sizeFrom j t + c) 0 := by
  induction d with
  | zero =>
    intro j pre w hw
    have hw0 : w = [] := List.length_eq_zero.mp (by rw [hw]; rfl)
    subst hw0
    refine ⟨[], rfl, ?_, ?_⟩
    · intro e
      rw [List.append_nil]
      exact multiplyLoop_done onLeft _ pre
    · intro t i ht
      omega
  | succ d ih =>
    intro j pre w hw
    rw [sizeFrom_succ_left] at hw
    have hseg : (w.take (f j).rows).length = (f j).rows := by
      rw [List.length_take, hf]; omega
    have hrest : (w.drop (j + 1)).length = sizeFrom (j + 1) d := by
      rw [List.length_drop]; omega
    obtain ⟨w3, hw3, hloop, hent⟩ :=
      ih (j + 1) (pre ++ blockApply onLeft (f j) (w.take (f j).rows)) (w.drop (j + 1)) hrest
    have hbl : (blockApply onLeft (f j) (w.take (f j).rows)).length = j + 1 := by
      rw [blockApply_length, hf]
    refine ⟨blockApply onLeft (f j) (w.take (f j).rows) ++ w3, ?_, ?_, ?_⟩
    · rw [List.length_append, hbl, hw3, hrest, hw]
    · intro e
      have h1 : d + 1 + e = (d + e) + 1 := by omega
      rw [h1, List.range'_succ, List.map_cons]
      have hsplit : pre ++ w = pre ++ w.take (f j).rows ++ w.drop (j + 1) := by
        rw [List.append_assoc, hf, List.take_append_drop]
      rw [hsplit, multiplyLoop_step onLeft (f j) _ pre _ _ (by rw [hf]; omega) hseg, hloop e,
        List.append_assoc]
    · intro t i ht hi
      cases t with
      | zero =>
        simp only [sizeFrom, Nat.zero_add, Nat.add_zero]
        rw [List.getD_append _ _ _ _ (by rw [hbl]; omega),
          blockApply_getD onLeft (f j) _ i (by rw [hf]; omega), hf]
        apply Finset.sum_congr rfl
        intro c hc
        rw [getD_take_zero _ _ _ (Finset.mem_range.mp hc)]
      | succ t =>
        have e1 : sizeFrom j (t + 1) + i = (j + 1) + (sizeFrom (j + 1) t + i) := by
          rw [sizeFrom_succ_left]; omega
        have e2 : j + (t + 1) = j + 1 + t := by omega
        rw [e1, List.getD_append_right _ _ _ _ (by rw [hbl]; omega), hbl, Nat.add_sub_cancel_left,
          hent t i (by omega) (by omega), e2]
        apply Finset.sum_congr rfl
        intro c _
        rw [getD_drop_zero, sizeFrom_succ_left j t]
        congr 2
        omega

theorem sum_range_window (g : Nat → K) (a n S : Nat) (h : a + n ≤ S)
    (hz : ∀ c, ¬ (a ≤ c ∧ c < a + n) → g c = 0) :
    ∑ c in Finset.range S, g c = ∑ c in Finset.range n, g (a + c) := by
  obtain ⟨e, rfl⟩ := Nat.exists_eq_add_of_le h
  rw [Finset.sum_range_add, Finset.sum_range_add]
  have h1 : ∑ x in Finset.range a, g x = 0 :=
    Finset.sum_eq_zero (fun c hc => hz c (by have := Finset.mem_range.mp hc; omega))
  have h2 : ∑ x in Finset.range e, g (a + n + x) = 0 :=
    Finset.sum_eq_zero (fun c _ => hz _ (by omega))
  rw [h1, h2, zero_add, add_zero]

omit [Field K] in
theorem block_unique (k t r : Nat) (hk : sizeFrom 0 k ≤ r ∧ r < sizeFrom 0 k + (k + 1))
    (ht : sizeFrom 0 t ≤ r ∧ r < sizeFrom 0 t + (t + 1)) : k = t := by
  rcases Nat.lt_trichotomy k t with h | h | h
  · have h1 := sizeFrom_mono 0 (k + 1) t h
    rw [sizeFrom_succ_right] at h1
    omega
  · exact h
  · have h1 := sizeFrom_mono 0 (t + 1) k h
    rw [sizeFrom_succ_right] at h1
    omega

omit [Field K] in
theorem block_of_index (o : Nat) : ∀ r, r < sizeFrom 0 (o + 1) →
    ∃ t i, t ≤ o ∧ i < t + 1 ∧ r = sizeFrom 0 t + i := by
  induction o with
  | zero =>
    intro r hr
    exact ⟨0, r, le_refl _, by simpa [sizeFrom] using hr, by simp [sizeFrom]⟩
  | succ o ih =>
    intro r hr
    rw [sizeFrom_succ_right] at hr
    rcases Nat.lt_or_ge r (sizeFrom 0 (o + 1)) with h | h
    · obtain ⟨t, i, h1, h2, h3⟩ := ih r h
      exact ⟨t, i, by omega, h2, h3⟩
    · exact ⟨o + 1, r - sizeFrom 0 (o + 1), le_refl _, by omega, by omega⟩

theorem dense_row (onLeft : Bool) (D b : Block K) (o t i : Nat) (v : List K)
    (hrows : D.rows = sizeFrom 0 (o + 1)) (ht : t ≤ o) (hi : i < t + 1)
    (hblock : ∀ i j, i < t + 1 → j < t + 1 →
      D.entry (sizeFrom 0 t + i) (sizeFrom 0 t + j) = b.entry i j)
    (hout : ∀ i j, (∀ k : Nat, k ≤ o →
          ¬ ((sizeFrom 0 k ≤ i ∧ i < sizeFrom 0 k + (k + 1)) ∧
            (sizeFrom 0 k ≤ j ∧ j < sizeFrom 0 k + (k + 1)))) →
        D.entry i j = 0) :
    ∑ c in Finset.range D.rows,
        (if onLeft then D.entry (sizeFrom 0 t + i) c else D.entry c (sizeFrom 0 t + i)) *
          v.getD c 0 =
      ∑ c in Finset.range (t + 1),
        (if onLeft then b.entry i c else b.entry c i) * v.getD (sizeFrom 0 t + c) 0 := by
  have hfit : sizeFrom 0 t + (t + 1) ≤ D.rows := by
    have h1 := sizeFrom_mono 0 (t + 1) (o + 1) (by omega)
    rw [sizeFrom_succ_right] at h1
    rw [hrows]
    omega
  rw [sum_range_window _ (sizeFrom 0 t) (t + 1) D.rows hfit]
  · apply Finset.sum_congr rfl
    intro c hc
    have hc2 := Finset.mem_range.mp hc
    cases onLeft
    · simp only [Bool.false_eq_true, if_false]
      rw [hblock c i hc2 hi]
    · simp only [if_true]
      rw [hblock i c hi hc2]
  · intro c hc
    have hz : ∀ k : Nat, k ≤ o →
        ¬ ((sizeFrom 0 k ≤ sizeFrom 0 t + i ∧ sizeFrom 0 t + i < sizeFrom 0 k + (k + 1)) ∧
          (sizeFrom 0 k ≤ c ∧ c < sizeFrom 0 k + (k + 1))) := by
      intro k _ hh
      have := block_unique k t (sizeFrom 0 t + i) hh.1 ⟨by omega, by omega⟩
      subst this
      exact hc hh.2
    cases onLeft
    · simp only [Bool.false_eq_true, if_false]
      rw [hout c _ (fun k hk hh => hz k hk ⟨hh.2, hh.1⟩), zero_mul]
    · simp only [if_true]
      rw [hout _ c hz, zero_mul]

theorem dense_apply (onLeft : Bool) (D : Block K) (v : List K) (r : Nat) (h : r < D.rows) :
    (if onLeft then D.coeff.mulVec (segment v 0 D.rows)
      else Matrix.vecMul (segment v 0 D.rows) D.coeff) ⟨r, h⟩ =
      ∑ c in Finset.range D.rows,
        (if onLeft then D.entry r c else D.entry c r) * v.getD c 0 := by
  rw [← Fin.sum_univ_eq_sum_range
    (fun c => (if onLeft then D.entry r c else D.entry c r) * v.getD c 0) D.rows]
  cases onLeft
  · simp only [Bool.false_eq_true, if_false, Matrix.vecMul, Matrix.dotProduct, segment, zero_add]
    apply Finset.sum_congr rfl
    intro c _
    rw [mul_comm, ← entry_eq D c ⟨r, h⟩]
  · simp only [if_true, Matrix.mulVec, Matrix.dotProduct, segment, zero_add]
    apply Finset.sum_congr rfl
    intro c _
    rw [← entry_eq D ⟨r, h⟩ c]

theorem cache_lists (ops : FloatOps K) (m : ConversionMatrix) (s : ConversionSingleton K)
    (o : Nat) (hs : s.Valid ops) (ho : m._order = o) (hmax : m._order ≤ s._max_order)
    (hne : m._input ≠ m._output) :
    ∃ (f : Nat → Block K) (e : Nat), (∀ i, (f i).rows = i + 1) ∧
      (∀ k : Nat, k ≤ o → m.getBlock s k = some (f k)) ∧
      (if m._input = HERMITE then s._h2l else s._l2h) = (List.range' 0 (o + 1 + e)).map f ∧
      (if m._input = HERMITE then s._h2l else s._l2h).take (o + 1) =
        (List.range' 0 (o + 1 + 0)).map f := by
  have hN : (s._max_order + 1).toNat = o + 1 + ((s._max_order + 1).toNat - (o + 1)) := by omega
  have htake : ∀ f : Nat → Block K,
      ((List.range (s._max_order + 1).toNat).map f).take (o + 1) =
        (List.range' 0 (o + 1 + 0)).map f := by
    intro f
    rw [← List.map_take, List.take_range, ← List.range_eq_range', Nat.add_zero,
      Nat.min_eq_left (by omega)]
  by_cases hH : m._input = HERMITE
  · refine ⟨makeBlockH2L ops, (s._max_order + 1).toNat - (o + 1), fun _ => rfl, ?_, ?_, ?_⟩
    · intro k hk
      rw [ConversionMatrix.getBlock, if_neg hne, if_pos hH]
      exact (valid_getBlock ops s hs k (by omega)).1
    · rw [if_pos hH, ← hN, ← List.range_eq_range']
      exact hs.2.1
    · rw [if_pos hH, hs.2.1]
      exact htake _
  · refine ⟨fun i : Nat => makeBlockL2H (i : Int) (makeBlockH2L ops i),
      (s._max_order + 1).toNat - (o + 1), fun _ => rfl, ?_, ?_, ?_⟩
    · intro k hk
      rw [ConversionMatrix.getBlock, if_neg hne, if_neg hH]
      exact (valid_getBlock ops s hs k (by omega)).2
    · rw [if_neg hH, ← hN, ← List.range_eq_range']
      exact hs.2.2
    · rw [if_neg hH, hs.2.2]
      exact htake _

theorem multiplyLoop_dense (ops : FloatOps K) (m : ConversionMatrix) (s : ConversionSingleton K)
    (o : Nat) (hs : s.Valid ops) (ho : m._order = o) (hmax : m._order ≤ s._max_order)
    (hne : m._input ≠ m._output) (v : List K) (hv : (v.length : Int) = computeSize m._order) :
    ∃ D : Block K, m.buildDenseMatrix s = some D ∧ D.rows = v.length ∧
      ∀ onLeft : Bool,
        multiplyLoop onLeft (if m._input = HERMITE then s._h2l else s._l2h) 0 v =
          (Outcome.ok, List.ofFn (if onLeft then D.coeff.mulVec (segment v 0 D.rows)
            else Matrix.vecMul (segment v 0 D.rows) D.coeff)) ∧
        multiplyLoop onLeft ((if m._input = HERMITE then s._h2l else s._l2h).take (o + 1)) 0 v =
          multiplyLoop onLeft (if m._input = HERMITE then s._h2l else s._l2h) 0 v := by
  obtain ⟨D, hD, hrows, hblocks, hout⟩ := buildDenseMatrix_spec ops m s o hs ho hmax hne
  obtain ⟨f, e, hf, hget, hL, hT⟩ := cache_lists ops m s o hs ho hmax hne
  have hlen : v.length = sizeFrom 0 (o + 1) := by
    rw [ho, computeSize_eq] at hv
    exact_mod_cast hv
  refine ⟨D, hD, by rw [hrows, hlen], ?_⟩
  intro onLeft
  obtain ⟨w2, hw2, hloop, hent⟩ := multiplyLoop_entries onLeft f hf (o + 1) 0 [] v hlen
  have h1 := hloop e
  have h2 := hloop 0
  simp only [List.length_nil, List.nil_append] at h1 h2
  rw [hT, hL, h1, h2]
  refine ⟨?_, rfl⟩
  congr 1
  apply List.ext_getElem
  · rw [List.length_ofFn, hw2, hrows, hlen]
  · intro r hr1 hr2
    have hr : r < D.rows := by rw [hrows, ← hlen, ← hw2]; exact hr1
    rw [List.getElem_ofFn, dense_apply onLeft D v r hr, ← List.getD_eq_getElem w2 0 hr1]
    obtain ⟨t, i, ht, hi, rfl⟩ := block_of_index o r (by rw [← hrows]; exact hr)
    rw [hent t i (by omega) (by omega), Nat.zero_add,
      dense_row onLeft D (f t) o t i v hrows ht hi
        (fun i j hi hj => hblocks t (f t) ht (hget t ht) i j hi hj) hout]

theorem multiplyLoop_short (onLeft : Bool) (f : Nat → Block K)
    (hf : ∀ i, (f i).rows = i + 1) (d : Nat) :
    ∀ (j : Nat) (pre w : List K), w.length = sizeFrom j (d + 1) →
      (multiplyLoop onLeft ((List.range' j d).map f) pre.length (pre ++ w)).1 =
        Outcome.undefined := by
  induction d with
  | zero =>
    intro j pre w hw
    have : pre.length < (pre ++ w).length := by
      rw [List.length_append, hw, sizeFrom_succ_left]; omega
    show (multiplyLoop onLeft [] pre.length (pre ++ w)).1 = Outcome.undefined
    rw [multiplyLoop, if_pos this]
  | succ d ih =>
    intro j pre w hw
    rw [sizeFrom_succ_left] at hw
    have hseg : (w.take (f j).rows).length = (f j).rows := by
      rw [List.length_take, hf]; omega
    have hrest : (w.drop (j + 1)).length = sizeFrom (j + 1) (d + 1) := by
      rw [List.length_drop]; omega
    have hsplit : pre ++ w = pre ++ w.take (f j).rows ++ w.drop (j + 1) := by
      rw [List.append_assoc, hf, List.take_append_drop]
    rw [List.range'_succ, List.map_cons, hsplit,
      multiplyLoop_step onLeft (f j) _ pre _ _ (by rw [hf]; omega) hseg]
    exact ih (j + 1) _ _ hrest

theorem dot_append (a1 a2 b1 b2 : List K) (h : a1.length = b1.length) :
    dot (a1 ++ a2) (b1 ++ b2) = dot a1 b1 + dot a2 b2 := by
  unfold dot
  rw [List.zipWith_append _ _ _ _ _ h, List.sum_append]

theorem dot_ofFn : ∀ (n : Nat) (a b : Fin n → K),
    dot (List.ofFn a) (List.ofFn b) = Matrix.dotProduct a b := by
  intro n
  induction n with
  | zero => intro a b; simp [dot, Matrix.dotProduct]
  | succ n ih =>
    intro a b
    have h := ih (fun i => a i.succ) (fun i => b i.succ)
    unfold dot at h ⊢
    rw [List.ofFn_succ, List.ofFn_succ, List.zipWith_cons_cons, List.sum_cons, h]
    simp only [Matrix.dotProduct, Fin.sum_univ_succ]

theorem dot_blocks (a b : Block K) (hrows : b.rows = a.rows)
    (hprod : ∀ x : Fin a.rows → K,
      Matrix.mulVec (fun i j => b.coeff (Fin.cast hrows.symm i) (Fin.cast hrows.symm j))
        (Matrix.mulVec a.coeff x) = x)
    (sw sv : List K) (hw : sw.length = a.rows) (hv : sv.length = a.rows) :
    dot (blockApply false b sw) (blockApply true a sv) = dot sw sv := by
  obtain ⟨n, ca⟩ := a
  obtain ⟨n2, cb⟩ := b
  simp only at hrows hw hv
  subst hrows
  simp only [blockApply, Bool.false_eq_true, if_false, if_true]
  rw [dot_ofFn, Matrix.vecMul_transpose, ← Matrix.dotProduct_mulVec]
  have := hprod (segment sv 0 n2)
  simp only [Fin.cast_eq_self] at this
  rw [this, ← dot_ofFn, ofFn_segment sw _ hw, ofFn_segment sv _ hv]

theorem dot_inverse (a : Block K) (h : a.coeff.det ≠ 0) (sw sv : List K)
    (hw : sw.length = a.rows) (hv : sv.length = a.rows) :
    dot (blockApply false a.inverse sw) (blockApply true a sv) = dot sw sv ∧
      dot (blockApply false a sw) (blockApply true a.inverse sv) = dot sw sv := by
  constructor
  · apply dot_blocks a a.inverse rfl _ sw sv hw hv
    intro x
    show Matrix.mulVec a.inverse.coeff (Matrix.mulVec a.coeff x) = x
    rw [Matrix.mulVec_mulVec, inverse_mul_self a h, Matrix.one_mulVec]
  · apply dot_blocks a.inverse a rfl _ sw sv hw hv
    intro x
    show Matrix.mulVec a.coeff (Matrix.mulVec a.inverse.coeff x) = x
    rw [Matrix.mulVec_mulVec, self_mul_inverse a h, Matrix.one_mulVec]

theorem multiplyLoop_dot (f g : Nat → Block K) (hf : ∀ i, (f i).rows = i + 1)
    (hg : ∀ i, (g i).rows = i + 1)
    (hfg : ∀ (i : Nat) (sw sv : List K), sw.length = i + 1 → sv.length = i + 1 →
      dot (blockApply false (g i) sw) (blockApply true (f i) sv) = dot sw sv) (d : Nat) :
    ∀ (j : Nat) (pre1 pre2 w v : List K), w.length = sizeFrom j d → v.length = sizeFrom j d →
      ∃ w2 v2 : List K,
        (∀ e, multiplyLoop false ((List.range' j (d + e)).map g) pre1.length (pre1 ++ w) =
          (Outcome.ok, pre1 ++ w2)) ∧
        (∀ e, multiplyLoop true ((List.range' j (d + e)).map f) pre2.length (pre2 ++ v) =
          (Outcome.ok, pre2 ++ v2)) ∧
        dot w2 v2 = dot w v := by
  induction d with
  | zero =>
    intro j pre1 pre2 w v hw hv
    have hw0 : w = [] := List.length_eq_zero.mp (by rw [hw]; rfl)
    have hv0 : v = [] := List.length_eq_zero.mp (by rw [hv]; rfl)
    subst hw0
    subst hv0
    refine ⟨[], [], ?_, ?_, rfl⟩
    · intro e
      rw [List.append_nil]
      exact multiplyLoop_done false _ pre1
    · intro e
      rw [List.append_nil]
      exact multiplyLoop_done true _ pre2
  | succ d ih =>
    intro j pre1 pre2 w v hw hv
    rw [sizeFrom_succ_left] at hw hv
    have hsw : (w.take (g j).rows).length = (g j).rows := by
      rw [List.length_take, hg]; omega
    have hsv : (v.take (f j).rows).length = (f j).rows := by
      rw [List.length_take, hf]; omega
    have hrw : (w.drop (j + 1)).length = sizeFrom (j + 1) d := by
      rw [List.length_drop]; omega
    have hrv : (v.drop (j + 1)).length = sizeFrom (j + 1) d := by
      rw [List.length_drop]; omega
    obtain ⟨w3, v3, hl1, hl2, hdot⟩ :=
      ih (j + 1) (pre1 ++ blockApply false (g j) (w.take (g j).rows))
        (pre2 ++ blockApply true (f j) (v.take (f j).rows)) (w.drop (j + 1)) (v.drop (j + 1))
        hrw hrv
    refine ⟨blockApply false (g j) (w.take (g j).rows) ++ w3,
      blockApply true (f j) (v.take (f j).rows) ++ v3, ?_, ?_, ?_⟩
    · intro e
      have h1 : d + 1 + e = (d + e) + 1 := by omega
      rw [h1, List.range'_succ, List.map_cons]
      have hsplit : pre1 ++ w = pre1 ++ w.take (g j).rows ++ w.drop (j + 1) := by
        rw [List.append_assoc, hg, List.take_append_drop]
      rw [hsplit, multiplyLoop_step false (g j) _ pre1 _ _ (by rw [hg]; omega) hsw, hl1 e,
        List.append_assoc]
    · intro e
      have h1 : d + 1 + e = (d + e) + 1 := by omega
      rw [h1, List.range'_succ, List.map_cons]
      have hsplit : pre2 ++ v = pre2 ++ v.take (f j).rows ++ v.drop (j + 1) := by
        rw [List.append_assoc, hf, List.take_append_drop]
      rw [hsplit, multiplyLoop_step true (f j) _ pre2 _ _ (by rw [hf]; omega) hsv, hl2 e,
        List.append_assoc]
    · rw [dot_append _ _ _ _ (by rw [blockApply_length, blockApply_length, hf, hg]), hdot,
        hfg j _ _ (by rw [hsw, hg]) (by rw [hsv, hf])]
      conv_rhs => rw [← List.take_append_drop (j + 1) w, ← List.take_append_drop (j + 1) v]
      rw [dot_append _ _ _ _ (by rw [List.length_take, List.length_take]; omega), hf, hg]

theorem operation_dot (ops : FloatOps ℝ) (hops : ops.Regular) (s : ConversionSingleton ℝ)
    (hs : s.Valid ops) (o : Nat) (ho : (o : Int) ≤ s._max_order) (A B : BasisTypeEnum)
    (hAB : A ≠ B) (w v : List ℝ) (hw : w.length = sizeFrom 0 (o + 1))
    (hv : v.length = sizeFrom 0 (o + 1)) :
    ∃ w2 v2 : List ℝ,
      multiplyLoop false (if B = HERMITE then s._h2l else s._l2h) 0 w = (Outcome.ok, w2) ∧
      multiplyLoop true (if A = HERMITE then s._h2l else s._l2h) 0 v = (Outcome.ok, v2) ∧
      dot w2 v2 = dot w v := by
  have hN : (s._max_order + 1).toNat = o + 1 + ((s._max_order + 1).toNat - (o + 1)) := by omega
  have h2 := hs.2.1
  have h3 := hs.2.2
  rw [hN, List.range_eq_range'] at h2 h3
  have key : ∀ f g : Nat → Block ℝ, (∀ i, (f i).rows = i + 1) → (∀ i, (g i).rows = i + 1) →
      (∀ (i : Nat) (sw sv : List ℝ), sw.length = i + 1 → sv.length = i + 1 →
        dot (blockApply false (g i) sw) (blockApply true (f i) sv) = dot sw sv) →
      (if B = HERMITE then s._h2l else s._l2h) =
        (List.range' 0 (o + 1 + ((s._max_order + 1).toNat - (o + 1)))).map g →
      (if A = HERMITE then s._h2l else s._l2h) =
        (List.range' 0 (o + 1 + ((s._max_order + 1).toNat - (o + 1)))).map f →
      ∃ w2 v2 : List ℝ,
        multiplyLoop false (if B = HERMITE then s._h2l else s._l2h) 0 w = (Outcome.ok, w2) ∧
        multiplyLoop true (if A = HERMITE then s._h2l else s._l2h) 0 v = (Outcome.ok, v2) ∧
        dot w2 v2 = dot w v := by
    intro f g hf hg hfg e1 e2
    obtain ⟨w2, v2, hl1, hl2, hdot⟩ := multiplyLoop_dot f g hf hg hfg (o + 1) 0 [] [] w v hw hv
    have a1 := hl1 ((s._max_order + 1).toNat - (o + 1))
    have a2 := hl2 ((s._max_order + 1).toNat - (o + 1))
    simp only [List.length_nil, List.nil_append] at a1 a2
    exact ⟨w2, v2, by rw [e1, a1], by rw [e2, a2], hdot⟩
  cases A <;> cases B
  · exact absurd rfl hAB
  · exact key (makeBlockH2L ops) (fun i : Nat => makeBlockL2H (i : Int) (makeBlockH2L ops i))
      (fun _ => rfl) (fun _ => rfl)
      (fun i sw sv h1 h2 =>
        (dot_inverse (makeBlockH2L ops i) (makeBlockH2L_det_ne_zero ops hops i) sw sv h1 h2).1)
      (by simpa using h3) (by simpa using h2)
  · exact key (fun i : Nat => makeBlockL2H (i : Int) (makeBlockH2L ops i)) (makeBlockH2L ops)
      (fun _ => rfl) (fun _ => rfl)
      (fun i sw sv h1 h2 =>
        (dot_inverse (makeBlockH2L ops i) (makeBlockH2L_det_ne_zero ops hops i) sw sv h1 h2).2)
      (by simpa using h2) (by simpa using h3)
  · exact absurd rfl hAB

theorem filtered_sum_single (p q x : ℕ) :
    (∑ r ∈ Finset.range (p + 1), ∑ s ∈ Finset.range (q + 1),
      if r + s = x then
        Complex.I ^ ((r : ℤ) - (s : ℤ)) * (Nat.choose p r : ℂ) * (Nat.choose q s : ℂ)
      else 0) =
    ∑ r ∈ Finset.Icc (x - q) (min p x),
      Complex.I ^ (2 * (r : ℤ) - (x : ℤ)) * (Nat.choose p r : ℂ) * (Nat.choose q (x - r) : ℂ) := by
  have inner : ∀ r : ℕ, (∑ s ∈ Finset.range (q + 1),
      if r + s = x then
        Complex.I ^ ((r : ℤ) - (s : ℤ)) * (Nat.choose p r : ℂ) * (Nat.choose q s : ℂ)
      else 0) =
      if x - q ≤ r ∧ r ≤ x then
        Complex.I ^ (2 * (r : ℤ) - (x : ℤ)) * (Nat.choose p r : ℂ) * (Nat.choose q (x - r) : ℂ)
      else 0 := by
    intro r
    by_cases h : x - q ≤ r ∧ r ≤ x
    · rw [if_pos h, Finset.sum_eq_single_of_mem (x - r) (Finset.mem_range.mpr (by omega))]
      · rw [if_pos (by omega)]
        have : ((r : ℤ) - ((x - r : ℕ) : ℤ)) = 2 * (r : ℤ) - (x : ℤ) := by omega
        rw [this]
      · intro s _ hs
        rw [if_neg (by omega)]
    · rw [if_neg h]
      apply Finset.sum_eq_zero
      intro s hs
      have := Finset.mem_range.mp hs
      rw [if_neg (by omega)]
  simp only [inner]
  rw [← Finset.sum_filter]
  apply Finset.sum_congr
  · ext r
    simp only [Finset.mem_filter, Finset.mem_range, Finset.mem_Icc]
    omega
  · intro r _
    rfl

theorem complexEntry_exact (pi : ℝ) (n i x : ℕ) (hi : i ≤ n) :
    toC (complexEntry ⟨Real.sqrt, fun a b => a ^ b, pi⟩ n i x) =
      (-Complex.I) ^ (2 * (i : ℤ) - (n : ℤ)) * (((2 : ℝ) ^ (-(n : ℝ) / 2) : ℝ) : ℂ) *
        ((Real.sqrt (((Nat.factorial x : ℝ) * (Nat.factorial (n - x) : ℝ)) /
          ((Nat.factorial i : ℝ) * (Nat.factorial (n - i) : ℝ))) : ℝ) : ℂ) *
        ∑ r ∈ Finset.Icc (x - (n - i)) (min i x),
          Complex.I ^ (2 * (r : ℤ) - (x : ℤ)) * (Nat.choose i r : ℂ) *
            (Nat.choose (n - i) (x - r) : ℂ) := by
  rw [toC_complexEntry _ n i x hi, coeff_uv, filtered_sum_single]
  have e1 : (-(n : ℤ) + 2 * (i : ℤ)) = 2 * (i : ℤ) - (n : ℤ) := by ring
  have e2 : (-(1 / 2) * (n : ℝ)) = -(n : ℝ) / 2 := by ring
  have e3 : (0 : ℝ) ≤ (Nat.factorial x : ℝ) * (Nat.factorial (n - x) : ℝ) := by positivity
  simp only [e1, e2]
  rw [Real.sqrt_div e3]
  push_cast
  ring

theorem exact_order_one (pi : ℝ) :
    toC (complexEntry ⟨Real.sqrt, fun a b => a ^ b, pi⟩ 1 0 0) =
        Complex.I * ((1 / Real.sqrt 2 : ℝ) : ℂ) ∧
      toC (complexEntry ⟨Real.sqrt, fun a b => a ^ b, pi⟩ 1 0 1) =
        ((1 / Real.sqrt 2 : ℝ) : ℂ) := by
  have h2 : (2 : ℝ) ^ (-((1 : ℕ) : ℝ) / 2) = 1 / Real.sqrt 2 := by
    rw [Real.sqrt_eq_rpow, one_div, ← Real.rpow_neg (by norm_num)]
    congr 1
    norm_num
  have hI : (-Complex.I)⁻¹ = Complex.I := by rw [inv_neg, Complex.inv_I, neg_neg]
  constructor
  · rw [complexEntry_exact pi 1 0 0 (by omega), h2]
    simp [hI]
  · rw [complexEntry_exact pi 1 0 1 (by omega), h2]
    simp [hI]
    linear_combination (-((Real.sqrt 2 : ℝ) : ℂ)⁻¹) * Complex.I_mul_I

theorem packColumn_writes (c : Nat → Nat → Cplx K) (x : Nat) (p q : Nat) (b : Nat → Nat → K) :
    packColumn c x p q b =
      (packColumnWrites c x p q).foldl (fun b w => writeCoeff b w.1 x w.2) b := by
  induction p, q, b using packColumn.induct c x with
  | case1 p q b hqp b1 b2 ih =>
    rw [packColumn, if_pos hqp, packColumnWrites, if_pos hqp]
    simp only [List.foldl_append, List.foldl_cons, List.foldl_nil]
    have hb2 : (if q < p then writeCoeff (writeCoeff b (2 * q) x (c q x).re) (2 * q + 1) x
        (-(c q x).im) else writeCoeff b (2 * q) x (c q x).re) = b2 := by
      simp only [b2, b1]; split <;> rfl
    simp only [hb2]
    rw [ih]
    congr 1
    simp only [b2, b1]
    split <;> rfl
  | case2 p q b hqp =>
    rw [packColumn, if_neg hqp, packColumnWrites, if_neg hqp]
    rfl

theorem packColumnWrites_rows (c : Nat → Nat → Cplx K) (x : Nat) (p q : Nat) :
    (packColumnWrites c x p q).map Prod.fst = List.range' (2 * q) (p + 1 - q) := by
  induction p, q using packColumnWrites.induct c x with
  | case1 p q hqp ih =>
    rw [packColumnWrites, if_pos hqp]
    simp only [List.map_append, ih, List.map_cons, List.map_nil]
    by_cases hlt : q < p
    · have e : p + 1 - q = (p - 1 + 1 - (q + 1)) + 1 + 1 := by omega
      rw [if_pos hlt, e, List.range'_succ, List.range'_succ]
      simp only [List.map_cons, List.map_nil, List.cons_append, List.nil_append]
      congr 3
    · have e : p + 1 - q = 1 := by omega
      have e2 : p - 1 + 1 - (q + 1) = 0 := by omega
      rw [if_neg hlt, e, e2]
      simp
  | case2 p q hqp =>
    rw [packColumnWrites, if_neg hqp]
    have e : p + 1 - q = 0 := by omega
    rw [e]
    rfl

theorem packReal_apply (c : Nat → Nat → Cplx K) (n k x : Nat) (hk : k ≤ n) (hx : x ≤ n) :
    packReal c n k x = packedEntry c k x := by
  unfold packReal
  rw [packReal_foldl, if_pos ⟨by omega, hk⟩]

theorem packedEntry_rows (c : Nat → Nat → Cplx K) (i x : Nat) :
    packedEntry c (2 * i) x = (c i x).re ∧ packedEntry c (2 * i + 1) x = -(c i x).im := by
  have e1 : (2 * i) % 2 = 0 := by omega
  have e2 : (2 * i) / 2 = i := by omega
  have e3 : (2 * i + 1) % 2 ≠ 0 := by omega
  have e4 : (2 * i + 1) / 2 = i := by omega
  simp only [packedEntry, e1, e2, e4, if_true, if_neg e3, and_self]

theorem reflect_parts (ops : FloatOps ℝ) (n j x : ℕ) (hj : j ≤ n) :
    (complexEntry ops n (n - j) x).re = (complexEntry ops n j x).re ∧
      (complexEntry ops n (n - j) x).im = -(complexEntry ops n j x).im := by
  have h := toC_complexEntry_reflect ops n j x hj
  exact ⟨by simpa [toC] using congrArg Complex.re h, by simpa [toC] using congrArg Complex.im h⟩

theorem packReal_reads (n : Nat) (c c2 : Nat → Nat → Cplx K)
    (h1 : ∀ j y, 2 * j < n → c j y = c2 j y)
    (h2 : n % 2 = 0 → ∀ y, (c (n / 2) y).re = (c2 (n / 2) y).re) :
    packReal c n = packReal c2 n := by
  funext k x
  unfold packReal
  rw [packReal_foldl, packReal_foldl]
  by_cases hb : x < n + 1 ∧ k ≤ n
  · rw [if_pos hb, if_pos hb]
    unfold packedEntry
    by_cases hk : k % 2 = 0
    · rw [if_pos hk, if_pos hk]
      by_cases hkn : k = n
      · subst hkn
        exact h2 hk x
      · rw [h1 (k / 2) x (by omega)]
    · rw [if_neg hk, if_neg hk, h1 (k / 2) x (by omega)]
  · rw [if_neg hb, if_neg hb]

end Lemmas

/-! ## Claims -/

section Claims

variable {K E : Type} [Field K]

/-- C1: for every order `n ≥ 0` the cached Laguerre-to-Hermite block is a two-sided inverse of
the Hermite-to-Laguerre block built by `makeBlockH2L`, and for distinct bases `A`, `B` and a
vector `v` of length `computeSize(order)`, `convertCoefficientVector` from `A` to `B` followed
by `convertCoefficientVector` from `B` to `A` returns `v`; in exact arithmetic, on any cache
state that satisfies the cache invariant. -/
theorem convert_round_trip (ops : FloatOps ℝ) (s : ConversionSingleton ℝ) (order : Int)
    (n : Nat) (A B : BasisTypeEnum) (v : List ℝ) (hops : ops.Regular) (hs : s.Valid ops)
    (hn : (n : Int) ≤ order) (hAB : A ≠ B) (hv : (v.length : Int) = computeSize order) :
    ((s.ensure ops order).getBlockH2L n = some (makeBlockH2L ops n) ∧
      (s.ensure ops order).getBlockL2H n = some (makeBlockL2H n (makeBlockH2L ops n)) ∧
      (makeBlockL2H n (makeBlockH2L ops n)).coeff * (makeBlockH2L ops n).coeff = 1 ∧
      (makeBlockH2L ops n).coeff * (makeBlockL2H n (makeBlockH2L ops n)).coeff = 1) ∧
    (convertCoefficientVector ops s v A B order).1 = Outcome.ok ∧
    (convertCoefficientVector ops (convertCoefficientVector ops s v A B order).2.1
      (convertCoefficientVector ops s v A B order).2.2 B A order).1 = Outcome.ok ∧
    (convertCoefficientVector ops (convertCoefficientVector ops s v A B order).2.1
      (convertCoefficientVector ops s v A B order).2.2 B A order).2.2 = v := by
  have ho : 0 ≤ order := le_trans (Int.natCast_nonneg n) hn
  obtain ⟨m, rfl⟩ := Int.eq_ofNat_of_zero_le ho
  have hdet := makeBlockH2L_det_ne_zero ops hops n
  have hval := ensure_valid ops s m hs
  have hlt : n < ((s.ensure ops m)._max_order + 1).toNat := by rw [hval.2]; omega
  refine ⟨⟨?_, ?_, inverse_mul_self _ hdet, self_mul_inverse _ hdet⟩, ?_⟩
  · simp only [ConversionSingleton.getBlockH2L, Int.natCast_nonneg, if_true, Int.toNat_ofNat]
    rw [hval.1.2.1, List.getElem?_map, List.getElem?_range hlt]
    rfl
  · simp only [ConversionSingleton.getBlockL2H, Int.natCast_nonneg, if_true, Int.toNat_ofNat]
    rw [hval.1.2.2, List.getElem?_map, List.getElem?_range hlt]
    rfl
  · obtain ⟨w, _, h1, h2⟩ := conversion_there_and_back ops hops s hs m A B hAB v hv
    rw [h1]
    simp only [h2, and_self]

/-- C1, witness: on the empty cache, with the real square root and power, the order-2
Laguerre-to-Hermite block times the Hermite-to-Laguerre block is the identity, and the
order-2 vector `[1, 2, 3, 4, 5, 6]` survives the conversion from HERMITE to LAGUERRE and
back. -/
theorem convert_round_trip_witness :
    (makeBlockL2H 2 (makeBlockH2L ⟨Real.sqrt, fun a b => a ^ b, Real.pi⟩ 2)).coeff *
        (makeBlockH2L ⟨Real.sqrt, fun a b => a ^ b, Real.pi⟩ 2).coeff = 1 ∧
    (convertCoefficientVector ⟨Real.sqrt, fun a b => a ^ b, Real.pi⟩
      (convertCoefficientVector ⟨Real.sqrt, fun a b => a ^ b, Real.pi⟩
        ConversionSingleton.init [1, 2, 3, 4, 5, 6] HERMITE LAGUERRE 2).2.1
      (convertCoefficientVector ⟨Real.sqrt, fun a b => a ^ b, Real.pi⟩
        ConversionSingleton.init [1, 2, 3, 4, 5, 6] HERMITE LAGUERRE 2).2.2 LAGUERRE HERMITE
        2).2.2
      = ([1, 2, 3, 4, 5, 6] : List ℝ) :=
  ⟨(convert_round_trip ⟨Real.sqrt, fun a b => a ^ b, Real.pi⟩ ConversionSingleton.init 2 2
      HERMITE LAGUERRE [1, 2, 3, 4, 5, 6] (exact_regular Real.pi) (init_valid _) (le_refl _)
      (by decide) (by decide)).1.2.2.1,
    (convert_round_trip ⟨Real.sqrt, fun a b => a ^ b, Real.pi⟩ ConversionSingleton.init 2 2
      HERMITE LAGUERRE [1, 2, 3, 4, 5, 6] (exact_regular Real.pi) (init_valid _) (le_refl _)
      (by decide) (by decide)).2.2.2⟩

/-- C2: for every `ConversionMatrix`, cache state and vector, `multiplyOnLeft` and
`multiplyOnRight` raise the length error exactly when the vector's length differs from
`computeSize(order)`, and a call that raises it leaves the vector as it was. -/
theorem multiply_length_error (m : ConversionMatrix) (s : ConversionSingleton K) (v : List K) :
    ((m.multiplyOnLeft s v).1 = Outcome.lengthError ↔ (v.length : Int) ≠ computeSize m._order) ∧
    ((m.multiplyOnRight s v).1 = Outcome.lengthError ↔ (v.length : Int) ≠ computeSize m._order) ∧
    ((m.multiplyOnLeft s v).1 = Outcome.lengthError → (m.multiplyOnLeft s v).2 = v) ∧
    ((m.multiplyOnRight s v).1 = Outcome.lengthError → (m.multiplyOnRight s v).2 = v) := by
  have hl : (m.multiplyOnLeft s v).1 = Outcome.lengthError ↔
      (v.length : Int) ≠ computeSize m._order := by
    unfold ConversionMatrix.multiplyOnLeft
    by_cases h : (v.length : Int) ≠ computeSize m._order
    · simp [h]
    · rw [if_neg h]
      by_cases h2 : m._input = m._output
      · simp [h2, h]
      · rw [if_neg h2]
        simp only [multiplyLoop_no_lengthError, false_iff]
        exact h
  have hr : (m.multiplyOnRight s v).1 = Outcome.lengthError ↔
      (v.length : Int) ≠ computeSize m._order := by
    unfold ConversionMatrix.multiplyOnRight
    by_cases h : (v.length : Int) ≠ computeSize m._order
    · simp [h]
    · rw [if_neg h]
      by_cases h2 : m._input = m._output
      · simp [h2, h]
      · rw [if_neg h2]
        simp only [multiplyLoop_no_lengthError, false_iff]
        exact h
  refine ⟨hl, hr, ?_, ?_⟩
  · intro h
    have := hl.mp h
    simp [ConversionMatrix.multiplyOnLeft, this]
  · intro h
    have := hr.mp h
    simp [ConversionMatrix.multiplyOnRight, this]

/-- C2, witness: an order-0 conversion handed the empty vector raises the length error and
leaves the vector empty. -/
theorem multiply_length_error_witness :
    ((⟨0, HERMITE, LAGUERRE⟩ : ConversionMatrix).multiplyOnLeft
      (ConversionSingleton.init : ConversionSingleton ℚ) []).2 = [] :=
  (multiply_length_error ⟨0, HERMITE, LAGUERRE⟩
    (ConversionSingleton.init : ConversionSingleton ℚ) ([] : List ℚ)).2.2.1 (by decide)

/-- C3: with `input == output`, `getBlock(n)` is the `(n+1)` by `(n+1)` identity for every
`n ≥ 0` and `buildDenseMatrix()` is the identity of size `computeSize(order)`, for every
order and cache state. -/
theorem identity_blocks (m : ConversionMatrix) (s : ConversionSingleton K) (n : Int)
    (hio : m._input = m._output) (hn : 0 ≤ n) :
    m.getBlock s n = some ⟨(n + 1).toNat, 1⟩ ∧
    m.buildDenseMatrix s = some ⟨(computeSize m._order).toNat, 1⟩ := by
  constructor
  · unfold ConversionMatrix.getBlock
    rw [if_pos hio, if_pos (by omega)]
    rfl
  · unfold ConversionMatrix.buildDenseMatrix
    simp only [hio, if_true]
    rfl

/-- C3, witness: the LAGUERRE-to-LAGUERRE matrix of order 2 has the 4 by 4 identity as its
block of order 3 and the 6 by 6 identity as its dense matrix. -/
theorem identity_blocks_witness :
    (⟨2, LAGUERRE, LAGUERRE⟩ : ConversionMatrix).getBlock
        (ConversionSingleton.init : ConversionSingleton ℚ) 3 = some ⟨4, 1⟩ ∧
      (⟨2, LAGUERRE, LAGUERRE⟩ : ConversionMatrix).buildDenseMatrix
        (ConversionSingleton.init : ConversionSingleton ℚ) = some ⟨6, 1⟩ :=
  identity_blocks ⟨2, LAGUERRE, LAGUERRE⟩ (ConversionSingleton.init : ConversionSingleton ℚ) 3 rfl
    (by decide)

/-- C4: with `input == output`, `multiplyOnLeft` and `multiplyOnRight` return normally on
every vector of length `computeSize(order)` and leave it unchanged. -/
theorem identity_multiply (m : ConversionMatrix) (s : ConversionSingleton K) (v : List K)
    (hio : m._input = m._output) (hv : (v.length : Int) = computeSize m._order) :
    m.multiplyOnLeft s v = (Outcome.ok, v) ∧ m.multiplyOnRight s v = (Outcome.ok, v) := by
  simp [ConversionMatrix.multiplyOnLeft, ConversionMatrix.multiplyOnRight, hio, hv]

/-- C4, witness: the HERMITE-to-HERMITE matrix of order 1 leaves `[1, 2, 3]` unchanged. -/
theorem identity_multiply_witness :
    (⟨1, HERMITE, HERMITE⟩ : ConversionMatrix).multiplyOnLeft
        (ConversionSingleton.init : ConversionSingleton ℚ) [1, 2, 3] = (Outcome.ok, [1, 2, 3]) ∧
      (⟨1, HERMITE, HERMITE⟩ : ConversionMatrix).multiplyOnRight
        (ConversionSingleton.init : ConversionSingleton ℚ) [1, 2, 3] = (Outcome.ok, [1, 2, 3]) :=
  identity_multiply ⟨1, HERMITE, HERMITE⟩ (ConversionSingleton.init : ConversionSingleton ℚ)
    ([1, 2, 3] : List ℚ) rfl (by decide)

/-- C5: each of the three coefficient-taking constructors raises the length error exactly when
the length of the supplied coefficients differs from `computeSize(order)`, and otherwise
yields a function with the given order and basis type and the supplied coefficients. -/
theorem coefficient_constructors (geom : Geometry K E) (order : Int) (basisType : BasisTypeEnum)
    (radius : K) (center : Fin 2 → K) (ellipse : E) (coefficients : List K) :
    ((ShapeletFunction.ofCoefficients geom order basisType coefficients =
        Except.error Outcome.lengthError ↔ (coefficients.length : Int) ≠ computeSize order) ∧
      (ShapeletFunction.ofCircle geom order basisType radius center coefficients =
        Except.error Outcome.lengthError ↔ (coefficients.length : Int) ≠ computeSize order) ∧
      (ShapeletFunction.ofEllipse geom order basisType ellipse coefficients =
        Except.error Outcome.lengthError ↔ (coefficients.length : Int) ≠ computeSize order)) ∧
    ((coefficients.length : Int) = computeSize order →
      ShapeletFunction.ofCoefficients geom order basisType coefficients =
        Except.ok ⟨order, basisType, geom.make 1 1 0 (fun _ => 0), coefficients⟩ ∧
      ShapeletFunction.ofCircle geom order basisType radius center coefficients =
        Except.ok ⟨order, basisType, geom.make radius radius 0 center, coefficients⟩ ∧
      ShapeletFunction.ofEllipse geom order basisType ellipse coefficients =
        Except.ok ⟨order, basisType, geom.recore ellipse, coefficients⟩) := by
  unfold ShapeletFunction.ofCoefficients ShapeletFunction.ofCircle ShapeletFunction.ofEllipse
  rcases validateSize_cases (computeSize order) (coefficients.length : Int) with ⟨h1, h2⟩ | ⟨h1, h2⟩
  · simp only [h2]
    refine ⟨⟨?_, ?_, ?_⟩, ?_⟩ <;> simp [h1]
  · simp only [h2]
    have h3 : (coefficients.length : Int) ≠ computeSize order := fun e => h1 e.symm
    refine ⟨⟨?_, ?_, ?_⟩, fun e => absurd e h3⟩ <;> simp [h3]

/-- C5, witness: three coefficients are accepted at order 1 and stored as given. -/
theorem coefficient_constructors_witness :
    ShapeletFunction.ofCoefficients (geomFixture ℚ) 1 LAGUERRE [1, 2, 3] =
        Except.ok ⟨1, LAGUERRE, (geomFixture ℚ).make 1 1 0 (fun _ => 0), [1, 2, 3]⟩ ∧
      ShapeletFunction.ofCircle (geomFixture ℚ) 1 LAGUERRE 2 (fun _ => 5) [1, 2, 3] =
        Except.ok ⟨1, LAGUERRE, (geomFixture ℚ).make 2 2 0 (fun _ => 5), [1, 2, 3]⟩ ∧
      ShapeletFunction.ofEllipse (geomFixture ℚ) 1 LAGUERRE (EllipseFixture.axes 1 1 0 (fun _ => 0)) [1, 2, 3] =
        Except.ok ⟨1, LAGUERRE, (geomFixture ℚ).recore (EllipseFixture.axes 1 1 0 (fun _ => 0)), [1, 2, 3]⟩ :=
  (coefficient_constructors (geomFixture ℚ) 1 LAGUERRE 2 (fun _ => 5) (EllipseFixture.axes 1 1 0 (fun _ => 0))
    [1, 2, 3]).2 (by decide)

/-- C6, counterexample: with the unit-frame integral `2 sqrt(pi)` of the order-0 basis
function, the order-0 HERMITE function with coefficient 1 has, after `normalize()`, a total
integral different from `FLUX_FACTOR`. -/
theorem normalize_flux_counterexample :
    (ShapeletFunctionEvaluator.new ⟨Real.sqrt, fun a b => a ^ b, Real.pi⟩ (geomFixture ℝ)
      (ShapeletFunction.normalize ⟨Real.sqrt, fun a b => a ^ b, Real.pi⟩ (geomFixture ℝ)
        (hermiteFixture (FLUX_FACTOR ⟨Real.sqrt, fun a b => a ^ b, Real.pi⟩))
        ConversionSingleton.init ⟨0, HERMITE, EllipseFixture.axes 1 1 0 (fun _ => 0), [1]⟩).2.2
      (ShapeletFunction.normalize ⟨Real.sqrt, fun a b => a ^ b, Real.pi⟩ (geomFixture ℝ)
        (hermiteFixture (FLUX_FACTOR ⟨Real.sqrt, fun a b => a ^ b, Real.pi⟩))
        ConversionSingleton.init
        ⟨0, HERMITE, EllipseFixture.axes 1 1 0 (fun _ => 0), [1]⟩).2.1).2.1.integrate
        (hermiteFixture (FLUX_FACTOR ⟨Real.sqrt, fun a b => a ^ b, Real.pi⟩)) ≠
      FLUX_FACTOR ⟨Real.sqrt, fun a b => a ^ b, Real.pi⟩ := by
  have hpos : (1 : ℝ) < Real.sqrt Real.pi := by
    rw [Real.lt_sqrt (by norm_num)]
    have := Real.pi_gt_three
    linarith
  have hF : FLUX_FACTOR (⟨Real.sqrt, fun a b => a ^ b, Real.pi⟩ : FloatOps ℝ) =
      2 * Real.sqrt Real.pi := rfl
  simp only [ShapeletFunction.normalize, ShapeletFunctionEvaluator.new,
    ShapeletFunctionEvaluator._initialize, ShapeletFunctionEvaluator.integrate, hermiteFixture,
    hF]
  norm_num
  have h2 : Real.sqrt Real.pi ≠ 0 := by linarith
  have h3 : 2 * Real.sqrt Real.pi * ((Real.sqrt Real.pi)⁻¹ * (1 / 2)) = 1 := by
    field_simp
    ring
  rw [h3]
  linarith

/-- C6 (amended): when `normalize()` returns normally on a function whose total integral is
not zero, the total integral afterwards is 1, for every `sumIntegration` that is homogeneous
in the coefficients: the coefficients are divided by the flux and `FLUX_FACTOR` is not used. -/
theorem normalize_flux (ops : FloatOps K) (geom : Geometry K E) (hm : HermiteMethods K)
    (s : ConversionSingleton K) (f : ShapeletFunction K E)
    (hlin : ∀ (h : HermiteEvaluator) (v : List K) (k : K),
      hm.sumIntegration h (v.map (fun c => c / k)) 0 0 = hm.sumIntegration h v 0 0 / k)
    (hok : (f.normalize ops geom hm s).1 = Outcome.ok)
    (hflux : (ShapeletFunctionEvaluator.new ops geom s f).2.1.integrate hm ≠ 0) :
    (ShapeletFunctionEvaluator.new ops geom (f.normalize ops geom hm s).2.2
      (f.normalize ops geom hm s).2.1).1 = Outcome.ok ∧
    (ShapeletFunctionEvaluator.new ops geom (f.normalize ops geom hm s).2.2
      (f.normalize ops geom hm s).2.1).2.1.integrate hm = 1 := by
  obtain ⟨so, sb, se, sc⟩ := f
  cases sb with
  | HERMITE =>
    simp only [ShapeletFunction.normalize, ShapeletFunctionEvaluator.new,
      ShapeletFunctionEvaluator._initialize, ShapeletFunctionEvaluator.integrate] at hflux ⊢
    refine ⟨trivial, ?_⟩
    rw [hlin]
    exact div_self hflux
  | LAGUERRE =>
    have hst := convert_state ops s sc LAGUERRE HERMITE so (by decide)
    have hsc := fun k => convert_scale ops (s.ensure ops so) sc k LAGUERRE HERMITE so
    simp only [hst.2] at hsc
    simp only [ShapeletFunction.normalize, ShapeletFunctionEvaluator.new,
      ShapeletFunctionEvaluator._initialize, ShapeletFunctionEvaluator.integrate] at hok hflux ⊢
    generalize convertCoefficientVector ops s sc LAGUERRE HERMITE so = c at hok hflux hst hsc ⊢
    obtain ⟨o, s1, w⟩ := c
    cases o with
    | lengthError => simp at hok
    | undefined => simp at hok
    | ok =>
      simp only at hst hsc hflux ⊢
      rw [hst.1, hsc]
      simp only
      refine ⟨trivial, ?_⟩
      rw [hlin]
      exact div_self hflux

/-- C6, witness: the order-0 function with coefficient 3 and flux 6 has flux 1 after
`normalize()`. -/
theorem normalize_flux_witness :
    (ShapeletFunctionEvaluator.new opsFixture (geomFixture ℚ)
      (ShapeletFunction.normalize opsFixture (geomFixture ℚ) (hermiteFixture 2)
        ConversionSingleton.init ⟨0, HERMITE, EllipseFixture.axes 1 1 0 (fun _ => 0), [3]⟩).2.2
      (ShapeletFunction.normalize opsFixture (geomFixture ℚ) (hermiteFixture 2)
        ConversionSingleton.init
        ⟨0, HERMITE, EllipseFixture.axes 1 1 0 (fun _ => 0), [3]⟩).2.1).2.1.integrate
        (hermiteFixture 2) = 1 :=
  (normalize_flux opsFixture (geomFixture ℚ) (hermiteFixture 2) ConversionSingleton.init
    ⟨0, HERMITE, EllipseFixture.axes 1 1 0 (fun _ => 0), [3]⟩ (hermiteFixture_homogeneous 2)
    rfl
    (by
      simp [ShapeletFunctionEvaluator.new, ShapeletFunctionEvaluator._initialize,
        ShapeletFunctionEvaluator.integrate, hermiteFixture])).2

/-- C7, counterexample: convolving the order-0 LAGUERRE function with coefficient 1 returns a
function whose basis type is LAGUERRE, not HERMITE. -/
theorem convolve_basis_counterexample :
    (ShapeletFunction.convolve ⟨Real.sqrt, fun a b => a ^ b, Real.pi⟩ (geomFixture ℝ)
        (convolutionFixture ℝ (EllipseFixture ℝ)) ConversionSingleton.init
        ⟨0, LAGUERRE, EllipseFixture.axes 1 1 0 (fun _ => 0), [1]⟩
        ⟨0, HERMITE, EllipseFixture.axes 1 1 0 (fun _ => 0), [1]⟩).result.map
      (fun g => g._basisType) = some LAGUERRE := by
  obtain ⟨g, hg, hb⟩ := (convolve_laguerre_ok ⟨Real.sqrt, fun a b => a ^ b, Real.pi⟩
    (geomFixture ℝ) (convolutionFixture ℝ (EllipseFixture ℝ)) ConversionSingleton.init
    (EllipseFixture.axes 1 1 0 (fun _ => 0)) [1]
    ⟨0, HERMITE, EllipseFixture.axes 1 1 0 (fun _ => 0), [1]⟩ 0 0 (exact_regular Real.pi)
    (init_valid _) (by simp [computeSize]) (by simp [convolutionFixture])
    (by simp [convolutionFixture]) (by simp [convolutionFixture, computeSize])).2
  have hg2 : (ShapeletFunction.convolve ⟨Real.sqrt, fun a b => a ^ b, Real.pi⟩ (geomFixture ℝ)
        (convolutionFixture ℝ (EllipseFixture ℝ)) ConversionSingleton.init
        ⟨0, LAGUERRE, EllipseFixture.axes 1 1 0 (fun _ => 0), [1]⟩
        ⟨0, HERMITE, EllipseFixture.axes 1 1 0 (fun _ => 0), [1]⟩).result = some g := hg
  rw [hg2, Option.map_some', hb]

/-- C7 (amended): the function returned by `convolve(other)` has the basis type of the
receiver, HERMITE for a HERMITE receiver and LAGUERRE for a LAGUERRE receiver. -/
theorem convolve_basis_type (ops : FloatOps K) (geom : Geometry K E)
    (hc : HermiteConvolution K E) (s : ConversionSingleton K) (self other : ShapeletFunction K E)
    (g : ShapeletFunction K E) (hg : (self.convolve ops geom hc s other).result = some g) :
    g._basisType = self._basisType := by
  obtain ⟨so, sb, se, sc⟩ := self
  cases sb with
  | HERMITE =>
    simp only [ShapeletFunction.convolve, ShapeletFunction.setEllipse, reduceCtorEq, if_false] at hg
    cases hmv : (hc.evaluate so other se).1.mulVec sc with
    | none => simp [hmv] at hg
    | some product =>
      simp only [hmv] at hg
      generalize (deepAssign (ShapeletFunction.zero geom (hc.getRowOrder so other)
        HERMITE)._coefficients product) = da at hg
      obtain ⟨o2, w2⟩ := da
      cases o2 with
      | lengthError => simp at hg
      | undefined => simp at hg
      | ok =>
        simp only [Option.some.injEq] at hg
        rw [← hg]
        rfl
  | LAGUERRE =>
    simp only [ShapeletFunction.convolve, ShapeletFunction.setEllipse, if_true] at hg
    generalize convertCoefficientVector ops s sc LAGUERRE HERMITE so = c1 at hg
    obtain ⟨o1, s1, w1⟩ := c1
    cases o1 with
    | lengthError => simp at hg
    | undefined => simp at hg
    | ok =>
      simp only at hg
      cases hmv : (hc.evaluate so other se).1.mulVec w1 with
      | none => simp [hmv] at hg
      | some product =>
        simp only [hmv] at hg
        generalize (deepAssign (ShapeletFunction.zero geom (hc.getRowOrder so other)
          HERMITE)._coefficients product) = da at hg
        obtain ⟨o2, w2⟩ := da
        cases o2 with
        | lengthError => simp at hg
        | undefined => simp at hg
        | ok =>
          simp only at hg
          generalize convertCoefficientVector ops s1 w1 HERMITE LAGUERRE so = c2 at hg
          obtain ⟨o3, s3, w3⟩ := c2
          cases o3 with
          | lengthError => simp at hg
          | undefined => simp at hg
          | ok =>
            simp only at hg
            split at hg
            · rename_i h4
              simp only [Option.some.injEq] at hg
              rw [← hg]
              exact changeBasisType_basis _ _ _ _ h4
            · simp at hg

/-- C7, witness: convolving the order-0 HERMITE function with coefficient 5 returns a
HERMITE function. -/
theorem convolve_basis_type_witness :
    (ShapeletFunction.convolve opsFixture (geomFixture ℚ)
        (convolutionFixture ℚ (EllipseFixture ℚ)) ConversionSingleton.init
        ⟨0, HERMITE, EllipseFixture.axes 1 1 0 (fun _ => 0), [5]⟩
        ⟨0, HERMITE, EllipseFixture.axes 1 1 0 (fun _ => 0), [1]⟩).result =
      some ⟨0, HERMITE, EllipseFixture.axes 1 1 0 (fun _ => 0), [5]⟩ ∧
    (⟨0, HERMITE, EllipseFixture.axes 1 1 0 (fun _ => 0), [5]⟩ :
        ShapeletFunction ℚ (EllipseFixture ℚ))._basisType = HERMITE :=
  have h : (ShapeletFunction.convolve opsFixture (geomFixture ℚ)
        (convolutionFixture ℚ (EllipseFixture ℚ)) ConversionSingleton.init
        ⟨0, HERMITE, EllipseFixture.axes 1 1 0 (fun _ => 0), [5]⟩
        ⟨0, HERMITE, EllipseFixture.axes 1 1 0 (fun _ => 0), [1]⟩).result =
      some ⟨0, HERMITE, EllipseFixture.axes 1 1 0 (fun _ => 0), [5]⟩ := by
    simp [ShapeletFunction.convolve, ShapeletFunction.setEllipse, convolutionFixture, Array2.mulVec, computeSize,
      deepAssign, ShapeletFunction.zero, zeros, Matrix.mulVec, Matrix.dotProduct]
  ⟨h, convolve_basis_type opsFixture (geomFixture ℚ) (convolutionFixture ℚ (EllipseFixture ℚ))
    ConversionSingleton.init ⟨0, HERMITE, EllipseFixture.axes 1 1 0 (fun _ => 0), [5]⟩
    ⟨0, HERMITE, EllipseFixture.axes 1 1 0 (fun _ => 0), [1]⟩
    ⟨0, HERMITE, EllipseFixture.axes 1 1 0 (fun _ => 0), [5]⟩ h⟩

/-- C8: `convolve(other)` never writes the receiver's order, basis type and ellipse, never
writes a HERMITE receiver's coefficients, and once it has returned the receiver is as it was
before the call: a LAGUERRE receiver's coefficients, converted to HERMITE and back, have their
old values (in exact arithmetic, on a cache that satisfies its invariant). -/
theorem convolve_restores_receiver (ops : FloatOps ℝ) (geom : Geometry ℝ E)
    (hc : HermiteConvolution ℝ E) (s : ConversionSingleton ℝ) (self other : ShapeletFunction ℝ E)
    (hops : ops.Regular) (hs : s.Valid ops) :
    ((self.convolve ops geom hc s other).self._order = self._order ∧
      (self.convolve ops geom hc s other).self._basisType = self._basisType ∧
      (self.convolve ops geom hc s other).self._ellipse = self._ellipse) ∧
    (self._basisType = HERMITE →
      (self.convolve ops geom hc s other).self._coefficients = self._coefficients) ∧
    ((self.convolve ops geom hc s other).outcome = Outcome.ok →
      (self.convolve ops geom hc s other).self = self) :=
  ⟨(convolve_frame ops geom hc s self other).1, (convolve_frame ops geom hc s self other).2,
    convolve_restores_ok ops geom hc s self other hops hs⟩

/-- C8, witness: convolving the order-1 LAGUERRE function with coefficients `[1, 2, 4]`
returns normally and leaves it as it was, after its coefficients went through the order-1
conversion to HERMITE and back. -/
theorem convolve_restores_receiver_witness :
    (ShapeletFunction.convolve ⟨Real.sqrt, fun a b => a ^ b, Real.pi⟩ (geomFixture ℝ)
        (convolutionFixture ℝ (EllipseFixture ℝ)) ConversionSingleton.init
        ⟨1, LAGUERRE, EllipseFixture.axes 2 3 0 (fun _ => 0), [1, 2, 4]⟩
        ⟨0, HERMITE, EllipseFixture.axes 1 1 0 (fun _ => 0), [1]⟩).self =
      ⟨1, LAGUERRE, EllipseFixture.axes 2 3 0 (fun _ => 0), [1, 2, 4]⟩ :=
  (convolve_restores_receiver ⟨Real.sqrt, fun a b => a ^ b, Real.pi⟩ (geomFixture ℝ)
    (convolutionFixture ℝ (EllipseFixture ℝ)) ConversionSingleton.init
    ⟨1, LAGUERRE, EllipseFixture.axes 2 3 0 (fun _ => 0), [1, 2, 4]⟩
    ⟨0, HERMITE, EllipseFixture.axes 1 1 0 (fun _ => 0), [1]⟩ (exact_regular Real.pi)
    (init_valid _)).2.2
    (convolve_laguerre_ok ⟨Real.sqrt, fun a b => a ^ b, Real.pi⟩
      (geomFixture ℝ) (convolutionFixture ℝ (EllipseFixture ℝ)) ConversionSingleton.init
      (EllipseFixture.axes 2 3 0 (fun _ => 0)) [1, 2, 4]
      ⟨0, HERMITE, EllipseFixture.axes 1 1 0 (fun _ => 0), [1]⟩ 1 1 (exact_regular Real.pi)
      (init_valid _) (by decide) (by simp [convolutionFixture])
      (by simp [convolutionFixture]) (by simp [convolutionFixture, computeSize])).1

/-- C9: for an evaluator built for order `k` and a function `f` (whose coefficient array has
the length its order prescribes), `update(f)` raises the error exactly when `f`'s order
differs from `k`; when it raises, the evaluator is unchanged, and in every case the bound
order is still `k`. -/
theorem update_order_mismatch (ops : FloatOps K) (geom : Geometry K E)
    (s : ConversionSingleton K) (ev : ShapeletFunctionEvaluator K) (f : ShapeletFunction K E)
    (hf : (f._coefficients.length : Int) = computeSize f._order) :
    ((ev.update ops geom s f).1 = Outcome.lengthError ↔ f._order ≠ ev._h.order) ∧
    ((ev.update ops geom s f).1 = Outcome.lengthError →
      (ev.update ops geom s f).2.1._transform = ev._transform ∧
      (ev.update ops geom s f).2.1._coefficients = ev._coefficients ∧
      (ev.update ops geom s f).2.1._normalization = ev._normalization) ∧
    (ev.update ops geom s f).2.1._h.order = ev._h.order := by
  unfold ShapeletFunctionEvaluator.update
  rcases validateSize_cases ev._h.order f._order with ⟨h1, h2⟩ | ⟨h1, h2⟩
  · simp only [h2]
    have hi := initialize_spec ops s
      { ev with _transform := geom.getGridTransform f._ellipse } f hf
    refine ⟨?_, ?_, ?_⟩
    · constructor
      · intro h; exact absurd h hi.1
      · intro h; exact absurd h1.symm h
    · intro h; exact absurd h hi.1
    · rw [hi.2]
  · simp only [h2, true_iff, true_and, and_true, imp_self]
    exact fun e => h1 e.symm

/-- C9, witness: an evaluator bound to order 0 rejects an order-1 function and keeps its
state. -/
theorem update_order_mismatch_witness :
    ((⟨1, ⟨1, 0⟩, ⟨0⟩, [1]⟩ : ShapeletFunctionEvaluator ℚ).update ⟨fun x => x, fun x _ => x, 3⟩
        (geomFixture ℚ) ConversionSingleton.init
        ⟨1, HERMITE, EllipseFixture.axes 2 2 0 (fun _ => 0), [1, 2, 3]⟩).1
      = Outcome.lengthError ↔ (1 : Int) ≠ 0 :=
  (update_order_mismatch ⟨fun x => x, fun x _ => x, 3⟩ (geomFixture ℚ) ConversionSingleton.init
    ⟨1, ⟨1, 0⟩, ⟨0⟩, [1]⟩ ⟨1, HERMITE, EllipseFixture.axes 2 2 0 (fun _ => 0), [1, 2, 3]⟩
    (by decide)).1

/-- C10: for an order-0 HERMITE function with coefficient `c ≠ 0` whose envelope has the grid
transform `x ↦ (x - p) / r` with `r ≠ 0`, and whose unit-frame raw moments are `m1 = 0` and
`m2 = m0 * I` with `m0 = k * c`, `k ≠ 0`, the evaluator is built normally and
`computeMoments()` returns the ellipse with center `p` and quadrupole `r^2 * I`. -/
theorem gaussian_moments (ops : FloatOps K) (geom : Geometry K E) (hm : HermiteMethods K)
    (s : ConversionSingleton K) (f : ShapeletFunction K E) (c r k : K) (p : Fin 2 → K)
    (hc : c ≠ 0) (hr : r ≠ 0) (hk : k ≠ 0)
    (hord : f._order = 0) (hbasis : f._basisType = HERMITE) (hcoef : f._coefficients = [c])
    (hgrid : geom.getGridTransform f._ellipse = ⟨r⁻¹ • 1, -(r⁻¹ • p)⟩)
    (h00 : hm.sumIntegration ⟨0⟩ [c] 0 0 = k * c)
    (h10 : hm.sumIntegration ⟨0⟩ [c] 1 0 = 0) (h01 : hm.sumIntegration ⟨0⟩ [c] 0 1 = 0)
    (h20 : hm.sumIntegration ⟨0⟩ [c] 2 0 = k * c) (h02 : hm.sumIntegration ⟨0⟩ [c] 0 2 = k * c)
    (h11 : hm.sumIntegration ⟨0⟩ [c] 1 1 = 0) :
    (ShapeletFunctionEvaluator.new ops geom s f).1 = Outcome.ok ∧
    (ShapeletFunctionEvaluator.new ops geom s f).2.1.computeMoments geom hm =
      geom.ofQuadrupole ((r * r) • 1) p := by
  have hnew : ShapeletFunctionEvaluator.new ops geom s f =
      (Outcome.ok, ⟨(r⁻¹ • (1 : Matrix (Fin 2) (Fin 2) K)).det, ⟨r⁻¹ • 1, -(r⁻¹ • p)⟩, ⟨0⟩, [c]⟩,
        s) := by
    simp [ShapeletFunctionEvaluator.new, ShapeletFunctionEvaluator._initialize, hbasis, hgrid,
      hord, hcoef]
  rw [hnew]
  refine ⟨rfl, ?_⟩
  have hm0 : k * c ≠ 0 := mul_ne_zero hk hc
  simp only [ShapeletFunctionEvaluator.computeMoments]
  rw [gaussian_raw_moments hm ⟨0⟩ _ [c] r (k * c) p hr h00 h10 h01 h20 h02 h11]
  congr 1
  · ext i j
    simp only [Matrix.sub_apply, Matrix.smul_apply, Matrix.add_apply, Matrix.vecMulVec_apply,
      Pi.smul_apply, smul_eq_mul]
    field_simp
  · funext i
    simp only [Pi.smul_apply, smul_eq_mul]
    field_simp

/-- C10, witness: the order-0 function with coefficient `-7` on the circle of radius `2`
centered at `(3, 5)` has moments with center `(3, 5)` and quadrupole `4 * I`. -/
theorem gaussian_moments_witness :
    (ShapeletFunctionEvaluator.new opsFixture (geomFixture ℚ) ConversionSingleton.init
        ⟨0, HERMITE, EllipseFixture.axes 2 2 0 ![3, 5], [-7]⟩).2.1.computeMoments
        (geomFixture ℚ) (hermiteFixture (2 : ℚ)) =
      EllipseFixture.quadrupole (((2 : ℚ) * 2) • 1) ![3, 5] :=
  (gaussian_moments opsFixture (geomFixture ℚ) (hermiteFixture (2 : ℚ)) ConversionSingleton.init
    ⟨0, HERMITE, EllipseFixture.axes 2 2 0 ![3, 5], [-7]⟩ (-7) 2 2 ![3, 5]
    (by norm_num) (by norm_num) (by norm_num) rfl rfl rfl
    (by
      simp only [geomFixture]
      congr 1
      · ext i j; fin_cases i <;> fin_cases j <;> simp [Matrix.one_apply]
      · funext i; fin_cases i <;> simp <;> norm_num)
    (by simp [hermiteFixture]) (by simp [hermiteFixture]) (by simp [hermiteFixture])
    (by simp [hermiteFixture]) (by simp [hermiteFixture]) (by simp [hermiteFixture])).2

/-- C12: `addToImage` keeps the number of rows and the length of every row, and leaves the
cell at row `j`, column `i` equal to its previous value plus the evaluator's value at the
point `(x0 + i, y0 + j)`; on a grid of zeros the cell is exactly that value. -/
theorem addToImage_accumulates (he : HermiteEvaluation K) (self : ShapeletFunctionEvaluator K)
    (array : List (List K)) (x0 y0 : Int) (j i : Nat) (hj : j < array.length)
    (hi : i < array[j].length) :
    (self.addToImage he array (x0, y0)).length = array.length ∧
    ((self.addToImage he array (x0, y0))[j]?.map List.length = some array[j].length) ∧
    ((self.addToImage he array (x0, y0))[j]?.bind (fun row => row[i]?) =
      some (array[j][i] +
        self.call he ((x0 + (i : Int) : Int) : K) ((y0 + (j : Int) : Int) : K))) ∧
    (array[j][i] = 0 →
      (self.addToImage he array (x0, y0))[j]?.bind (fun row => row[i]?) =
        some (self.call he ((x0 + (i : Int) : Int) : K) ((y0 + (j : Int) : Int) : K))) := by
  have hr := addToRows_spec he self x0 array y0
  have hrow := addToRow_spec he self (y0 + (j : Int)) array[j] x0
  have hcell : (self.addToImage he array (x0, y0))[j]?.bind (fun row => row[i]?) =
      some (array[j][i] +
        self.call he ((x0 + (i : Int) : Int) : K) ((y0 + (j : Int) : Int) : K)) := by
    unfold ShapeletFunctionEvaluator.addToImage
    rw [hr.2 j hj, Option.some_bind, hrow.2 i hi]
  refine ⟨hr.1, ?_, hcell, ?_⟩
  · unfold ShapeletFunctionEvaluator.addToImage
    rw [hr.2 j hj, Option.map_some', hrow.1]
  · intro hz
    rw [hcell, hz, zero_add]

/-- C12, witness: adding an evaluator to the 2 by 2 grid `[[1, 2], [3, 4]]` at origin
`(10, 20)` leaves in row 1, column 0 the old value 3 plus the value at the point `(10, 21)`. -/
theorem addToImage_accumulates_witness :
    ((⟨1, ⟨1, 0⟩, ⟨0⟩, [1]⟩ : ShapeletFunctionEvaluator ℚ).addToImage ⟨fun _ _ x y => x + y⟩
        [[1, 2], [3, 4]] (10, 20))[1]?.bind (fun row => row[0]?) =
      some (3 + (⟨1, ⟨1, 0⟩, ⟨0⟩, [1]⟩ : ShapeletFunctionEvaluator ℚ).call
        ⟨fun _ _ x y => x + y⟩ (((10 : Int) + ((0 : Nat) : Int) : Int) : ℚ)
        (((20 : Int) + ((1 : Nat) : Int) : Int) : ℚ)) :=
  (addToImage_accumulates ⟨fun _ _ x y => x + y⟩ ⟨1, ⟨1, 0⟩, ⟨0⟩, [1]⟩ [[1, 2], [3, 4]] 10 20 1 0
    (by decide) (by decide)).2.2.1

/-- C13: `length(coefficients) == computeSize(order)` holds for every function a constructor
returns (default, zero-filled, coefficient-taking, copy); `operator=` between two functions
that satisfy it returns normally in both of its branches and leaves the target equal to the
source; `normalize()` preserves it; and it holds for every function `convolve()` returns. -/
theorem size_invariant (ops : FloatOps K) (geom : Geometry K E) (hm : HermiteMethods K)
    (hc : HermiteConvolution K E) (s : ConversionSingleton K) (order : Int)
    (basisType : BasisTypeEnum) (radius : K) (center : Fin 2 → K) (ellipse : E)
    (coefficients : List K) (self other : ShapeletFunction K E)
    (hself : self.SizeInvariant) (hother : other.SizeInvariant) :
    ((ShapeletFunction.default geom : ShapeletFunction K E).SizeInvariant ∧
      (ShapeletFunction.zero geom order basisType : ShapeletFunction K E).SizeInvariant ∧
      (ShapeletFunction.zeroCircle geom order basisType radius center).SizeInvariant ∧
      (ShapeletFunction.zeroEllipse geom order basisType ellipse).SizeInvariant ∧
      (∀ f, ShapeletFunction.ofCoefficients geom order basisType coefficients = Except.ok f →
        f.SizeInvariant) ∧
      (∀ f, ShapeletFunction.ofCircle geom order basisType radius center coefficients =
        Except.ok f → f.SizeInvariant) ∧
      (∀ f, ShapeletFunction.ofEllipse geom order basisType ellipse coefficients =
        Except.ok f → f.SizeInvariant) ∧
      (ShapeletFunction.copy other).SizeInvariant) ∧
    (self.assign other = (Outcome.ok, other) ∧ (self.assign other).2.SizeInvariant) ∧
    (self.normalize ops geom hm s).2.1.SizeInvariant ∧
    (∀ g, (self.convolve ops geom hc s other).result = some g → g.SizeInvariant) := by
  have hz : (((zeros (computeSize order) : List K).length : Nat) : Int) = computeSize order :=
    zeros_length _ (computeSize_nonneg _)
  refine ⟨⟨?_, hz, hz, hz, ?_, ?_, ?_, hother⟩, ⟨?_, ?_⟩, ?_,
    fun g hg => convolve_result_size ops geom hc s self other g hg⟩
  · simp [ShapeletFunction.SizeInvariant, ShapeletFunction.default, computeSize]
  · intro f hf
    unfold ShapeletFunction.ofCoefficients at hf
    rcases validateSize_cases (computeSize order) (coefficients.length : Int) with
      ⟨h1, h2⟩ | ⟨h1, h2⟩
    · simp only [h2, Except.ok.injEq] at hf
      rw [← hf]
      exact h1.symm
    · simp [h2] at hf
  · intro f hf
    unfold ShapeletFunction.ofCircle at hf
    rcases validateSize_cases (computeSize order) (coefficients.length : Int) with
      ⟨h1, h2⟩ | ⟨h1, h2⟩
    · simp only [h2, Except.ok.injEq] at hf
      rw [← hf]
      exact h1.symm
    · simp [h2] at hf
  · intro f hf
    unfold ShapeletFunction.ofEllipse at hf
    rcases validateSize_cases (computeSize order) (coefficients.length : Int) with
      ⟨h1, h2⟩ | ⟨h1, h2⟩
    · simp only [h2, Except.ok.injEq] at hf
      rw [← hf]
      exact h1.symm
    · simp [h2] at hf
  · unfold ShapeletFunction.assign
    split
    · rfl
    · rename_i heq
      have heq2 : other._order = self._order := not_not.mp heq
      have hl : self._coefficients.length = other._coefficients.length := by
        unfold ShapeletFunction.SizeInvariant at hself hother
        rw [← heq2, ← hother] at hself
        exact_mod_cast hself
      simp only [deepAssign, if_pos hl, ← heq2]
  · unfold ShapeletFunction.assign
    split
    · exact hother
    · rename_i heq
      have heq2 : other._order = self._order := not_not.mp heq
      have hl : self._coefficients.length = other._coefficients.length := by
        unfold ShapeletFunction.SizeInvariant at hself hother
        rw [← heq2, ← hother] at hself
        exact_mod_cast hself
      simp only [deepAssign, if_pos hl, ← heq2]
      exact hother
  · simp only [ShapeletFunction.normalize]
    generalize ShapeletFunctionEvaluator.new ops geom s self = ev
    obtain ⟨o, e1, s1⟩ := ev
    cases o <;> simpa [ShapeletFunction.SizeInvariant] using hself

/-- C13, witness: assigning an order-1 function to an order-0 function gives the order-1
function, which has its three coefficients. -/
theorem size_invariant_witness :
    (ShapeletFunction.assign
        (⟨0, HERMITE, EllipseFixture.axes 1 1 0 (fun _ => 0), [1]⟩ :
          ShapeletFunction ℚ (EllipseFixture ℚ))
        ⟨1, LAGUERRE, EllipseFixture.axes 2 2 0 (fun _ => 0), [1, 2, 3]⟩ =
      (Outcome.ok, ⟨1, LAGUERRE, EllipseFixture.axes 2 2 0 (fun _ => 0), [1, 2, 3]⟩)) ∧
    (ShapeletFunction.assign
        (⟨0, HERMITE, EllipseFixture.axes 1 1 0 (fun _ => 0), [1]⟩ :
          ShapeletFunction ℚ (EllipseFixture ℚ))
        ⟨1, LAGUERRE, EllipseFixture.axes 2 2 0 (fun _ => 0), [1, 2, 3]⟩).2.SizeInvariant :=
  (size_invariant opsFixture (geomFixture ℚ) (hermiteFixture 2)
    (convolutionFixture ℚ (EllipseFixture ℚ)) ConversionSingleton.init 0 HERMITE 1 (fun _ => 0)
    (EllipseFixture.axes 1 1 0 (fun _ => 0)) [1]
    ⟨0, HERMITE, EllipseFixture.axes 1 1 0 (fun _ => 0), [1]⟩
    ⟨1, LAGUERRE, EllipseFixture.axes 2 2 0 (fun _ => 0), [1, 2, 3]⟩
    (by simp [ShapeletFunction.SizeInvariant, computeSize])
    (by simp [ShapeletFunction.SizeInvariant, computeSize])).2.1

/-- C14: for every order `order ≥ 0`, distinct bases `A`, `B`, an operation vector `w` and a
coefficient vector `v` of length `computeSize(order)`, on a cache that satisfies its
invariant and in exact arithmetic: `convertOperationVector(w, A, B, order)` returns normally
and replaces `w` by the row vector `w` times the dense conversion matrix with the bases
swapped (input `B`, output `A`), and the value of the functional is preserved,
`dot(converted w, converted v) = dot(w, v)` with `v` converted by
`convertCoefficientVector(v, A, B, order)`. -/
theorem operation_vector_preserves_functional (ops : FloatOps ℝ) (s : ConversionSingleton ℝ)
    (order : Nat) (A B : BasisTypeEnum) (w v : List ℝ) (hops : ops.Regular) (hs : s.Valid ops)
    (hAB : A ≠ B) (hw : (w.length : Int) = computeSize order)
    (hv : (v.length : Int) = computeSize order) :
    ∃ D : Block ℝ,
      (ConversionMatrix.new ops s B A order).1.buildDenseMatrix
        (ConversionMatrix.new ops s B A order).2 = some D ∧
      D.rows = w.length ∧
      convertOperationVector ops s w A B order =
        (Outcome.ok, s.ensure ops order,
          List.ofFn (Matrix.vecMul (segment w 0 D.rows) D.coeff)) ∧
      (convertCoefficientVector ops s v A B order).1 = Outcome.ok ∧
      dot (convertOperationVector ops s w A B order).2.2
        (convertCoefficientVector ops s v A B order).2.2 = dot w v := by
  have hval := ensure_valid ops s order hs
  have hmax : (order : Int) ≤ (s.ensure ops order)._max_order := by rw [hval.2]; omega
  have hBA : B ≠ A := fun e => hAB e.symm
  obtain ⟨D, hD, hrows, hloop⟩ := multiplyLoop_dense ops ⟨order, B, A⟩ (s.ensure ops order) order
    hval.1 rfl hmax hBA w hw
  have hwl : w.length = sizeFrom 0 (order + 1) := by
    rw [computeSize_eq] at hw
    exact_mod_cast hw
  have hvl : v.length = sizeFrom 0 (order + 1) := by
    rw [computeSize_eq] at hv
    exact_mod_cast hv
  obtain ⟨w2, v2, hl1, hl2, hdot⟩ :=
    operation_dot ops hops (s.ensure ops order) hval.1 order hmax A B hAB w v hwl hvl
  have hop : convertOperationVector ops s w A B order = (Outcome.ok, s.ensure ops order, w2) := by
    simp only [convertOperationVector, if_neg hAB, ConversionMatrix.new,
      ConversionMatrix.multiplyOnRight, hw, ne_eq, not_true_eq_false, if_false, if_neg hBA, hl1]
  have hco : convertCoefficientVector ops s v A B order = (Outcome.ok, s.ensure ops order, v2) := by
    simp only [convertCoefficientVector, if_neg hAB, ConversionMatrix.new,
      ConversionMatrix.multiplyOnLeft, hv, ne_eq, not_true_eq_false, if_false, hl2]
  have hw2 : w2 = List.ofFn (Matrix.vecMul (segment w 0 D.rows) D.coeff) := by
    have h := (hloop false).1
    simp only [Bool.false_eq_true, if_false] at h
    rw [hl1] at h
    exact (Prod.mk.inj h).2
  refine ⟨D, hD, hrows, by rw [hop, hw2], by rw [hco], ?_⟩
  rw [hop, hco]
  exact hdot

/-- C14, witness: on the empty cache, with the real square root and power, the order-1
functional `[1, 2, 3]` applied to `[4, 5, 6]` keeps its value under conversion from HERMITE
to LAGUERRE, the functional being multiplied on the right by the LAGUERRE to HERMITE
matrix. -/
theorem operation_vector_preserves_functional_witness :
    dot (convertOperationVector ⟨Real.sqrt, fun a b => a ^ b, Real.pi⟩ ConversionSingleton.init
        [1, 2, 3] HERMITE LAGUERRE 1).2.2
      (convertCoefficientVector ⟨Real.sqrt, fun a b => a ^ b, Real.pi⟩ ConversionSingleton.init
        [4, 5, 6] HERMITE LAGUERRE 1).2.2 = dot [1, 2, 3] ([4, 5, 6] : List ℝ) := by
  obtain ⟨D, _, _, _, _, h⟩ := operation_vector_preserves_functional
    ⟨Real.sqrt, fun a b => a ^ b, Real.pi⟩ ConversionSingleton.init 1 HERMITE LAGUERRE
    [1, 2, 3] [4, 5, 6] (exact_regular Real.pi) (init_valid _) (by decide) (by decide)
    (by decide)
  exact h

/-- C15: with `input == output` the static entry points `convertCoefficientVector` and
`convertOperationVector` return normally on every vector and every order, whatever the
vector's length, and leave the vector and the conversion cache as they were, whereas
`ConversionMatrix(A, A, order).multiplyOnLeft` raises the length error on a vector whose
length is not `computeSize(order)`. -/
theorem equal_bases_no_op (ops : FloatOps K) (s : ConversionSingleton K) (v : List K)
    (A : BasisTypeEnum) (order : Int) (hv : (v.length : Int) ≠ computeSize order) :
    (∀ w : List K, convertCoefficientVector ops s w A A order = (Outcome.ok, s, w)) ∧
    (∀ w : List K, convertOperationVector ops s w A A order = (Outcome.ok, s, w)) ∧
    convertCoefficientVector ops s v A A order = (Outcome.ok, s, v) ∧
    ((ConversionMatrix.new ops s A A order).1.multiplyOnLeft
      (ConversionMatrix.new ops s A A order).2 v).1 = Outcome.lengthError := by
  refine ⟨?_, ?_, ?_, ?_⟩
  · intro w
    unfold convertCoefficientVector
    rw [if_pos rfl]
  · intro w
    unfold convertOperationVector
    rw [if_pos rfl]
  · unfold convertCoefficientVector
    rw [if_pos rfl]
  · unfold ConversionMatrix.multiplyOnLeft ConversionMatrix.new
    rw [if_pos hv]

/-- C15, witness: at order 1 the two-entry vector `[1, 2]` passes through the static entry
point unchanged, and `multiplyOnLeft` of the HERMITE-to-HERMITE matrix rejects it. -/
theorem equal_bases_no_op_witness :
    convertCoefficientVector opsFixture ConversionSingleton.init [1, 2] HERMITE HERMITE 1 =
        (Outcome.ok, ConversionSingleton.init, [1, 2]) ∧
      ((ConversionMatrix.new opsFixture ConversionSingleton.init HERMITE HERMITE 1).1.multiplyOnLeft
        (ConversionMatrix.new opsFixture ConversionSingleton.init HERMITE HERMITE 1).2
        ([1, 2] : List ℚ)).1 = Outcome.lengthError :=
  (equal_bases_no_op opsFixture ConversionSingleton.init [1, 2] HERMITE 1 (by decide)).2.2

/-- C16: for a `ConversionMatrix` of order `order ≥ 0` (any bases), on a cache that holds the
blocks up to `order` (as it does after the constructor), and a vector `v` of length
`computeSize(order)`: `multiplyOnLeft` leaves `buildDenseMatrix() * v` and `multiplyOnRight`
leaves `transpose(buildDenseMatrix()) * v`; both return normally, give the same result on
the cache cut down to the blocks of orders `0 .. order`, and, for distinct bases, read past
the end of a cache that lacks the block of order `order`. -/
theorem loops_agree_with_dense (ops : FloatOps K) (m : ConversionMatrix)
    (s : ConversionSingleton K) (order : Nat) (v : List K) (hs : s.Valid ops)
    (ho : m._order = order) (hmax : m._order ≤ s._max_order)
    (hv : (v.length : Int) = computeSize order) :
    ∃ D : Block K, m.buildDenseMatrix s = some D ∧ D.rows = v.length ∧
      m.multiplyOnLeft s v = (Outcome.ok, List.ofFn (D.coeff.mulVec (segment v 0 D.rows))) ∧
      m.multiplyOnRight s v =
        (Outcome.ok, List.ofFn (D.coeff.transpose.mulVec (segment v 0 D.rows))) ∧
      m.multiplyOnLeft ⟨s._max_order, s._h2l.take (order + 1), s._l2h.take (order + 1)⟩ v =
        m.multiplyOnLeft s v ∧
      m.multiplyOnRight ⟨s._max_order, s._h2l.take (order + 1), s._l2h.take (order + 1)⟩ v =
        m.multiplyOnRight s v ∧
      (m._input ≠ m._output →
        (m.multiplyOnLeft ⟨s._max_order, s._h2l.take order, s._l2h.take order⟩ v).1 =
          Outcome.undefined ∧
        (m.multiplyOnRight ⟨s._max_order, s._h2l.take order, s._l2h.take order⟩ v).1 =
          Outcome.undefined) := by
  have hv2 : (v.length : Int) = computeSize m._order := by rw [ho]; exact hv
  have hnot : ¬ ((v.length : Int) ≠ computeSize m._order) := fun h => h hv2
  by_cases hne : m._input = m._output
  · have hsize : (computeSize m._order).toNat = v.length := by rw [← hv2]; exact Int.toNat_ofNat _
    refine ⟨Block.identity v.length, ?_, rfl, ?_, ?_, ?_, ?_, fun h => absurd hne h⟩
    · simp only [ConversionMatrix.buildDenseMatrix, if_pos hne, hsize]
    · simp only [ConversionMatrix.multiplyOnLeft, if_neg hnot, if_pos hne]
      show (Outcome.ok, v) = (Outcome.ok, List.ofFn (Matrix.mulVec (1 : Matrix (Fin v.length) (Fin v.length) K)
        (segment v 0 v.length)))
      rw [Matrix.one_mulVec, ofFn_segment v _ rfl]
    · simp only [ConversionMatrix.multiplyOnRight, if_neg hnot, if_pos hne]
      show (Outcome.ok, v) =
        (Outcome.ok, List.ofFn (Matrix.mulVec
          (Matrix.transpose (1 : Matrix (Fin v.length) (Fin v.length) K)) (segment v 0 v.length)))
      rw [Matrix.transpose_one, Matrix.one_mulVec, ofFn_segment v _ rfl]
    · simp only [ConversionMatrix.multiplyOnLeft, if_neg hnot, if_pos hne]
    · simp only [ConversionMatrix.multiplyOnRight, if_neg hnot, if_pos hne]
  · obtain ⟨D, hD, hrows, hloop⟩ := multiplyLoop_dense ops m s order hs ho hmax hne v hv2
    have hsel : ∀ k, (if m._input = HERMITE then s._h2l.take k else s._l2h.take k) =
        (if m._input = HERMITE then s._h2l else s._l2h).take k := by
      intro k; split <;> rfl
    refine ⟨D, hD, hrows, ?_, ?_, ?_, ?_, fun _ => ⟨?_, ?_⟩⟩
    · simp only [ConversionMatrix.multiplyOnLeft, if_neg hnot, if_neg hne]
      exact (hloop true).1
    · simp only [ConversionMatrix.multiplyOnRight, if_neg hnot, if_neg hne]
      rw [(hloop false).1]
      simp only [Bool.false_eq_true, if_false, Matrix.mulVec_transpose]
    · simp only [ConversionMatrix.multiplyOnLeft, if_neg hnot, if_neg hne, hsel]
      exact (hloop true).2
    · simp only [ConversionMatrix.multiplyOnRight, if_neg hnot, if_neg hne, hsel]
      exact (hloop false).2
    · obtain ⟨f, e, hf, _, hL, _⟩ := cache_lists ops m s order hs ho hmax hne
      have hlen : v.length = sizeFrom 0 (order + 1) := by
        rw [ho, computeSize_eq] at hv2
        exact_mod_cast hv2
      simp only [ConversionMatrix.multiplyOnLeft, if_neg hnot, if_neg hne, hsel]
      rw [hL, ← List.map_take, ← List.range_eq_range', List.take_range, Nat.min_eq_left (by omega),
        List.range_eq_range']
      exact multiplyLoop_short true f hf order 0 [] v hlen
    · obtain ⟨f, e, hf, _, hL, _⟩ := cache_lists ops m s order hs ho hmax hne
      have hlen : v.length = sizeFrom 0 (order + 1) := by
        rw [ho, computeSize_eq] at hv2
        exact_mod_cast hv2
      simp only [ConversionMatrix.multiplyOnRight, if_neg hnot, if_neg hne, hsel]
      rw [hL, ← List.map_take, ← List.range_eq_range', List.take_range, Nat.min_eq_left (by omega),
        List.range_eq_range']
      exact multiplyLoop_short false f hf order 0 [] v hlen

/-- C16, witness: on the cache built by the constructor for order 1, `multiplyOnLeft` of the
HERMITE to LAGUERRE matrix on `[1, 2, 3]` returns normally with the dense product. -/
theorem loops_agree_with_dense_witness :
    ∃ D : Block ℚ, (ConversionMatrix.new opsFixture ConversionSingleton.init HERMITE LAGUERRE
        1).1.buildDenseMatrix (ConversionMatrix.new opsFixture ConversionSingleton.init HERMITE
        LAGUERRE 1).2 = some D ∧ D.rows = 3 ∧
      (ConversionMatrix.new opsFixture ConversionSingleton.init HERMITE LAGUERRE
        1).1.multiplyOnLeft (ConversionMatrix.new opsFixture ConversionSingleton.init HERMITE
        LAGUERRE 1).2 [1, 2, 3] =
          (Outcome.ok, List.ofFn (D.coeff.mulVec (segment [1, 2, 3] 0 D.rows))) := by
  obtain ⟨D, h1, h2, h3, _⟩ := loops_agree_with_dense opsFixture
    (ConversionMatrix.new opsFixture ConversionSingleton.init HERMITE LAGUERRE 1).1
    (ConversionMatrix.new opsFixture ConversionSingleton.init HERMITE LAGUERRE 1).2 1 [1, 2, 3]
    (new_cache_ready opsFixture _ (init_valid _) _ _ _).1 rfl
    (new_cache_ready opsFixture _ (init_valid _) _ _ _).2 (by decide)
  exact ⟨D, h1, h2, h3⟩

/-- C17: for a `ConversionMatrix` of order `order ≥ 0` between distinct bases, on a cache that
holds the blocks up to `order` (as it does after the constructor), `buildDenseMatrix()`
returns a square matrix of size `computeSize(order) = (order+1)(order+2)/2`; for each
`n ≤ order` the `(n+1)` by `(n+1)` sub-matrix at row and column `n(n+1)/2` is `getBlock(n)`;
the last block ends at the last index; every entry outside the diagonal blocks is zero. -/
theorem dense_matrix_structure (ops : FloatOps K) (m : ConversionMatrix)
    (s : ConversionSingleton K) (order : Nat) (hs : s.Valid ops) (ho : m._order = order)
    (hmax : m._order ≤ s._max_order) (hne : m._input ≠ m._output) :
    ∃ D : Block K, m.buildDenseMatrix s = some D ∧
      (D.rows : Int) = computeSize order ∧
      (D.rows : Int) = ((order : Int) + 1) * ((order : Int) + 2) / 2 ∧
      order * (order + 1) / 2 + (order + 1) = D.rows ∧
      (∀ n : Nat, n ≤ order → ∃ b : Block K, m.getBlock s n = some b ∧ b.rows = n + 1 ∧
        ∀ i j : Fin b.rows,
          ∃ (hi : n * (n + 1) / 2 + i.val < D.rows) (hj : n * (n + 1) / 2 + j.val < D.rows),
            D.coeff ⟨n * (n + 1) / 2 + i.val, hi⟩ ⟨n * (n + 1) / 2 + j.val, hj⟩ = b.coeff i j) ∧
      (∀ i j : Fin D.rows,
        (∀ n : Nat, n ≤ order →
          ¬ ((n * (n + 1) / 2 ≤ i.val ∧ i.val < n * (n + 1) / 2 + (n + 1)) ∧
            (n * (n + 1) / 2 ≤ j.val ∧ j.val < n * (n + 1) / 2 + (n + 1)))) →
        D.coeff i j = 0) := by
  obtain ⟨D, hD, hrows, hblocks, hout⟩ := buildDenseMatrix_spec ops m s order hs ho hmax hne
  have hsz : (D.rows : Int) = computeSize order := by rw [computeSize_eq, hrows]
  refine ⟨D, hD, hsz, by rw [hsz]; rfl, ?_, ?_, ?_⟩
  · rw [hrows, sizeFrom_succ_right, sizeFrom_zero]
    omega
  · intro n hn
    obtain ⟨b, hb, hbrows, _⟩ := getBlock_ready ops m s hs hmax hne n (by rw [ho]; exact_mod_cast hn)
    refine ⟨b, hb, hbrows, ?_⟩
    intro i j
    have hle : sizeFrom 0 n + (n + 1) ≤ D.rows := by
      have h1 := sizeFrom_mono 0 (n + 1) (order + 1) (by omega)
      rw [sizeFrom_succ_right] at h1
      rw [hrows]
      omega
    have hi : i.val < n + 1 := hbrows ▸ i.isLt
    have hj : j.val < n + 1 := hbrows ▸ j.isLt
    rw [← sizeFrom_zero]
    refine ⟨by omega, by omega, ?_⟩
    have h := hblocks n b hn hb i.val j.val hi hj
    rw [entry_eq] at h
    rw [← h, ← entry_eq]
  · intro i j hnot
    rw [← entry_eq]
    apply hout
    intro k hk
    have := hnot k hk
    rw [← sizeFrom_zero] at this
    exact this

/-- C17, witness: the order-1 matrix built on the empty cache has `computeSize(1) = 3` rows. -/
theorem dense_matrix_structure_witness :
    ∃ D : Block ℚ, (ConversionMatrix.new opsFixture ConversionSingleton.init HERMITE LAGUERRE
        1).1.buildDenseMatrix (ConversionMatrix.new opsFixture ConversionSingleton.init HERMITE
        LAGUERRE 1).2 = some D ∧ (D.rows : Int) = 3 := by
  obtain ⟨D, h1, h2, _⟩ := dense_matrix_structure opsFixture
    (ConversionMatrix.new opsFixture ConversionSingleton.init HERMITE LAGUERRE 1).1
    (ConversionMatrix.new opsFixture ConversionSingleton.init HERMITE LAGUERRE 1).2 1
    (new_cache_ready opsFixture _ (init_valid _) _ _ _).1 rfl
    (new_cache_ready opsFixture _ (init_valid _) _ _ _).2 (by decide)
  exact ⟨D, h1, by rw [h2]; decide⟩

/-- C18: `ensure(order)`, and with it every `ConversionMatrix` construction, preserves the
cache invariant (both vectors have `_max_order + 1` entries, entry `i` of `_h2l` is
`(i+1)` by `(i+1)` and entry `i` of `_l2h` is its inverse); afterwards `_max_order` is the
maximum of its old value and `order`, the old blocks are a prefix of the new vectors, and
`getBlock(n)` finds a block for every `0 ≤ n ≤ order`; in exact arithmetic. -/
theorem ensure_preserves_invariant (ops : FloatOps ℝ) (s : ConversionSingleton ℝ) (order : Int)
    (input output : BasisTypeEnum) (hops : ops.Regular) (hinv : s.Invariant) :
    (ConversionSingleton.init : ConversionSingleton ℝ).Invariant ∧
    (s.ensure ops order).Invariant ∧
    (ConversionMatrix.new ops s input output order).2.Invariant ∧
    (s.ensure ops order)._max_order = max s._max_order order ∧
    (∃ t1 t2, (s.ensure ops order)._h2l = s._h2l ++ t1 ∧
      (s.ensure ops order)._l2h = s._l2h ++ t2) ∧
    (∀ n : Int, 0 ≤ n → n ≤ order →
      ((s.ensure ops order).getBlockH2L n).isSome ∧ ((s.ensure ops order).getBlockL2H n).isSome ∧
      ((ConversionMatrix.new ops s input output order).1.getBlock
        (ConversionMatrix.new ops s input output order).2 n).isSome) := by
  have key : (s.ensure ops order).Invariant ∧
      (s.ensure ops order)._max_order = max s._max_order order ∧
      ∃ t1 t2, (s.ensure ops order)._h2l = s._h2l ++ t1 ∧
        (s.ensure ops order)._l2h = s._l2h ++ t2 := by
    unfold ConversionSingleton.ensure
    split
    · have := ensureLoop_invariant ops hops order (s._max_order + 1) s hinv rfl (by omega)
      exact ⟨this.1, by rw [this.2.1]; omega, this.2.2⟩
    · exact ⟨hinv, by omega, [], [], by simp, by simp⟩
  refine ⟨init_invariant, key.1, key.1, key.2.1, key.2.2, ?_⟩
  intro n h0 hn
  obtain ⟨l1, l2, _⟩ := key.1
  have hmax := key.2.1
  have hH : ((s.ensure ops order).getBlockH2L n).isSome := by
    simp only [ConversionSingleton.getBlockH2L, if_pos h0]
    rw [List.getElem?_eq_getElem (by omega)]
    rfl
  have hL : ((s.ensure ops order).getBlockL2H n).isSome := by
    simp only [ConversionSingleton.getBlockL2H, if_pos h0]
    rw [List.getElem?_eq_getElem (by omega)]
    rfl
  refine ⟨hH, hL, ?_⟩
  simp only [ConversionMatrix.new, ConversionMatrix.getBlock]
  split
  · rw [if_pos (by omega)]; rfl
  · split
    · exact hH
    · exact hL

/-- C18, witness: on the empty cache `ensure(2)` sets `_max_order` to 2. -/
theorem ensure_preserves_invariant_witness :
    ((ConversionSingleton.init : ConversionSingleton ℝ).ensure
        ⟨Real.sqrt, fun a b => a ^ b, Real.pi⟩ 2)._max_order = max (-1) 2 :=
  (ensure_preserves_invariant ⟨Real.sqrt, fun a b => a ^ b, Real.pi⟩ ConversionSingleton.init 2
    HERMITE LAGUERRE (exact_regular Real.pi) init_invariant).2.2.2.1

/-- C19: in exact arithmetic, for every `n`, every row `i ≤ n` (`m = 2i - n`, `p = i`,
`q = n - i`) and every column `x` (in particular `x ≤ n`), the entry `c(i, x)` accumulated by the filtered double
loop of `makeBlockH2L` is `(-i)^m * 2^(-n/2) * sqrt(x! (n-x)! / (p! q!))` times the sum over
`r` from `max(0, x - q)` (the natural-number difference `x - q`) to `min(p, x)` of
`i^(2r - x) * C(p, r) * C(q, x - r)`; the order-0 block is `[1]` and the packed real order-1
block is `[[0, 1/sqrt 2], [-1/sqrt 2, 0]]`. -/
theorem complex_entry_closed_form (pi : ℝ) (n i x : ℕ) (hi : i ≤ n) :
    toC (complexEntry ⟨Real.sqrt, fun a b => a ^ b, pi⟩ n i x) =
      (-Complex.I) ^ (2 * (i : ℤ) - (n : ℤ)) * (((2 : ℝ) ^ (-(n : ℝ) / 2) : ℝ) : ℂ) *
        ((Real.sqrt (((Nat.factorial x : ℝ) * (Nat.factorial (n - x) : ℝ)) /
          ((Nat.factorial i : ℝ) * (Nat.factorial (n - i) : ℝ))) : ℝ) : ℂ) *
        ∑ r ∈ Finset.Icc (x - (n - i)) (min i x),
          Complex.I ^ (2 * (r : ℤ) - (x : ℤ)) * (Nat.choose i r : ℂ) *
            (Nat.choose (n - i) (x - r) : ℂ) ∧
    (max 0 ((x : ℤ) - ((n : ℤ) - (i : ℤ))) = ((x - (n - i) : ℕ) : ℤ)) ∧
    (makeBlockH2L ⟨Real.sqrt, fun a b => a ^ b, pi⟩ 0).coeff = !![1] ∧
    (makeBlockH2L ⟨Real.sqrt, fun a b => a ^ b, pi⟩ 1).coeff =
      !![0, 1 / Real.sqrt 2; -(1 / Real.sqrt 2), 0] := by
  refine ⟨complexEntry_exact pi n i x hi, by omega, ?_, ?_⟩
  · have h := congrArg Complex.re (complexEntry_exact pi 0 0 0 (le_refl _))
    have r00 : (complexEntry ⟨Real.sqrt, fun a b => a ^ b, pi⟩ 0 0 0).re = 1 := by
      simpa [toC] using h
    ext a b
    rw [makeBlockH2L_coeff]
    fin_cases a
    fin_cases b
    simp [packedEntry, r00]
  · have h := exact_order_one pi
    have r00 : (complexEntry ⟨Real.sqrt, fun a b => a ^ b, pi⟩ 1 0 0).re = 0 := by
      simpa [toC] using congrArg Complex.re h.1
    have i00 : (complexEntry ⟨Real.sqrt, fun a b => a ^ b, pi⟩ 1 0 0).im = 1 / Real.sqrt 2 := by
      have := congrArg Complex.im h.1
      simp only [Complex.mul_im, Complex.I_re, Complex.I_im, Complex.ofReal_re,
        Complex.ofReal_im, zero_mul, one_mul, zero_add] at this
      exact this
    have r01 : (complexEntry ⟨Real.sqrt, fun a b => a ^ b, pi⟩ 1 0 1).re = 1 / Real.sqrt 2 := by
      have := congrArg Complex.re h.2
      simp only [Complex.ofReal_re] at this
      exact this
    have i01 : (complexEntry ⟨Real.sqrt, fun a b => a ^ b, pi⟩ 1 0 1).im = 0 := by
      simpa [toC] using congrArg Complex.im h.2
    ext a b
    rw [makeBlockH2L_coeff]
    fin_cases a <;> fin_cases b <;> simp [packedEntry, r00, i00, r01, i01]

/-- C19, witness: row `i = 0` of order `n = 1`, and the order-1 block with the real square
root and power. -/
theorem complex_entry_closed_form_witness :
    (0 : ℕ) ≤ 1 ∧
      (makeBlockH2L ⟨Real.sqrt, fun a b => a ^ b, Real.pi⟩ 1).coeff =
        !![0, 1 / Real.sqrt 2; -(1 / Real.sqrt 2), 0] :=
  ⟨by decide, (complex_entry_closed_form Real.pi 1 0 1 (by decide)).2.2.2⟩

/-- C20: for an evaluator whose grid transform has an invertible linear part, with inverse
`a`, and any translation `b`, and whose zeroth raw moment `m0` is not zero, `computeMoments()`
returns the ellipse with center `a (m1/m0 - b)` and quadrupole
`a (m2/m0 - (m1/m0)(m1/m0)^T) a^T`; this quadrupole is symmetric and is the same for every
translation. -/
theorem moments_closed_form (geom : Geometry K E) (hm : HermiteMethods K) (n : K)
    (l : Matrix (Fin 2) (Fin 2) K) (h : HermiteEvaluator) (c : List K)
    (hl : l.det ≠ 0) (h0 : hm.sumIntegration h c 0 0 ≠ 0) :
    (invert l * l = 1 ∧ l * invert l = 1) ∧
    (∀ b2 : Fin 2 → K,
      (⟨n, ⟨l, b2⟩, h, c⟩ : ShapeletFunctionEvaluator K).computeMoments geom hm =
        geom.ofQuadrupole
          (invert l *
            ((hm.sumIntegration h c 0 0)⁻¹ •
                !![hm.sumIntegration h c 2 0, hm.sumIntegration h c 1 1;
                   hm.sumIntegration h c 1 1, hm.sumIntegration h c 0 2] -
              Matrix.vecMulVec
                (fun i => ![hm.sumIntegration h c 1 0, hm.sumIntegration h c 0 1] i /
                  hm.sumIntegration h c 0 0)
                (fun i => ![hm.sumIntegration h c 1 0, hm.sumIntegration h c 0 1] i /
                  hm.sumIntegration h c 0 0)) *
            (invert l).transpose)
          ((invert l).mulVec
            ((fun i => ![hm.sumIntegration h c 1 0, hm.sumIntegration h c 0 1] i /
              hm.sumIntegration h c 0 0) - b2))) ∧
    (invert l *
        ((hm.sumIntegration h c 0 0)⁻¹ •
            !![hm.sumIntegration h c 2 0, hm.sumIntegration h c 1 1;
               hm.sumIntegration h c 1 1, hm.sumIntegration h c 0 2] -
          Matrix.vecMulVec
            (fun i => ![hm.sumIntegration h c 1 0, hm.sumIntegration h c 0 1] i /
              hm.sumIntegration h c 0 0)
            (fun i => ![hm.sumIntegration h c 1 0, hm.sumIntegration h c 0 1] i /
              hm.sumIntegration h c 0 0)) *
        (invert l).transpose).transpose =
      invert l *
        ((hm.sumIntegration h c 0 0)⁻¹ •
            !![hm.sumIntegration h c 2 0, hm.sumIntegration h c 1 1;
               hm.sumIntegration h c 1 1, hm.sumIntegration h c 0 2] -
          Matrix.vecMulVec
            (fun i => ![hm.sumIntegration h c 1 0, hm.sumIntegration h c 0 1] i /
              hm.sumIntegration h c 0 0)
            (fun i => ![hm.sumIntegration h c 1 0, hm.sumIntegration h c 0 1] i /
              hm.sumIntegration h c 0 0)) *
        (invert l).transpose := by
  refine ⟨invert_mul l hl, ?_, ?_⟩
  · intro b2
    simp only [ShapeletFunctionEvaluator.computeMoments,
      ShapeletFunctionEvaluator._computeRawMoments]
    congr 1
    · ext i j
      simp only [Matrix.sub_apply, Matrix.mul_apply, Fin.sum_univ_two, Matrix.add_apply,
        Matrix.smul_apply, Matrix.vecMulVec_apply, Matrix.transpose_apply, Matrix.mulVec,
        Matrix.dotProduct, Pi.sub_apply, Pi.smul_apply, Pi.add_apply, Pi.zero_apply,
        smul_eq_mul, zero_add, Matrix.zero_apply]
      field_simp
      ring
    · funext i
      simp only [Matrix.mulVec, Matrix.dotProduct, Fin.sum_univ_two, Pi.sub_apply,
        Pi.smul_apply, Pi.add_apply, Pi.zero_apply, smul_eq_mul, zero_add]
      field_simp
  · ext i j
    simp only [Matrix.transpose_apply, Matrix.sub_apply, Matrix.mul_apply, Fin.sum_univ_two,
      Matrix.smul_apply, Matrix.vecMulVec_apply, smul_eq_mul]
    fin_cases i <;> fin_cases j <;> simp <;> ring

/-- C20, witness: for the linear part `2 I` and an evaluator of flux 6, the matrix `invert`
returns is the inverse of the linear part on both sides. -/
theorem moments_closed_form_witness :
    invert (!![2, 0; 0, 2] : Matrix (Fin 2) (Fin 2) ℚ) * !![2, 0; 0, 2] = 1 ∧
      (!![2, 0; 0, 2] : Matrix (Fin 2) (Fin 2) ℚ) * invert !![2, 0; 0, 2] = 1 :=
  (moments_closed_form (geomFixture ℚ) (hermiteFixture 2) 1 !![2, 0; 0, 2] ⟨0⟩ [3]
    (by simp [Matrix.det_fin_two]) (by simp [hermiteFixture])).1

/-- C21: in `makeBlockH2L(n)`, in exact arithmetic, the complex matrix `c` is
conjugate-symmetric: row `n - i` (azimuthal index `-m`) is the complex conjugate of row `i`
(index `m`), and for even `n` the row `i = n/2` (`m = 0`) is real.  The real packing reads
only the rows `j` with `2 j ≤ n` and only the real part of the row with `2 j = n`, and every
entry of `c` is recovered from the real block `b`; for each column the packing loop writes
the rows `0, 1, ..., n` of `b`, each exactly once. -/
theorem packing_keeps_information (ops : FloatOps ℝ) (n i x : ℕ) (hi : i ≤ n) (hx : x ≤ n) :
    toC (complexEntry ops n (n - i) x) = (starRingEnd ℂ) (toC (complexEntry ops n i x)) ∧
    (2 * i = n → (complexEntry ops n i x).im = 0) ∧
    (∀ k y : Fin (n + 1),
      (makeBlockH2L ops n).coeff k y = packReal (complexEntry ops n) n k.val y.val) ∧
    (2 * i < n →
      (complexEntry ops n i x).re = packReal (complexEntry ops n) n (2 * i) x ∧
      (complexEntry ops n i x).im = -packReal (complexEntry ops n) n (2 * i + 1) x) ∧
    (2 * i = n →
      (complexEntry ops n i x).re = packReal (complexEntry ops n) n n x) ∧
    (n < 2 * i →
      (complexEntry ops n i x).re = packReal (complexEntry ops n) n (2 * (n - i)) x ∧
      (complexEntry ops n i x).im = packReal (complexEntry ops n) n (2 * (n - i) + 1) x) ∧
    (∀ c c2 : Nat → Nat → Cplx ℝ, (∀ j y, 2 * j < n → c j y = c2 j y) →
      (n % 2 = 0 → ∀ y, (c (n / 2) y).re = (c2 (n / 2) y).re) →
      packReal c n = packReal c2 n) ∧
    (∀ (c : Nat → Nat → Cplx ℝ) (b : Nat → Nat → ℝ),
      packColumn c x n 0 b =
        (packColumnWrites c x n 0).foldl (fun b w => writeCoeff b w.1 x w.2) b ∧
      (packColumnWrites c x n 0).map Prod.fst = List.range (n + 1)) := by
  have hrefl := reflect_parts ops n
  refine ⟨toC_complexEntry_reflect ops n i x hi, ?_, fun _ _ => rfl, ?_, ?_, ?_,
    fun c c2 h1 h2 => packReal_reads n c c2 h1 h2, ?_⟩
  · intro h2i
    have h := (hrefl i x hi).2
    have e : n - i = i := by omega
    rw [e] at h
    linarith
  · intro h2i
    rw [packReal_apply _ n (2 * i) x (by omega) hx,
      packReal_apply _ n (2 * i + 1) x (by omega) hx,
      (packedEntry_rows _ i x).1, (packedEntry_rows _ i x).2, neg_neg]
    exact ⟨rfl, rfl⟩
  · intro h2i
    have h := (packedEntry_rows (complexEntry ops n) i x).1
    rw [h2i] at h
    rw [packReal_apply _ n n x (le_refl _) hx, h]
  · intro h2i
    have h := hrefl (n - i) x (Nat.sub_le n i)
    have e : n - (n - i) = i := by omega
    rw [e] at h
    rw [packReal_apply _ n (2 * (n - i)) x (by omega) hx,
      packReal_apply _ n (2 * (n - i) + 1) x (by omega) hx,
      (packedEntry_rows _ (n - i) x).1, (packedEntry_rows _ (n - i) x).2, h.1, h.2]
    exact ⟨rfl, rfl⟩
  · intro c b
    refine ⟨packColumn_writes c x n 0 b, ?_⟩
    rw [packColumnWrites_rows, List.range_eq_range']
    rfl

/-- C21, witness: with the real square root and power, row 1 of order 2 is the `m = 0` row
and its entry in column 0 has imaginary part zero. -/
theorem packing_keeps_information_witness :
    (1 : ℕ) ≤ 2 ∧ (0 : ℕ) ≤ 2 ∧
      (complexEntry (⟨Real.sqrt, fun a b => a ^ b, Real.pi⟩ : FloatOps ℝ) 2 1 0).im = 0 :=
  ⟨by decide, by decide,
    (packing_keeps_information ⟨Real.sqrt, fun a b => a ^ b, Real.pi⟩ 2 1 0 (by decide)
      (by decide)).2.1 rfl⟩

end Claims

end Shapelet
